import Mathlib

/-!
# Rule-table registry (`table.c`, `table.h`)

A shallow embedding of the reference-counted table registry and of its reload
algorithm, followed by the properties proved about it.

Memory is explicit: a `State` maps the address of every `table_t` that is
currently allocated to its fields, and records, in order, the calls made to the
rule engine and to the logger.  A `table_head_t` (an `SLIST_HEAD`) is the list
of the addresses of its nodes in link order, the first node first; the
`entries` link of a node is therefore not a field of `table_t`.  A function that
dereferences a pointer to storage that is not allocated, fails an `assert`, or
increments an `int` that is already `INT_MAX`, returns a `Fault`.
-/

namespace Table

/-! ## Data model -/

/-- Modelled from the spec: `rule_t` is declared in `rule.h`, which is not among the
sources; a rule is an opaque matching unit, represented by a number standing for it. -/
abbrev rule_t := Nat

/-- Address of a `table_t`; a possibly-NULL pointer is an `Option ptr`. -/
abbrev ptr := Nat

/-- The largest value of the C type `int` (32 bits). -/
def INT_MAX : Int := 2147483647

/-- Fields of `struct table`: `char *name` (NULL is `none`, a C string is the `String` of
its characters, so that `strcmp(a, b) == 0` is `a = b`), `int reference_count`,
`rule_head_t rules` (the rules in queue order). -/
structure table_t where
  name : Option String
  reference_count : Int
  rules : List rule_t
deriving DecidableEq, Repr

/-- `SLIST_HEAD(table_head, table)`: the nodes of the list, first node first. -/
abbrev table_head_t := List ptr

/-- Calls that leave this module, in the order they are made. -/
inductive Event where
  | init_rule (rule : rule_t)
  | remove_rule (rule : rule_t)
  | LOGE (format : String)
deriving DecidableEq, Repr

/-- Ways a call can go wrong instead of returning. -/
inductive Fault where
  | assert_failed
  | bad_pointer
  | int_overflow
deriving DecidableEq, Repr

/-- Allocated tables and the trace of outgoing calls. -/
structure State where
  heap : ptr → Option table_t
  log : List Event

/-- Store `v` at address `p`. -/
def State.store (s : State) (p : ptr) (v : Option table_t) : State :=
  { heap := Function.update s.heap p v, log := s.log }

/-- Append an outgoing call to the trace. -/
def State.emit (s : State) (e : Event) : State :=
  { heap := s.heap, log := s.log ++ [e] }

/-! ## Table lifecycle -/

/-- `new_table()`; `m` is what `malloc` returns (`none` for NULL). -/
def new_table (s : State) (m : Option ptr) : State × Option ptr :=
  match m with
  | none => (s.emit (Event.LOGE "malloc: %s"), none)
  | some table =>
    (s.store table (some { name := none, reference_count := 0, rules := [] }), some table)

/-- `strdup(arg)`: a copy of `arg`, or NULL when the allocation fails. -/
def strdup (alloc_ok : Bool) (arg : String) : Option String :=
  if alloc_ok then some arg else none

/-- `accept_table_arg(table, arg)`; `alloc_ok` tells whether `strdup` can allocate. -/
def accept_table_arg (s : State) (table : ptr) (arg : String) (alloc_ok : Bool) :
    Except Fault (State × Int) :=
  match s.heap table with
  | none => .error Fault.bad_pointer
  | some t =>
    match t.name with
    | none =>
      let s1 := s.store table (some { t with name := strdup alloc_ok arg })
      match strdup alloc_ok arg with
      | none => .ok (s1.emit (Event.LOGE "strdup: %s"), -1)
      | some _ => .ok (s1, 1)
    | some _ => .ok (s.emit (Event.LOGE "Unexpected table argument: %s"), -1)

/-- `table_ref_get(table)`. -/
def table_ref_get (s : State) (table : ptr) : Except Fault (State × ptr) :=
  match s.heap table with
  | none => .error Fault.bad_pointer
  | some t =>
    if t.reference_count < INT_MAX then
      .ok (s.store table (some { t with reference_count := t.reference_count + 1 }), table)
    else .error Fault.int_overflow

/-- Modelled from the spec: `remove_rule` belongs to the rule engine (`rule.c` is not
among the sources): it detaches and frees one rule.  This is the loop of `free_table`,
`while ((iter = STAILQ_FIRST(&table->rules)) != NULL) remove_rule(&table->rules, iter)`:
the first rule is handed to `remove_rule` until the queue is empty. -/
def free_table_rules : List rule_t → List Event → List Event
  | [], log => log
  | iter :: rest, log => free_table_rules rest (log ++ [Event.remove_rule iter])

/-- `free_table(table)`. -/
def free_table (s : State) (table : Option ptr) : Except Fault State :=
  match table with
  | none => .ok s
  | some p =>
    match s.heap p with
    | none => .error Fault.bad_pointer
    | some t =>
      .ok { heap := Function.update s.heap p none, log := free_table_rules t.rules s.log }

/-- `table_ref_put(table)`. -/
def table_ref_put (s : State) (table : Option ptr) : Except Fault State :=
  match table with
  | none => .ok s
  | some p =>
    match s.heap p with
    | none => .error Fault.bad_pointer
    | some t =>
      if 0 < t.reference_count then
        let s1 := s.store p (some { t with reference_count := t.reference_count - 1 })
        if t.reference_count - 1 = 0 then free_table s1 (some p) else .ok s1
      else .error Fault.assert_failed

/-- Modelled from the spec: `init_rule` belongs to the rule engine; `init_table` calls it
on each rule of the queue in turn (`STAILQ_FOREACH`) and drops what it returns. -/
def init_table_rules : List rule_t → List Event → List Event
  | [], log => log
  | iter :: rest, log => init_table_rules rest (log ++ [Event.init_rule iter])

/-- `init_table(table)`. -/
def init_table (s : State) (table : ptr) : Except Fault State :=
  match s.heap table with
  | none => .error Fault.bad_pointer
  | some t => .ok { heap := s.heap, log := init_table_rules t.rules s.log }

/-! ## Registry -/

/-- `add_table(tables, table)`: returns the new list. -/
def add_table (s : State) (tables : table_head_t) (table : ptr) :
    Except Fault (State × table_head_t) :=
  match table_ref_get s table with
  | .error e => .error e
  | .ok (s1, _) => .ok (s1, table :: tables)

/-- `free_tables(tables)`: returns the list left in `tables`. -/
def free_tables : table_head_t → State → Except Fault (State × table_head_t)
  | [], s => .ok (s, [])
  | iter :: rest, s =>
    match table_ref_put s (some iter) with
    | .error e => .error e
    | .ok s1 => free_tables rest s1

/-- `table_lookup(tables, name)`. -/
def table_lookup (s : State) : table_head_t → Option String → Except Fault (Option ptr)
  | [], _ => .ok none
  | iter :: rest, name =>
    match s.heap iter with
    | none => .error Fault.bad_pointer
    | some t =>
      match t.name, name with
      | none, none => .ok (some iter)
      | some a, some b => if a = b then .ok (some iter) else table_lookup s rest name
      | _, _ => table_lookup s rest name

/-- `SLIST_REMOVE(tables, table, table, entries)`: unlink the node `table`.  The list is
walked from its first node, every node on the way is read; a list that does not hold
`table` is walked to its end and beyond. -/
def SLIST_REMOVE (s : State) : table_head_t → ptr → Except Fault table_head_t
  | [], _ => .error Fault.bad_pointer
  | first :: rest, table =>
    match s.heap first with
    | none => .error Fault.bad_pointer
    | some _ =>
      if first = table then .ok rest
      else
        match SLIST_REMOVE s rest table with
        | .error e => .error e
        | .ok rest1 => .ok (first :: rest1)

/-- `remove_table(tables, table)`: returns the new list. -/
def remove_table (s : State) (tables : table_head_t) (table : ptr) :
    Except Fault (State × table_head_t) :=
  match SLIST_REMOVE s tables table with
  | .error e => .error e
  | .ok tables1 =>
    match table_ref_put s (some table) with
    | .error e => .error e
    | .ok s1 => .ok (s1, tables1)

/-! ## Reload -/

/-- First loop of `reload_tables`: unused elements at the beginning of the list. -/
def reload_prune_head (new_tables : table_head_t) :
    table_head_t → State → Except Fault (State × table_head_t)
  | [], s => .ok (s, [])
  | iter :: rest, s =>
    match s.heap iter with
    | none => .error Fault.bad_pointer
    | some t =>
      match table_lookup s new_tables t.name with
      | .error e => .error e
      | .ok (some _) => .ok (s, iter :: rest)
      | .ok none =>
        match table_ref_put s (some iter) with
        | .error e => .error e
        | .ok s1 => reload_prune_head new_tables rest s1

/-- Second loop of `reload_tables`, from the node `iter` onwards: the argument is the part
of the list that starts at `iter`, the result is what that part has become.  When the
successor `temp` is unlinked, `iter` moves on to the node that followed `temp`. -/
def reload_prune_rest (new_tables : table_head_t) :
    table_head_t → State → Except Fault (State × table_head_t)
  | [], s => .ok (s, [])
  | [iter], s =>
    match s.heap iter with
    | none => .error Fault.bad_pointer
    | some _ => .ok (s, [iter])
  | iter :: temp :: rest, s =>
    match s.heap iter with
    | none => .error Fault.bad_pointer
    | some _ =>
      match s.heap temp with
      | none => .error Fault.bad_pointer
      | some t =>
        match table_lookup s new_tables t.name with
        | .error e => .error e
        | .ok none =>
          match table_ref_put s (some temp) with
          | .error e => .error e
          | .ok s1 =>
            match reload_prune_rest new_tables rest s1 with
            | .error e => .error e
            | .ok (s2, rest1) => .ok (s2, iter :: rest1)
        | .ok (some _) =>
          match reload_prune_rest new_tables (temp :: rest) s with
          | .error e => .error e
          | .ok (s2, rest1) => .ok (s2, iter :: rest1)

/-- Write the `rules` field of the table at `p`. -/
def set_rules (s : State) (p : ptr) (rules : List rule_t) : State :=
  s.store p ((s.heap p).map fun t => { t with rules := rules })

/-- Third loop of `reload_tables`: returns `tables` and what is left of `new_tables`. -/
def reload_merge :
    table_head_t → State → table_head_t → Except Fault (State × table_head_t × table_head_t)
  | [], s, tables => .ok (s, tables, [])
  | iter :: rest, s, tables =>
    match init_table s iter with
    | .error e => .error e
    | .ok s1 =>
      match s1.heap iter with
      | none => .error Fault.bad_pointer
      | some t =>
        match table_lookup s1 tables t.name with
        | .error e => .error e
        | .ok (some existing) =>
          match s1.heap existing with
          | none => .error Fault.bad_pointer
          | some e =>
            let temp := e.rules
            let s2 := set_rules s1 existing t.rules
            let s3 := set_rules s2 iter temp
            match table_ref_put s3 (some iter) with
            | .error f => .error f
            | .ok s4 => reload_merge rest s4 tables
        | .ok none =>
          match add_table s1 tables iter with
          | .error f => .error f
          | .ok (s2, tables1) =>
            match table_ref_put s2 (some iter) with
            | .error f => .error f
            | .ok s3 => reload_merge rest s3 tables1

/-- `reload_tables(tables, new_tables)`: returns `tables` and `new_tables` as left. -/
def reload_tables (s : State) (tables new_tables : table_head_t) :
    Except Fault (State × table_head_t × table_head_t) :=
  match reload_prune_head new_tables tables s with
  | .error e => .error e
  | .ok (s1, tables1) =>
    match reload_prune_rest new_tables tables1 s1 with
    | .error e => .error e
    | .ok (s2, tables2) => reload_merge new_tables s2 tables2

/-! ## Definitions used to state the properties -/

deriving instance DecidableEq for Except

/-- The state after the last reference of the table at `p`, whose fields were `t`, has
been released: the storage is gone and every rule went through `remove_rule` in order. -/
def State.freed (s : State) (p : ptr) (t : table_t) : State :=
  { heap := Function.update s.heap p none, log := s.log ++ t.rules.map Event.remove_rule }

/-- Name of the table at `p`: `none` when nothing is allocated there, `some none` for a
table whose name is NULL. -/
def name_at (s : State) (p : ptr) : Option (Option String) :=
  (s.heap p).map fun t => t.name

/-- A call on one table through its reference-counting interface. -/
inductive RefOp where
  | get
  | put
deriving DecidableEq, Repr

/-- Make the calls of `ops` on the table at `p`, one after the other. -/
def run_ref_ops (p : ptr) : List RefOp → State → Except Fault State
  | [], s => .ok s
  | RefOp.get :: rest, s =>
    match table_ref_get s p with
    | .error e => .error e
    | .ok (s1, _) => run_ref_ops p rest s1
  | RefOp.put :: rest, s =>
    match table_ref_put s (some p) with
    | .error e => .error e
    | .ok s1 => run_ref_ops p rest s1

/-- What the specification calls lookup: the first table of the list, in list order,
whose name equals the query, the absent name being equal to itself only. -/
def lookup_by_name (s : State) (tables : table_head_t) (name : Option String) : Option ptr :=
  tables.find? fun p => decide (name_at s p = some name)

/-- Number of `get` calls minus number of `put` calls. -/
def balance (ops : List RefOp) : Int :=
  (ops.count RefOp.get : Int) - (ops.count RefOp.put : Int)

/-- What one `table_ref_put` leaves of a table that held at least one reference. -/
def put_result (t : table_t) : Option table_t :=
  if t.reference_count = 1 then none
  else some { t with reference_count := t.reference_count - 1 }

/-- Every table linked in `tables` is allocated and holds at least one reference. -/
def linked (s : State) (tables : table_head_t) : Prop :=
  ∀ p ∈ tables, ∃ t ∈ s.heap p, 1 ≤ t.reference_count

instance (s : State) (tables : table_head_t) : Decidable (linked s tables) := by
  unfold linked
  infer_instance

/-- No two tables of the list carry the same name (NULL counts as a name). -/
def names_distinct (s : State) (tables : table_head_t) : Prop :=
  tables.Pairwise fun p q => name_at s p ≠ name_at s q

instance (s : State) (tables : table_head_t) : Decidable (names_distinct s tables) := by
  unfold names_distinct
  infer_instance

/-- The `int` counter of every table of the list is below `INT_MAX`, so that one more
reference to the table can be counted. -/
def room (s : State) (tables : table_head_t) : Prop :=
  ∀ p ∈ tables, ∀ t ∈ s.heap p, t.reference_count < INT_MAX

instance (s : State) (tables : table_head_t) : Decidable (room s tables) := by
  unfold room
  infer_instance

/-- Two registries that can be handed to `reload_tables`: each is a list without
repetition, they share no table, and every linked table is allocated with
`reference_count >= 1`. -/
structure well_linked (s : State) (active incoming : table_head_t) : Prop where
  nodup_active : active.Nodup
  nodup_incoming : incoming.Nodup
  disjoint : ∀ p ∈ active, p ∉ incoming
  linked_active : linked s active
  linked_incoming : linked s incoming

/-- Two well-formed registries: each is a list without repetition, they share no table,
every linked table is allocated with `reference_count >= 1`, names are pairwise distinct
within each registry, and the `int` counter of an incoming table is below `INT_MAX`, so
that one more reference to it can be counted. -/
structure well_formed (s : State) (active incoming : table_head_t) : Prop where
  nodup_active : active.Nodup
  nodup_incoming : incoming.Nodup
  disjoint : ∀ p ∈ active, p ∉ incoming
  linked_active : linked s active
  linked_incoming : linked s incoming
  names_active : names_distinct s active
  names_incoming : names_distinct s incoming
  room_incoming : room s incoming

/-- Outcome of the two pruning loops of `reload_tables` on the list `l`: the list `l1`
that is left keeps the order of `l`; a table that was unlinked carries a name that no
table of `new_tables` carries, and lost one reference; every other table is untouched. -/
structure Pruned (new_tables : table_head_t) (s : State) (l : table_head_t) (s1 : State)
    (l1 : table_head_t) : Prop where
  sublist : l1.Sublist l
  stale : ∀ p ∈ l, p ∉ l1 → ∀ q ∈ new_tables, name_at s q ≠ name_at s p
  released : ∀ p ∈ l, p ∉ l1 → ∃ t, s.heap p = some t ∧ s1.heap p = put_result t
  frame : ∀ q, (q ∈ l1 ∨ q ∉ l) → s1.heap q = s.heap q

/-- Outcome of the third loop of `reload_tables` on registries with pairwise distinct
names: the incoming tables whose name was not linked are linked in front, the last one
first; an incoming table `T` named like a linked table `E` has exchanged its rules with
`E` and lost one reference; every other table is untouched. -/
structure Merged (s : State) (tables new_tables : table_head_t) (s1 : State)
    (tables1 : table_head_t) : Prop where
  list : tables1 =
    (new_tables.filter fun T => decide (name_at s T ∉ tables.map (name_at s))).reverse ++ tables
  swapped : ∀ T ∈ new_tables, ∀ E ∈ tables, name_at s T = name_at s E →
    ∀ t e, s.heap T = some t → s.heap E = some e →
      s1.heap E = some { e with rules := t.rules } ∧
      s1.heap T = put_result { t with rules := e.rules }
  inserted : ∀ T ∈ new_tables, (∀ E ∈ tables, name_at s T ≠ name_at s E) →
    s1.heap T = s.heap T
  kept : ∀ p ∈ tables, (∀ T ∈ new_tables, name_at s T ≠ name_at s p) → s1.heap p = s.heap p
  frame : ∀ p, p ∉ tables → p ∉ new_tables → s1.heap p = s.heap p

/-- `table_lookup(tables, name)` made right after `reload_tables(tables, new_tables)`. -/
def lookup_after_reload (s : State) (tables new_tables : table_head_t)
    (name : Option String) : Except Fault (Option ptr) :=
  match reload_tables s tables new_tables with
  | .error e => .error e
  | .ok (s1, tables1, _) => table_lookup s1 tables1 name

/-- A state with one table, at address 1. -/
def one_table (t : table_t) : State :=
  { heap := fun p => if p = 1 then some t else none, log := [] }

/-- Five tables: "b", "a" (which has an external holder) and "c" at addresses 1 to 3,
a second "b" at 4 and "d" at 5. -/
def five_tables : State :=
  { heap := fun p =>
      if p = 1 then some ⟨some "b", 1, [10]⟩
      else if p = 2 then some ⟨some "a", 2, [20]⟩
      else if p = 3 then some ⟨some "c", 1, [30]⟩
      else if p = 4 then some ⟨some "b", 1, [40, 41]⟩
      else if p = 5 then some ⟨some "d", 1, [50]⟩
      else none,
    log := [] }

/-- Two tables with the same name and the same rules, at addresses 1 and 2. -/
def twin_tables : State :=
  { heap := fun p =>
      if p = 1 then some ⟨some "a", 3, [10, 11]⟩
      else if p = 2 then some ⟨some "a", 1, [10, 11]⟩
      else none,
    log := [] }

/-- Modelled from the spec: `init_rule` belongs to the rule engine (`rule.c` is not among
the sources) and may fail; `answers r` is the `int` it returns for the rule `r`.  This is
the loop of `init_table` with that value in sight: the call is a statement of its own,
nothing is done with its value. -/
def init_table_rules_with (answers : rule_t → Int) : List rule_t → List Event → List Event
  | [], log => log
  | iter :: rest, log =>
    let _ := answers iter
    init_table_rules_with answers rest (log ++ [Event.init_rule iter])

/-- `init_table(table)` when `init_rule` returns `answers r` for the rule `r`. -/
def init_table_with (answers : rule_t → Int) (s : State) (table : ptr) : Except Fault State :=
  match s.heap table with
  | none => .error Fault.bad_pointer
  | some t => .ok { heap := s.heap, log := init_table_rules_with answers t.rules s.log }

/-- Outcome of the third loop of `reload_tables` whatever the names: the tables linked at
the end are some incoming tables, the last inserted first, in front of those that were
linked; a linked table has the count and name it had; an incoming table that is not
linked has lost one reference; a table outside both registries is untouched. -/
structure Settled (s : State) (tables new_tables : table_head_t) (s1 : State)
    (tables1 : table_head_t) : Prop where
  nodup : tables1.Nodup
  grown : ∃ ins : table_head_t, ins.Sublist new_tables ∧ tables1 = ins.reverse ++ tables
  counts : ∀ p ∈ tables1, ∃ t t1, s.heap p = some t ∧ s1.heap p = some t1 ∧
    t1.reference_count = t.reference_count ∧ t1.name = t.name ∧ 1 ≤ t.reference_count
  released : ∀ T ∈ new_tables, T ∉ tables1 → ∃ t, s.heap T = some t ∧
    (t.reference_count = 1 → s1.heap T = none) ∧
    (1 < t.reference_count → ∃ t1, s1.heap T = some t1 ∧
      t1.reference_count = t.reference_count - 1 ∧ t1.name = t.name)
  frame : ∀ p, p ∉ tables → p ∉ new_tables → s1.heap p = s.heap p

/-- Rules of the table at `p`; nothing when no table is allocated there. -/
def rules_at (s : State) (p : ptr) : List rule_t :=
  match s.heap p with
  | some t => t.rules
  | none => []

/-- Outcome of the third loop of `reload_tables` when the names of `tables` are pairwise
distinct and those of `new_tables` are arbitrary: the names of the linked tables are
still pairwise distinct; a linked table owns the rules that the last incoming table of
its name brought, or its own rules when no incoming table has its name; the first
incoming table of a name that was not linked is linked. -/
structure Named (s : State) (tables new_tables : table_head_t) (s1 : State)
    (tables1 : table_head_t) : Prop where
  distinct : names_distinct s tables1
  rules : ∀ p ∈ tables1, ∀ n, name_at s p = some n →
    rules_at s1 p = rules_at s ((lookup_by_name s new_tables.reverse n).getD p)
  inserted : ∀ T ∈ new_tables, ∀ n, name_at s T = some n →
    (∀ E ∈ tables, name_at s E ≠ some n) → lookup_by_name s new_tables n = some T →
    T ∈ tables1

/-- One table "a" at address 1, and four incoming tables: "a" at 2 and 3, "c" at 4 and 5,
the last one with an external holder. -/
def dup_tables : State :=
  { heap := fun p =>
      if p = 1 then some ⟨some "a", 1, [10]⟩
      else if p = 2 then some ⟨some "a", 1, [20]⟩
      else if p = 3 then some ⟨some "a", 1, [30]⟩
      else if p = 4 then some ⟨some "c", 1, [40]⟩
      else if p = 5 then some ⟨some "c", 2, [50]⟩
      else none,
    log := [] }

/-- Every event of `added` is a `remove_rule` on a rule owned, in the state `s`, by a
table of `l` that is not in `l1`. -/
def freed_rules (s : State) (l l1 : table_head_t) (added : List Event) : Prop :=
  ∀ ev ∈ added, ∃ p ∈ l, p ∉ l1 ∧ ∃ r ∈ rules_at s p, ev = Event.remove_rule r

/-- What one round of the third loop of `reload_tables` logs for the incoming table `T`
when it starts in the state `s` with the list `tables`: `init_rule` on each rule of `T`,
then, when a table named like `T` is linked and `T` holds a single reference,
`remove_rule` on each rule of that table. -/
def merge_events (s : State) (tables : table_head_t) (T : ptr) : List Event :=
  match s.heap T with
  | none => []
  | some t =>
    t.rules.map Event.init_rule ++
      match lookup_by_name s tables t.name with
      | none => []
      | some E =>
        if t.reference_count = 1 then (rules_at s E).map Event.remove_rule else []

/-- Log of the third loop on registries with pairwise distinct names. -/
def merge_log (s : State) (tables : table_head_t) : table_head_t → List Event
  | [] => []
  | T :: rest => merge_events s tables T ++ merge_log s tables rest

/-- Rules are told apart by their number: no table of the list holds a rule twice, and
no two tables of the list hold a rule in common. -/
def rules_apart (s : State) (l : table_head_t) : Prop :=
  (∀ p ∈ l, (rules_at s p).Nodup) ∧
  l.Pairwise fun p q => ∀ r ∈ rules_at s p, r ∉ rules_at s q

instance (s : State) (l : table_head_t) : Decidable (rules_apart s l) := by
  unfold rules_apart
  infer_instance

/-- The two registries of the program. -/
inductive Reg where
  | active
  | incoming
deriving DecidableEq, Repr

/-- Memory, the two registries, and for each table the number of references that
external holders have taken with `table_ref_get` and not yet given back. -/
structure World where
  s : State
  active : table_head_t
  incoming : table_head_t
  holders : ptr → Nat

/-- The list of a registry. -/
def World.reg (w : World) : Reg → table_head_t
  | Reg.active => w.active
  | Reg.incoming => w.incoming

/-- The world after an operation on the registry `r` left the state `s1` and the list `l`. -/
def World.with_reg (w : World) (r : Reg) (s1 : State) (l : table_head_t) : World :=
  match r with
  | Reg.active => { w with s := s1, active := l }
  | Reg.incoming => { w with s := s1, incoming := l }

/-- Nothing allocated, both registries empty, no holder. -/
def World.start : World :=
  { s := { heap := fun _ => none, log := [] }, active := [], incoming := [],
    holders := fun _ => 0 }

/-- One call that returns.  `alloc` is `new_table` (`malloc` hands out storage that is
not in use); `link` is `add_table` on a table that is not linked (a node has one
`entries` link); `unlink` is `remove_table`; `drain` is `free_tables`; `reload` is
`reload_tables(active, incoming)`; `retain` is `table_ref_get` by an external holder and
`release` the `table_ref_put` that pairs with an earlier `retain`. -/
inductive Step : World → World → Prop where
  | alloc (w : World) (m : Option ptr) (hfresh : ∀ p, m = some p → w.s.heap p = none) :
      Step w { w with s := (new_table w.s m).1 }
  | link (w : World) (r : Reg) (p : ptr) (s1 : State) (l1 : table_head_t)
      (hactive : p ∉ w.active) (hincoming : p ∉ w.incoming)
      (h : add_table w.s (w.reg r) p = .ok (s1, l1)) : Step w (w.with_reg r s1 l1)
  | unlink (w : World) (r : Reg) (p : ptr) (s1 : State) (l1 : table_head_t)
      (h : remove_table w.s (w.reg r) p = .ok (s1, l1)) : Step w (w.with_reg r s1 l1)
  | drain (w : World) (r : Reg) (s1 : State) (l1 : table_head_t)
      (h : free_tables (w.reg r) w.s = .ok (s1, l1)) : Step w (w.with_reg r s1 l1)
  | reload (w : World) (s1 : State) (a1 i1 : table_head_t)
      (h : reload_tables w.s w.active w.incoming = .ok (s1, a1, i1)) :
      Step w { w with s := s1, active := a1, incoming := i1 }
  | retain (w : World) (p q : ptr) (s1 : State) (h : table_ref_get w.s p = .ok (s1, q)) :
      Step w { w with s := s1, holders := Function.update w.holders p (w.holders p + 1) }
  | release (w : World) (p : ptr) (s1 : State) (hheld : 0 < w.holders p)
      (h : table_ref_put w.s (some p) = .ok s1) :
      Step w { w with s := s1, holders := Function.update w.holders p (w.holders p - 1) }

/-- The worlds that calls that return lead to, from the start. -/
inductive Reachable : World → Prop where
  | start : Reachable World.start
  | step (w w1 : World) (hw : Reachable w) (h : Step w w1) : Reachable w1

/-- The reference counts add up: the two lists have no repetition and share no table; a
linked table is allocated and its count is one, for the registry, plus the number of its
external holders; a table that is allocated and not linked counts its external holders;
storage that is not allocated has no holder. -/
structure Counted (s : State) (l other : table_head_t) (holders : ptr → Nat) : Prop where
  nodup_l : l.Nodup
  nodup_other : other.Nodup
  disjoint : ∀ p ∈ l, p ∉ other
  linked : ∀ p, p ∈ l ∨ p ∈ other →
    ∃ t, s.heap p = some t ∧ t.reference_count = 1 + (holders p : Int)
  loose : ∀ p, p ∉ l → p ∉ other → ∀ t, s.heap p = some t →
    t.reference_count = (holders p : Int)
  gone : ∀ p, s.heap p = none → holders p = 0

/-- The world after `new_table` returned the address 1. -/
def world_allocated : World :=
  { World.start with s := (new_table World.start.s (some 1)).1 }

/-- The world after that table was added to the active registry. -/
def world_linked : World :=
  world_allocated.with_reg Reg.active
    (world_allocated.s.store 1 (some ⟨none, 1, []⟩)) [1]

/-! ## Memory and reference counting -/

@[simp] theorem store_heap_same (s : State) (p : ptr) (v : Option table_t) :
    (s.store p v).heap p = v := by
  simp [State.store]

@[simp] theorem store_heap_other (s : State) {p q : ptr} (v : Option table_t) (h : q ≠ p) :
    (s.store p v).heap q = s.heap q := by
  simp [State.store, Function.update_noteq h]

@[simp] theorem store_log (s : State) (p : ptr) (v : Option table_t) :
    (s.store p v).log = s.log := rfl

theorem free_table_rules_eq (rules : List rule_t) (log : List Event) :
    free_table_rules rules log = log ++ rules.map Event.remove_rule := by
  induction rules generalizing log with
  | nil => simp [free_table_rules]
  | cons r rest ih => simp [free_table_rules, ih]

theorem init_table_rules_eq (rules : List rule_t) (log : List Event) :
    init_table_rules rules log = log ++ rules.map Event.init_rule := by
  induction rules generalizing log with
  | nil => simp [init_table_rules]
  | cons r rest ih => simp [init_table_rules, ih]

theorem table_ref_put_last (s : State) (p : ptr) (t : table_t) (h : s.heap p = some t)
    (h1 : t.reference_count = 1) : table_ref_put s (some p) = .ok (s.freed p t) := by
  simp [table_ref_put, h, h1, free_table, State.freed, State.store, free_table_rules_eq]

theorem table_ref_put_shared (s : State) (p : ptr) (t : table_t) (h : s.heap p = some t)
    (h1 : 1 < t.reference_count) :
    table_ref_put s (some p) =
      .ok (s.store p (some { t with reference_count := t.reference_count - 1 })) := by
  have h2 : 0 < t.reference_count := by omega
  have h3 : ¬ (t.reference_count - 1 = 0) := by omega
  simp [table_ref_put, h, h2, h3]

theorem table_ref_put_assert (s : State) (p : ptr) (t : table_t) (h : s.heap p = some t)
    (h1 : t.reference_count ≤ 0) : table_ref_put s (some p) = .error Fault.assert_failed := by
  have h2 : ¬ (0 < t.reference_count) := by omega
  simp [table_ref_put, h, h2]

theorem table_ref_get_ok (s : State) (p : ptr) (t : table_t) (h : s.heap p = some t)
    (h1 : t.reference_count < INT_MAX) :
    table_ref_get s p =
      .ok (s.store p (some { t with reference_count := t.reference_count + 1 }), p) := by
  simp [table_ref_get, h, h1]

@[simp] theorem freed_heap_same (s : State) (p : ptr) (t : table_t) :
    (s.freed p t).heap p = none := by
  simp [State.freed]

@[simp] theorem freed_heap_other (s : State) {p q : ptr} (t : table_t) (h : q ≠ p) :
    (s.freed p t).heap q = s.heap q := by
  simp [State.freed, Function.update_noteq h]

theorem table_ref_put_ok_inv (s s' : State) (p : ptr) (t : table_t) (h : s.heap p = some t)
    (hput : table_ref_put s (some p) = .ok s') :
    0 < t.reference_count ∧
      (t.reference_count = 1 → s' = s.freed p t) ∧
      (1 < t.reference_count →
        s' = s.store p (some { t with reference_count := t.reference_count - 1 })) := by
  rcases lt_trichotomy t.reference_count 1 with h1 | h1 | h1
  · rw [table_ref_put_assert s p t h (by omega)] at hput
    cases hput
  · rw [table_ref_put_last s p t h h1] at hput
    cases hput
    exact ⟨by omega, fun _ => rfl, fun h2 => by omega⟩
  · rw [table_ref_put_shared s p t h h1] at hput
    cases hput
    exact ⟨by omega, fun h2 => by omega, fun _ => rfl⟩

/-- C7: `table_ref_put` on a non-null table frees the table exactly when its
`reference_count` goes from 1 to 0.  With count 1 the storage is released and every rule
has gone through `remove_rule`, in order; with count `k > 1` the table stays allocated
with count `k - 1`, its name and rules unchanged; with a count that is not positive the
assertion fails.  A call that returns never leaves a count that is not positive, and
touches no other table. -/
theorem table_ref_put_frees_exactly_at_one (s : State) (p : ptr) (t : table_t)
    (h : s.heap p = some t) :
    (t.reference_count = 1 →
      ∃ s', table_ref_put s (some p) = .ok s' ∧ s'.heap p = none ∧
        s'.log = s.log ++ t.rules.map Event.remove_rule) ∧
    (1 < t.reference_count →
      ∃ s', table_ref_put s (some p) = .ok s' ∧
        s'.heap p = some { t with reference_count := t.reference_count - 1 } ∧
        s'.log = s.log) ∧
    (t.reference_count ≤ 0 → table_ref_put s (some p) = .error Fault.assert_failed) ∧
    (∀ s', table_ref_put s (some p) = .ok s' →
      (s'.heap p = none ↔ t.reference_count = 1) ∧
      (∀ t', s'.heap p = some t' → 0 < t'.reference_count) ∧
      (∀ q, q ≠ p → s'.heap q = s.heap q)) := by
  refine ⟨fun h1 => ⟨_, table_ref_put_last s p t h h1, by simp, rfl⟩,
    fun h1 => ⟨_, table_ref_put_shared s p t h h1, by simp, rfl⟩,
    table_ref_put_assert s p t h, ?_⟩
  intro s' hput
  obtain ⟨hpos, hone, hmany⟩ := table_ref_put_ok_inv s s' p t h hput
  rcases eq_or_lt_of_le (show (1 : Int) ≤ t.reference_count by omega) with h1 | h1
  · rw [hone h1.symm]
    refine ⟨by simp [h1.symm], by simp, fun q hq => by simp [hq]⟩
  · rw [hmany h1]
    refine ⟨?_, ?_, fun q hq => by simp [hq]⟩
    · simp; omega
    · intro t' ht'
      simp at ht'
      subst ht'
      simp; omega

theorem table_ref_put_frees_exactly_at_one_witness :
    (one_table ⟨some "a", 2, [7]⟩).heap 1 = some ⟨some "a", 2, [7]⟩ ∧
    ∃ s', table_ref_put (one_table ⟨some "a", 2, [7]⟩) (some 1) = .ok s' ∧
      s'.heap 1 = some ⟨some "a", 1, [7]⟩ ∧ s'.log = [] :=
  ⟨rfl, (table_ref_put_frees_exactly_at_one (one_table ⟨some "a", 2, [7]⟩) 1
    ⟨some "a", 2, [7]⟩ rfl).2.1 (by decide)⟩

theorem run_ref_ops_gone (p : ptr) (ops : List RefOp) (s s' : State) (h : s.heap p = none)
    (hrun : run_ref_ops p ops s = .ok s') : s' = s := by
  cases ops with
  | nil => simpa [run_ref_ops] using hrun.symm
  | cons op rest =>
    cases op <;> simp [run_ref_ops, table_ref_get, table_ref_put, h] at hrun

theorem balance_cons_get (ops : List RefOp) : balance (RefOp.get :: ops) = balance ops + 1 := by
  simp [balance]; omega

theorem balance_cons_put (ops : List RefOp) : balance (RefOp.put :: ops) = balance ops - 1 := by
  simp [balance]; omega

theorem run_ref_ops_count (p : ptr) (ops : List RefOp) (s s' : State) (t0 t : table_t)
    (h0 : s.heap p = some t0) (hrun : run_ref_ops p ops s = .ok s')
    (halive : s'.heap p = some t) :
    t = { t0 with reference_count := t0.reference_count + balance ops } := by
  induction ops generalizing s t0 with
  | nil =>
    simp [run_ref_ops] at hrun
    subst hrun
    rw [h0] at halive
    cases halive
    simp [balance]
  | cons op rest ih =>
    cases op with
    | get =>
      by_cases hmax : t0.reference_count < INT_MAX
      · simp only [run_ref_ops, table_ref_get_ok s p t0 h0 hmax] at hrun
        have := ih _ { t0 with reference_count := t0.reference_count + 1 } (by simp) hrun
        rw [this, balance_cons_get]
        simp; omega
      · simp [run_ref_ops, table_ref_get, h0, hmax] at hrun
    | put =>
      rcases lt_trichotomy t0.reference_count 1 with h1 | h1 | h1
      · simp [run_ref_ops, table_ref_put_assert s p t0 h0 (by omega)] at hrun
      · simp only [run_ref_ops, table_ref_put_last s p t0 h0 h1] at hrun
        have := run_ref_ops_gone p rest _ _ (by simp [State.freed]) hrun
        subst this
        simp [State.freed] at halive
      · simp only [run_ref_ops, table_ref_put_shared s p t0 h0 h1] at hrun
        have := ih _ { t0 with reference_count := t0.reference_count - 1 } (by simp) hrun
        rw [this, balance_cons_put]
        simp; omega

theorem run_ref_ops_alive (p : ptr) (ops : List RefOp) (s : State) (t0 : table_t)
    (h0 : s.heap p = some t0)
    (hbal : ∀ k, 0 < k → k ≤ ops.length →
      1 ≤ t0.reference_count + balance (ops.take k) ∧
        t0.reference_count + balance (ops.take k) ≤ INT_MAX) :
    ∃ s', run_ref_ops p ops s = .ok s' ∧
      s'.heap p = some { t0 with reference_count := t0.reference_count + balance ops } := by
  induction ops generalizing s t0 with
  | nil => exact ⟨s, rfl, by simp [balance, h0]⟩
  | cons op rest ih =>
    have h1 := hbal 1 (by omega) (by simp)
    cases op with
    | get =>
      simp only [List.take_succ_cons, List.take_zero, balance_cons_get] at h1
      have hmax : t0.reference_count < INT_MAX := by
        have : balance [] = 0 := by simp [balance]
        omega
      simp only [run_ref_ops, table_ref_get_ok s p t0 h0 hmax]
      obtain ⟨s', hs', hh⟩ := ih (s.store p (some { t0 with reference_count := t0.reference_count + 1 }))
        { t0 with reference_count := t0.reference_count + 1 } (by simp) (by
          intro k hk hk'
          have := hbal (k + 1) (by omega) (by simpa using hk')
          simp only [List.take_succ_cons, balance_cons_get] at this
          simp only
          omega)
      refine ⟨s', hs', ?_⟩
      rw [hh, balance_cons_get]
      simp; omega
    | put =>
      simp only [List.take_succ_cons, List.take_zero, balance_cons_put] at h1
      have hmany : 1 < t0.reference_count := by
        have : balance [] = 0 := by simp [balance]
        omega
      simp only [run_ref_ops, table_ref_put_shared s p t0 h0 hmany]
      obtain ⟨s', hs', hh⟩ := ih (s.store p (some { t0 with reference_count := t0.reference_count - 1 }))
        { t0 with reference_count := t0.reference_count - 1 } (by simp) (by
          intro k hk hk'
          have := hbal (k + 1) (by omega) (by simpa using hk')
          simp only [List.take_succ_cons, balance_cons_put] at this
          simp only
          omega)
      refine ⟨s', hs', ?_⟩
      rw [hh, balance_cons_put]
      simp; omega


/-- C6: refcount safety.  For a table just made by `new_table` and any sequence of
`table_ref_get` / `table_ref_put` calls on it after which the table is still allocated,
`reference_count` is the number of `get` calls minus the number of `put` calls, and the
name and rules are as created.  Every sequence whose running balance stays between 1 and
`INT_MAX` after each call does run to the end with the table allocated.  `table_ref_get`
returns the pointer it was given and changes nothing but the count of that table. -/
theorem refcount_is_gets_minus_puts (s : State) (p : ptr) (ops : List RefOp) :
    (∀ s1 t, run_ref_ops p ops (new_table s (some p)).1 = .ok s1 → s1.heap p = some t →
      t = ⟨none, balance ops, []⟩) ∧
    ((∀ k, 0 < k → k ≤ ops.length →
        1 ≤ balance (ops.take k) ∧ balance (ops.take k) ≤ INT_MAX) →
      ∃ s1, run_ref_ops p ops (new_table s (some p)).1 = .ok s1 ∧
        s1.heap p = some ⟨none, balance ops, []⟩) ∧
    (∀ s0 q s1 r, table_ref_get s0 q = .ok (s1, r) →
      r = q ∧ s1.log = s0.log ∧ (∀ x, x ≠ q → s1.heap x = s0.heap x) ∧
      ∃ t, s0.heap q = some t ∧
        s1.heap q = some { t with reference_count := t.reference_count + 1 }) := by
  have h0 : (new_table s (some p)).1.heap p = some ⟨none, 0, []⟩ := by
    simp [new_table]
  refine ⟨?_, ?_, ?_⟩
  · intro s1 t hrun halive
    have := run_ref_ops_count p ops _ s1 _ t h0 hrun halive
    simpa using this
  · intro hbal
    obtain ⟨s1, hrun, hh⟩ := run_ref_ops_alive p ops _ ⟨none, 0, []⟩ h0 (by simpa using hbal)
    exact ⟨s1, hrun, by simpa using hh⟩
  · intro s0 q s1 r hget
    cases hq : s0.heap q with
    | none => simp [table_ref_get, hq] at hget
    | some t =>
      by_cases hmax : t.reference_count < INT_MAX
      · rw [table_ref_get_ok s0 q t hq hmax] at hget
        cases hget
        exact ⟨rfl, rfl, fun x hx => by simp [hx], t, rfl, by simp⟩
      · simp [table_ref_get, hq, hmax] at hget

theorem refcount_is_gets_minus_puts_witness :
    ∃ s1, run_ref_ops 1 [RefOp.get, RefOp.get, RefOp.put] (new_table (one_table ⟨none, 0, []⟩)
        (some 1)).1 = .ok s1 ∧
      s1.heap 1 = some ⟨none, balance [RefOp.get, RefOp.get, RefOp.put], []⟩ :=
  (refcount_is_gets_minus_puts (one_table ⟨none, 0, []⟩) 1
    [RefOp.get, RefOp.get, RefOp.put]).2.1 (by
      intro k hk hlen
      simp only [List.length_cons, List.length_nil] at hlen
      interval_cases k <;> decide)

/-! ## Naming a table -/

/-- C9: `accept_table_arg(table, token)`.  When the name is absent and the copy succeeds,
the name becomes a copy of the token, `reference_count` and the rules are unchanged, and
the call returns 1.  When the name is already set the call returns -1 and leaves every
table, the existing name included, as it was, whatever the token and whether or not a
copy could be allocated. -/
theorem accept_table_arg_names_once (s : State) (p : ptr) (t : table_t) (arg : String)
    (h : s.heap p = some t) :
    (t.name = none →
      accept_table_arg s p arg true = .ok (s.store p (some { t with name := some arg }), 1)) ∧
    (t.name ≠ none →
      ∀ alloc_ok, ∃ s', accept_table_arg s p arg alloc_ok = .ok (s', -1) ∧ s'.heap = s.heap) := by
  constructor
  · intro hn
    simp [accept_table_arg, h, hn, strdup]
  · intro hn alloc_ok
    cases hname : t.name with
    | none => exact absurd hname hn
    | some n =>
      exact ⟨s.emit (Event.LOGE "Unexpected table argument: %s"),
        by simp [accept_table_arg, h, hname], rfl⟩

theorem accept_table_arg_names_once_witness :
    (one_table ⟨some "a", 2, [7]⟩).heap 1 = some ⟨some "a", 2, [7]⟩ ∧
    ∀ alloc_ok, ∃ s', accept_table_arg (one_table ⟨some "a", 2, [7]⟩) 1 "b" alloc_ok = .ok (s', -1) ∧
      s'.heap = (one_table ⟨some "a", 2, [7]⟩).heap :=
  ⟨rfl, (accept_table_arg_names_once (one_table ⟨some "a", 2, [7]⟩) 1
    ⟨some "a", 2, [7]⟩ "b" rfl).2 (by decide)⟩

/-- C10 (as stated it fails): the value returned when the copy of the token fails
is the value returned when the name is already set; both calls return -1. -/
theorem accept_table_arg_same_failure_result :
    ¬ ((accept_table_arg (one_table ⟨none, 0, []⟩) 1 "a" false).map Prod.snd ≠
        (accept_table_arg (one_table ⟨some "a", 0, []⟩) 1 "a" true).map Prod.snd) := by
  decide

/-- C10 (amended): `accept_table_arg` returns -1 both when the copy of the token fails
and when the name is already set, leaving every table as it was; the two failures differ
in the diagnostic that is logged, "strdup: ..." for the failed copy and
"Unexpected table argument: ..." for the name that is already set. -/
theorem accept_table_arg_failures_differ_in_log (s : State) (p : ptr) (t : table_t)
    (arg : String) (alloc_ok : Bool) (h : s.heap p = some t) :
    (t.name = none →
      ∃ s', accept_table_arg s p arg false = .ok (s', -1) ∧
        s'.log = s.log ++ [Event.LOGE "strdup: %s"] ∧ s'.heap = s.heap) ∧
    (t.name ≠ none →
      ∃ s', accept_table_arg s p arg alloc_ok = .ok (s', -1) ∧
        s'.log = s.log ++ [Event.LOGE "Unexpected table argument: %s"] ∧ s'.heap = s.heap) := by
  constructor
  · intro hn
    refine ⟨(s.store p (some { t with name := none })).emit (Event.LOGE "strdup: %s"),
      by simp [accept_table_arg, h, hn, strdup], by simp [State.emit], ?_⟩
    funext q
    by_cases hq : q = p
    · subst hq
      simp [State.emit, h, ← hn]
    · simp [State.emit, hq]
  · intro hn
    cases hname : t.name with
    | none => exact absurd hname hn
    | some n =>
      exact ⟨s.emit (Event.LOGE "Unexpected table argument: %s"),
        by simp [accept_table_arg, h, hname], by simp [State.emit], rfl⟩


theorem accept_table_arg_failures_differ_in_log_witness :
    ∃ s1, accept_table_arg (one_table ⟨some "a", 2, [7]⟩) 1 "b" true = .ok (s1, -1) ∧
      s1.log = (one_table ⟨some "a", 2, [7]⟩).log ++
        [Event.LOGE "Unexpected table argument: %s"] ∧
      s1.heap = (one_table ⟨some "a", 2, [7]⟩).heap :=
  (accept_table_arg_failures_differ_in_log (one_table ⟨some "a", 2, [7]⟩) 1
    ⟨some "a", 2, [7]⟩ "b" true rfl).2 (by decide)

/-! ## Lookup and the loops of reload -/

theorem table_lookup_cons (s : State) (p : ptr) (rest : table_head_t) (name : Option String)
    (t : table_t) (h : s.heap p = some t) :
    table_lookup s (p :: rest) name =
      if t.name = name then .ok (some p) else table_lookup s rest name := by
  cases hn : t.name <;> cases name <;> simp [table_lookup, h, hn]

theorem name_at_of_heap (s : State) (p : ptr) (t : table_t) (h : s.heap p = some t) :
    name_at s p = some t.name := by
  simp [name_at, h]

theorem name_at_congr (s1 s2 : State) (p : ptr) (h : s1.heap p = s2.heap p) :
    name_at s1 p = name_at s2 p := by
  simp [name_at, h]

theorem table_lookup_eq_find (s : State) (tables : table_head_t) (name : Option String)
    (halloc : ∀ p ∈ tables, s.heap p ≠ none) :
    table_lookup s tables name = .ok (lookup_by_name s tables name) := by
  induction tables with
  | nil => simp [table_lookup, lookup_by_name]
  | cons p rest ih =>
    have hp : s.heap p ≠ none := halloc p (List.mem_cons_self _ _)
    obtain ⟨t, ht⟩ := Option.ne_none_iff_exists'.mp hp
    have ih' := ih fun q hq => halloc q (List.mem_cons_of_mem _ hq)
    rw [table_lookup_cons s p rest name t ht, ih']
    by_cases hn : t.name = name
    · simp [lookup_by_name, name_at_of_heap s p t ht, hn]
    · simp [lookup_by_name, name_at_of_heap s p t ht, hn]

theorem linked_alloc (s : State) (l : table_head_t) (h : linked s l) :
    ∀ p ∈ l, s.heap p ≠ none := by
  intro p hp
  obtain ⟨t, ht, _⟩ := h p hp
  rw [Option.mem_def] at ht
  simp [ht]

/-- A lookup that finds nothing: no table of the list carries the name. -/
theorem table_lookup_none (s : State) (tables : table_head_t) (name : Option String)
    (halloc : ∀ p ∈ tables, s.heap p ≠ none) :
    table_lookup s tables name = .ok none ↔ ∀ q ∈ tables, name_at s q ≠ some name := by
  rw [table_lookup_eq_find s tables name halloc]
  simp [lookup_by_name]

/-- A lookup on a list of allocated tables returns. -/
theorem table_lookup_total (s : State) (tables : table_head_t) (name : Option String)
    (halloc : ∀ p ∈ tables, s.heap p ≠ none) :
    (table_lookup s tables name = .ok none ∧ ∀ q ∈ tables, name_at s q ≠ some name) ∨
    (∃ p, table_lookup s tables name = .ok (some p) ∧ p ∈ tables ∧ name_at s p = some name) := by
  rw [table_lookup_eq_find s tables name halloc]
  cases h : lookup_by_name s tables name with
  | none =>
    left
    refine ⟨rfl, ?_⟩
    simpa [lookup_by_name] using h
  | some p =>
    right
    refine ⟨p, rfl, List.mem_of_find?_eq_some h, ?_⟩
    simpa using List.find?_some h

/-- In a list with pairwise distinct names, lookup returns the table that has the name. -/
theorem table_lookup_unique (s : State) (tables : table_head_t) (name : Option String)
    (p : ptr) (halloc : ∀ q ∈ tables, s.heap q ≠ none) (hnames : names_distinct s tables)
    (hp : p ∈ tables) (hname : name_at s p = some name) :
    table_lookup s tables name = .ok (some p) := by
  rcases table_lookup_total s tables name halloc with ⟨_, h⟩ | ⟨q, hq, hmem, hqn⟩
  · exact absurd hname (h p hp)
  · by_cases hpq : q = p
    · rw [hq, hpq]
    · exfalso
      rcases List.mem_iff_append.mp hp with ⟨l1, l2, rfl⟩
      simp only [names_distinct, List.pairwise_append, List.pairwise_cons] at hnames
      obtain ⟨h1, ⟨h2, h3⟩, h4⟩ := hnames
      simp only [List.mem_append, List.mem_cons] at hmem
      rcases hmem with hm | hm | hm
      · exact h4 q hm p (List.mem_cons_self _ _) (by rw [hqn, hname])
      · exact hpq hm
      · exact h2 q hm (by rw [hqn, hname])

theorem put_heap (s : State) (p : ptr) (t : table_t) (h : s.heap p = some t)
    (h1 : 1 ≤ t.reference_count) :
    ∃ s1, table_ref_put s (some p) = .ok s1 ∧
      s1.heap = Function.update s.heap p (put_result t) := by
  rcases eq_or_lt_of_le h1 with h2 | h2
  · exact ⟨_, table_ref_put_last s p t h h2.symm, by simp [State.freed, put_result, h2.symm]⟩
  · refine ⟨_, table_ref_put_shared s p t h h2, ?_⟩
    have : t.reference_count ≠ 1 := by omega
    simp [State.store, put_result, this]

theorem Pruned.refl (new_tables : table_head_t) (s : State) (l : table_head_t) :
    Pruned new_tables s l s l :=
  ⟨List.Sublist.refl l, fun _ hp hn => absurd hp hn, fun _ hp hn => absurd hp hn,
    fun _ _ => rfl⟩

theorem Pruned.cons_keep (new_tables : table_head_t) (s s2 : State) (iter : ptr)
    (rest l2 : table_head_t) (hiter : iter ∉ rest) (h : Pruned new_tables s rest s2 l2) :
    Pruned new_tables s (iter :: rest) s2 (iter :: l2) := by
  refine ⟨h.sublist.cons₂ iter, ?_, ?_, ?_⟩
  · intro p hp hn
    simp only [List.mem_cons, not_or] at hp hn
    rcases hp with hp | hp
    · exact absurd hp hn.1
    · exact h.stale p hp hn.2
  · intro p hp hn
    simp only [List.mem_cons, not_or] at hp hn
    rcases hp with hp | hp
    · exact absurd hp hn.1
    · exact h.released p hp hn.2
  · intro q hq
    simp only [List.mem_cons, not_or] at hq
    rcases hq with (hq | hq) | hq
    · subst hq
      exact h.frame q (Or.inr hiter)
    · exact h.frame q (Or.inl hq)
    · exact h.frame q (Or.inr hq.2)

theorem Pruned.cons_drop (new_tables : table_head_t) (s s1 s2 : State) (iter : ptr)
    (t : table_t) (rest l2 : table_head_t) (hiter : iter ∉ rest) (hnew : iter ∉ new_tables)
    (ht : s.heap iter = some t) (hs1 : s1.heap = Function.update s.heap iter (put_result t))
    (hstale : ∀ q ∈ new_tables, name_at s q ≠ name_at s iter)
    (h : Pruned new_tables s1 rest s2 l2) :
    Pruned new_tables s (iter :: rest) s2 l2 := by
  have hne : ∀ q, q ≠ iter → s1.heap q = s.heap q := fun q hq => by
    rw [hs1, Function.update_noteq hq]
  have hl2 : iter ∉ l2 := fun hm => hiter (h.sublist.subset hm)
  refine ⟨h.sublist.cons iter, ?_, ?_, ?_⟩
  · intro p hp hn q hq
    simp only [List.mem_cons] at hp
    rcases hp with hp | hp
    · subst hp
      exact hstale q hq
    · have hpi : p ≠ iter := fun e => hiter (e ▸ hp)
      have hqi : q ≠ iter := fun e => hnew (e ▸ hq)
      have := h.stale p hp hn q hq
      rwa [name_at_congr s1 s q (hne q hqi), name_at_congr s1 s p (hne p hpi)] at this
  · intro p hp hn
    simp only [List.mem_cons] at hp
    rcases hp with hp | hp
    · subst hp
      refine ⟨t, ht, ?_⟩
      rw [h.frame p (Or.inr hiter), hs1, Function.update_same]
    · have hpi : p ≠ iter := fun e => hiter (e ▸ hp)
      obtain ⟨u, hu, hu2⟩ := h.released p hp hn
      exact ⟨u, by rw [← hne p hpi, hu], hu2⟩
  · intro q hq
    rcases hq with hq | hq
    · have hqi : q ≠ iter := fun e => hl2 (e ▸ hq)
      rw [h.frame q (Or.inl hq), hne q hqi]
    · simp only [List.mem_cons, not_or] at hq
      rw [h.frame q (Or.inr hq.2), hne q hq.1]

theorem linked_update (s s1 : State) (l : table_head_t) (iter : ptr) (v : Option table_t)
    (hs1 : s1.heap = Function.update s.heap iter v) (hiter : iter ∉ l) (h : linked s l) :
    linked s1 l := by
  intro p hp
  have hpi : p ≠ iter := fun e => hiter (e ▸ hp)
  rw [hs1, Function.update_noteq hpi]
  exact h p hp

theorem alloc_update (s s1 : State) (l : table_head_t) (iter : ptr) (v : Option table_t)
    (hs1 : s1.heap = Function.update s.heap iter v) (hiter : iter ∉ l)
    (h : ∀ q ∈ l, s.heap q ≠ none) : ∀ q ∈ l, s1.heap q ≠ none := by
  intro p hp
  have hpi : p ≠ iter := fun e => hiter (e ▸ hp)
  rw [hs1, Function.update_noteq hpi]
  exact h p hp

theorem reload_prune_head_spec (new_tables l : table_head_t) (s : State) (hnodup : l.Nodup)
    (hlinked : linked s l) (hdisj : ∀ p ∈ l, p ∉ new_tables)
    (hnew : ∀ q ∈ new_tables, s.heap q ≠ none) :
    ∃ s1 l1, reload_prune_head new_tables l s = .ok (s1, l1) ∧ Pruned new_tables s l s1 l1 := by
  induction l generalizing s with
  | nil => exact ⟨s, [], rfl, Pruned.refl _ _ _⟩
  | cons iter rest ih =>
    obtain ⟨t, ht, hrc⟩ := hlinked iter (List.mem_cons_self _ _)
    rw [Option.mem_def] at ht
    have hiter : iter ∉ rest := (List.nodup_cons.mp hnodup).1
    have hinew : iter ∉ new_tables := hdisj iter (List.mem_cons_self _ _)
    rcases table_lookup_total s new_tables t.name hnew with ⟨hl, hst⟩ | ⟨q, hl, _, _⟩
    · obtain ⟨s1, hput, hs1⟩ := put_heap s iter t ht hrc
      obtain ⟨s2, l2, hrun, hpr⟩ := ih s1 (List.nodup_cons.mp hnodup).2
        (linked_update s s1 rest iter _ hs1 hiter
          fun p hp => hlinked p (List.mem_cons_of_mem _ hp))
        (fun p hp => hdisj p (List.mem_cons_of_mem _ hp))
        (alloc_update s s1 new_tables iter _ hs1 hinew hnew)
      refine ⟨s2, l2, ?_, ?_⟩
      · simp only [reload_prune_head, ht, hl, hput, hrun]
      · refine Pruned.cons_drop new_tables s s1 s2 iter t rest l2 hiter hinew ht hs1 ?_ hpr
        intro q hq
        rw [name_at_of_heap s iter t ht]
        exact hst q hq
    · refine ⟨s, iter :: rest, ?_, Pruned.refl _ _ _⟩
      simp only [reload_prune_head, ht, hl]

theorem reload_prune_rest_spec (new_tables : table_head_t) (n : Nat) :
    ∀ (l : table_head_t) (s : State), l.length ≤ n → l.Nodup → linked s l →
      (∀ p ∈ l, p ∉ new_tables) → (∀ q ∈ new_tables, s.heap q ≠ none) →
      ∃ s1 l1, reload_prune_rest new_tables l s = .ok (s1, l1) ∧
        Pruned new_tables s l s1 l1 := by
  induction n with
  | zero =>
    intro l s hlen _ _ _ _
    have : l = [] := List.length_eq_zero.mp (by omega)
    subst this
    exact ⟨s, [], rfl, Pruned.refl _ _ _⟩
  | succ n ih =>
    intro l s hlen hnodup hlinked hdisj hnew
    match l, hlen, hnodup, hlinked, hdisj with
    | [], _, _, _, _ => exact ⟨s, [], rfl, Pruned.refl _ _ _⟩
    | [iter], _, _, hlinked, _ =>
      obtain ⟨t, ht, _⟩ := hlinked iter (List.mem_cons_self _ _)
      rw [Option.mem_def] at ht
      exact ⟨s, [iter], by simp only [reload_prune_rest, ht], Pruned.refl _ _ _⟩
    | iter :: temp :: rest, hlen, hnodup, hlinked, hdisj =>
      obtain ⟨ti, hti, _⟩ := hlinked iter (List.mem_cons_self _ _)
      rw [Option.mem_def] at hti
      obtain ⟨t, ht, hrc⟩ := hlinked temp (List.mem_cons_of_mem _ (List.mem_cons_self _ _))
      rw [Option.mem_def] at ht
      have hnd2 : (temp :: rest).Nodup := (List.nodup_cons.mp hnodup).2
      have hiter : iter ∉ temp :: rest := (List.nodup_cons.mp hnodup).1
      have htemp : temp ∉ rest := (List.nodup_cons.mp hnd2).1
      have htnew : temp ∉ new_tables :=
        hdisj temp (List.mem_cons_of_mem _ (List.mem_cons_self _ _))
      have hlinked2 : linked s (temp :: rest) := fun p hp =>
        hlinked p (List.mem_cons_of_mem _ hp)
      have hdisj2 : ∀ p ∈ temp :: rest, p ∉ new_tables := fun p hp =>
        hdisj p (List.mem_cons_of_mem _ hp)
      simp only [List.length_cons] at hlen
      rcases table_lookup_total s new_tables t.name hnew with ⟨hl, hst⟩ | ⟨q, hl, _, _⟩
      · obtain ⟨s1, hput, hs1⟩ := put_heap s temp t ht hrc
        obtain ⟨s2, l2, hrun, hpr⟩ := ih rest s1 (by omega) (List.nodup_cons.mp hnd2).2
          (linked_update s s1 rest temp _ hs1 htemp
            fun p hp => hlinked2 p (List.mem_cons_of_mem _ hp))
          (fun p hp => hdisj2 p (List.mem_cons_of_mem _ hp))
          (alloc_update s s1 new_tables temp _ hs1 htnew hnew)
        refine ⟨s2, iter :: l2, ?_, ?_⟩
        · simp only [reload_prune_rest, hti, ht, hl, hput, hrun]
        · refine Pruned.cons_keep new_tables s s2 iter (temp :: rest) l2 hiter ?_
          refine Pruned.cons_drop new_tables s s1 s2 temp t rest l2 htemp htnew ht hs1 ?_ hpr
          intro q hq
          rw [name_at_of_heap s temp t ht]
          exact hst q hq
      · obtain ⟨s2, l2, hrun, hpr⟩ := ih (temp :: rest) s (by simp only [List.length_cons]; omega)
          hnd2 hlinked2 hdisj2 hnew
        refine ⟨s2, iter :: l2, ?_, ?_⟩
        · simp only [reload_prune_rest, hti, ht, hl, hrun]
        · exact Pruned.cons_keep new_tables s s2 iter (temp :: rest) l2 hiter hpr

theorem table_lookup_congr (s1 s2 : State) (l : table_head_t) (name : Option String)
    (h : ∀ p ∈ l, s1.heap p = s2.heap p) : table_lookup s1 l name = table_lookup s2 l name := by
  induction l with
  | nil => rfl
  | cons p rest ih =>
    have hp := h p (List.mem_cons_self _ _)
    have ih' := ih fun q hq => h q (List.mem_cons_of_mem _ hq)
    simp only [table_lookup, hp, ih']

/-- One round of the third loop when a table named like `iter` is linked in `tables`. -/
theorem reload_merge_found (s : State) (iter existing : ptr) (rest tables : table_head_t)
    (t e : table_t) (ht : s.heap iter = some t) (he : s.heap existing = some e)
    (hne : existing ≠ iter) (hrc : 1 ≤ t.reference_count)
    (hl : table_lookup s tables t.name = .ok (some existing)) :
    ∃ s4, reload_merge (iter :: rest) s tables = reload_merge rest s4 tables ∧
      s4.heap = Function.update
        (Function.update s.heap existing (some { e with rules := t.rules }))
        iter (put_result { t with rules := e.rules }) := by
  have hl' : table_lookup { heap := s.heap, log := init_table_rules t.rules s.log } tables
      t.name = .ok (some existing) := by
    rw [← hl]
    exact table_lookup_congr _ _ _ _ fun _ _ => rfl
  obtain ⟨s4, hput, hs4⟩ := put_heap
    (set_rules (set_rules { heap := s.heap, log := init_table_rules t.rules s.log }
      existing t.rules) iter e.rules) iter { t with rules := e.rules }
    (by simp [set_rules, State.store, Function.update_noteq hne.symm, ht]) hrc
  refine ⟨s4, ?_, ?_⟩
  · simp only [reload_merge, init_table, ht, hl', he, hput]
  · rw [hs4]
    simp [set_rules, State.store, Function.update_noteq hne.symm, ht, he]

/-- One round of the third loop when no table named like `iter` is linked in `tables`. -/
theorem reload_merge_new (s : State) (iter : ptr) (rest tables : table_head_t)
    (t : table_t) (ht : s.heap iter = some t) (hrc : 1 ≤ t.reference_count)
    (hmax : t.reference_count < INT_MAX)
    (hl : table_lookup s tables t.name = .ok none) :
    ∃ s3, reload_merge (iter :: rest) s tables = reload_merge rest s3 (iter :: tables) ∧
      s3.heap = s.heap := by
  have hl' : table_lookup { heap := s.heap, log := init_table_rules t.rules s.log } tables
      t.name = .ok none := by
    rw [← hl]
    exact table_lookup_congr _ _ _ _ fun _ _ => rfl
  have hget := table_ref_get_ok { heap := s.heap, log := init_table_rules t.rules s.log }
    iter t ht hmax
  obtain ⟨s3, hput, hs3⟩ := put_heap
    (State.store { heap := s.heap, log := init_table_rules t.rules s.log } iter
      (some { t with reference_count := t.reference_count + 1 })) iter
    { t with reference_count := t.reference_count + 1 } (by simp) (by simp; omega)
  refine ⟨s3, ?_, ?_⟩
  · simp only [reload_merge, init_table, ht, hl', add_table, hget, hput]
  · rw [hs3]
    have h1 : t.reference_count + 1 ≠ 1 := by omega
    funext q
    by_cases hq : q = iter
    · subst hq
      simp [put_result, h1, ht]
    · simp [State.store, Function.update_noteq hq]

theorem names_distinct_eq (s : State) (l : table_head_t) (h : names_distinct s l)
    (p q : ptr) (hp : p ∈ l) (hq : q ∈ l) (hn : name_at s p = name_at s q) : p = q := by
  by_contra hne
  exact List.Pairwise.forall (fun _ _ hab => Ne.symm hab) h hp hq hne hn

theorem names_distinct_congr (s1 s2 : State) (l : table_head_t)
    (h : ∀ p ∈ l, name_at s1 p = name_at s2 p) (hd : names_distinct s1 l) :
    names_distinct s2 l := by
  refine List.Pairwise.imp_of_mem ?_ hd
  intro a b ha hb hab
  rwa [← h a ha, ← h b hb]

theorem well_formed_congr (s1 s2 : State) (a b : table_head_t) (h : s2.heap = s1.heap)
    (hw : well_formed s1 a b) : well_formed s2 a b := by
  refine ⟨hw.nodup_active, hw.nodup_incoming, hw.disjoint, ?_, ?_, ?_, ?_, ?_⟩
  · intro p hp
    rw [h]
    exact hw.linked_active p hp
  · intro p hp
    rw [h]
    exact hw.linked_incoming p hp
  · exact names_distinct_congr s1 s2 a (fun p _ => by simp [name_at, h]) hw.names_active
  · exact names_distinct_congr s1 s2 b (fun p _ => by simp [name_at, h]) hw.names_incoming
  · intro p hp
    rw [h]
    exact hw.room_incoming p hp

theorem Merged.congr (s1 s2 s' : State) (a b a' : table_head_t) (h : s2.heap = s1.heap)
    (hm : Merged s2 a b s' a') : Merged s1 a b s' a' := by
  have hn : name_at s2 = name_at s1 := by
    funext p
    simp [name_at, h]
  obtain ⟨h1, h2, h3, h4, h5⟩ := hm
  rw [hn] at h1 h2 h3 h4
  rw [h] at h2 h3 h4 h5
  exact ⟨h1, h2, h3, h4, h5⟩

/-- C8: `table_lookup(registry, name)` matches by exact equality only, the absent name
being equal to the absent name alone.  On a registry whose tables are allocated it
returns; it returns absent exactly when no table carries a name equal to the query, and
otherwise the first table in list order whose name equals the query.  A table whose name
is absent is therefore returned only when the query is the absent name. -/
theorem table_lookup_first_exact_match (s : State) (tables : table_head_t)
    (name : Option String) (halloc : ∀ p ∈ tables, s.heap p ≠ none) :
    ∃ r, table_lookup s tables name = .ok r ∧
      r = lookup_by_name s tables name ∧
      (r = none ↔ ∀ p ∈ tables, name_at s p ≠ some name) ∧
      (∀ p, r = some p →
        name_at s p = some name ∧
        ∃ before after, tables = before ++ p :: after ∧
          ∀ q ∈ before, name_at s q ≠ some name) ∧
      (∀ p, r = some p → name_at s p = some none → name = none) := by
  refine ⟨_, table_lookup_eq_find s tables name halloc, rfl, ?_, ?_, ?_⟩
  · simp [lookup_by_name]
  · intro p hp
    have h := List.find?_eq_some.mp hp
    simp only [decide_eq_true_eq] at h
    obtain ⟨h1, before, after, h2, h3⟩ := h
    refine ⟨h1, before, after, h2, fun q hq => ?_⟩
    simpa using h3 q hq
  · intro p hp hnone
    have h := List.find?_some hp
    simp only [decide_eq_true_eq] at h
    rw [h] at hnone
    simpa [eq_comm] using hnone

theorem table_lookup_first_exact_match_witness :
    ∃ r, table_lookup five_tables [1, 2, 3, 4] (some "b") = .ok r ∧
      r = lookup_by_name five_tables [1, 2, 3, 4] (some "b") ∧
      (r = none ↔ ∀ p ∈ [1, 2, 3, 4], name_at five_tables p ≠ some (some "b")) ∧
      (∀ p, r = some p →
        name_at five_tables p = some (some "b") ∧
        ∃ before after, [1, 2, 3, 4] = before ++ p :: after ∧
          ∀ q ∈ before, name_at five_tables q ≠ some (some "b")) ∧
      (∀ p, r = some p → name_at five_tables p = some none → some "b" = none) :=
  table_lookup_first_exact_match five_tables [1, 2, 3, 4] (some "b") (by decide)

theorem reload_merge_spec (new_tables : table_head_t) :
    ∀ (s : State) (tables : table_head_t), well_formed s tables new_tables →
      ∃ s1 tables1, reload_merge new_tables s tables = .ok (s1, tables1, []) ∧
        Merged s tables new_tables s1 tables1 := by
  induction new_tables with
  | nil =>
    intro s tables _
    refine ⟨s, tables, rfl, ?_⟩
    exact ⟨by simp, fun T hT => absurd hT (List.not_mem_nil T),
      fun T hT => absurd hT (List.not_mem_nil T), fun _ _ _ => rfl, fun _ _ _ => rfl⟩
  | cons T rest ih =>
    intro s tables hw
    obtain ⟨t, ht, hrc⟩ := hw.linked_incoming T (List.mem_cons_self _ _)
    rw [Option.mem_def] at ht
    have hmax := hw.room_incoming T (List.mem_cons_self _ _) t ht
    have hTtab : T ∉ tables := fun hm => hw.disjoint T hm (List.mem_cons_self _ _)
    have hTrest : T ∉ rest := (List.nodup_cons.mp hw.nodup_incoming).1
    have hnT : name_at s T = some t.name := name_at_of_heap s T t ht
    have hrestT : ∀ T0 ∈ rest, name_at s T0 ≠ name_at s T := fun T0 h0 =>
      Ne.symm ((List.pairwise_cons.mp hw.names_incoming).1 T0 h0)
    rcases table_lookup_total s tables t.name (linked_alloc s tables hw.linked_active) with
      ⟨hl, hst⟩ | ⟨E, hl, hE, hnE⟩
    · -- no table of that name: `iter` is linked in front of `tables`
      obtain ⟨s3, hstep, hs3⟩ := reload_merge_new s T rest tables t ht hrc hmax hl
      have hw' : well_formed s (T :: tables) rest := by
        refine ⟨List.nodup_cons.mpr ⟨hTtab, hw.nodup_active⟩,
          (List.nodup_cons.mp hw.nodup_incoming).2, ?_, ?_, ?_, ?_, ?_, ?_⟩
        · intro p hp hpr
          rcases List.mem_cons.mp hp with hp | hp
          · exact hTrest (hp ▸ hpr)
          · exact hw.disjoint p hp (List.mem_cons_of_mem _ hpr)
        · intro p hp
          rcases List.mem_cons.mp hp with hp | hp
          · exact hp ▸ ⟨t, ht, hrc⟩
          · exact hw.linked_active p hp
        · exact fun p hp => hw.linked_incoming p (List.mem_cons_of_mem _ hp)
        · refine List.pairwise_cons.mpr ⟨fun q hq => ?_, hw.names_active⟩
          rw [hnT]
          exact Ne.symm (hst q hq)
        · exact (List.pairwise_cons.mp hw.names_incoming).2
        · exact fun p hp => hw.room_incoming p (List.mem_cons_of_mem _ hp)
      obtain ⟨s1, tables1, hrun, hm⟩ := ih s3 (T :: tables)
        (well_formed_congr s s3 _ _ hs3 hw')
      have hm := Merged.congr s s3 s1 _ _ _ hs3 hm
      refine ⟨s1, tables1, by rw [hstep, hrun], ?_, ?_, ?_, ?_, ?_⟩
      · rw [hm.list]
        have hT : name_at s T ∉ tables.map (name_at s) := by
          intro hmem
          obtain ⟨q, hq, hqn⟩ := List.mem_map.mp hmem
          exact hst q hq (by rw [hqn, hnT])
        have hf : (rest.filter fun T0 =>
            decide (name_at s T0 ∉ (T :: tables).map (name_at s))) =
            rest.filter fun T0 => decide (name_at s T0 ∉ tables.map (name_at s)) := by
          apply List.filter_congr
          intro T0 h0
          have := hrestT T0 h0
          simp [this]
        rw [hf, List.filter_cons_of_pos (by simpa using hT)]
        simp
      · intro T0 h0 E0 hE0 hn t0 e0 ht0 he0
        rcases List.mem_cons.mp h0 with h0 | h0
        · subst h0
          exact absurd (by rw [← hn, hnT]) (hst E0 hE0)
        · exact hm.swapped T0 h0 E0 (List.mem_cons_of_mem _ hE0) hn t0 e0 ht0 he0
      · intro T0 h0 hall
        rcases List.mem_cons.mp h0 with h0 | h0
        · subst h0
          exact hm.kept T0 (List.mem_cons_self _ _) hrestT
        · refine hm.inserted T0 h0 fun E0 hE0 => ?_
          rcases List.mem_cons.mp hE0 with hE0 | hE0
          · exact hE0 ▸ hrestT T0 h0
          · exact hall E0 hE0
      · intro p hp hall
        exact hm.kept p (List.mem_cons_of_mem _ hp) fun T0 h0 =>
          hall T0 (List.mem_cons_of_mem _ h0)
      · intro p hp hpn
        simp only [List.mem_cons, not_or] at hpn
        exact hm.frame p (by simp [hp, hpn.1]) hpn.2
    · -- a table `E` of that name is linked: the rules are exchanged
      obtain ⟨e, he, hrce⟩ := hw.linked_active E hE
      rw [Option.mem_def] at he
      have hET : E ≠ T := fun h => hTtab (h ▸ hE)
      have hErest : E ∉ rest := fun h => hw.disjoint E hE (List.mem_cons_of_mem _ h)
      obtain ⟨s4, hstep, hs4⟩ := reload_merge_found s T E rest tables t e ht he hET hrc hl
      have h4T : s4.heap T = put_result { t with rules := e.rules } := by
        rw [hs4, Function.update_same]
      have h4E : s4.heap E = some { e with rules := t.rules } := by
        rw [hs4, Function.update_noteq hET, Function.update_same]
      have h4o : ∀ p, p ≠ T → p ≠ E → s4.heap p = s.heap p := fun p h1 h2 => by
        rw [hs4, Function.update_noteq h1, Function.update_noteq h2]
      have h4n : ∀ p, p ≠ T → name_at s4 p = name_at s p := fun p h1 => by
        by_cases h2 : p = E
        · subst h2
          simp [name_at, h4E, he]
        · exact name_at_congr s4 s p (h4o p h1 h2)
      have hntab : ∀ p ∈ tables, name_at s4 p = name_at s p := fun p hp =>
        h4n p fun h => hTtab (h ▸ hp)
      have hnrest : ∀ p ∈ rest, name_at s4 p = name_at s p := fun p hp =>
        h4n p fun h => hTrest (h ▸ hp)
      have hhrest : ∀ p ∈ rest, s4.heap p = s.heap p := fun p hp =>
        h4o p (fun h => hTrest (h ▸ hp)) (fun h => hErest (h ▸ hp))
      have hw' : well_formed s4 tables rest := by
        refine ⟨hw.nodup_active, (List.nodup_cons.mp hw.nodup_incoming).2,
          fun p hp hpr => hw.disjoint p hp (List.mem_cons_of_mem _ hpr), ?_, ?_, ?_, ?_, ?_⟩
        · intro p hp
          by_cases h2 : p = E
          · subst h2
            exact ⟨_, h4E, hrce⟩
          · rw [h4o p (fun h => hTtab (h ▸ hp)) h2]
            exact hw.linked_active p hp
        · intro p hp
          rw [hhrest p hp]
          exact hw.linked_incoming p (List.mem_cons_of_mem _ hp)
        · exact names_distinct_congr s s4 tables (fun p hp => (hntab p hp).symm)
            hw.names_active
        · exact names_distinct_congr s s4 rest (fun p hp => (hnrest p hp).symm)
            (List.pairwise_cons.mp hw.names_incoming).2
        · intro p hp
          rw [hhrest p hp]
          exact hw.room_incoming p (List.mem_cons_of_mem _ hp)
      obtain ⟨s1, tables1, hrun, hm⟩ := ih s4 tables hw'
      have hEname : name_at s T = name_at s E := by rw [hnT, hnE]
      refine ⟨s1, tables1, by rw [hstep, hrun], ?_, ?_, ?_, ?_, ?_⟩
      · rw [hm.list]
        have hT : name_at s T ∈ tables.map (name_at s) :=
          List.mem_map.mpr ⟨E, hE, hEname.symm⟩
        have hmap : tables.map (name_at s4) = tables.map (name_at s) :=
          List.map_congr_left hntab
        have hf : (rest.filter fun T0 =>
            decide (name_at s4 T0 ∉ tables.map (name_at s4))) =
            rest.filter fun T0 => decide (name_at s T0 ∉ tables.map (name_at s)) := by
          apply List.filter_congr
          intro T0 h0
          rw [hmap, hnrest T0 h0]
        rw [hf, List.filter_cons_of_neg (by simpa using hT)]
      · intro T0 h0 E0 hE0 hn t0 e0 ht0 he0
        rcases List.mem_cons.mp h0 with h0 | h0
        · subst h0
          have hEE : E0 = E := names_distinct_eq s tables hw.names_active E0 E hE0 hE
            (by rw [← hn, hEname])
          subst hEE
          rw [ht] at ht0
          rw [he] at he0
          cases ht0
          cases he0
          constructor
          · rw [hm.kept E0 hE fun T1 h1 => by
              rw [hnrest T1 h1, hntab E0 hE, ← hEname]
              exact hrestT T1 h1]
            exact h4E
          · rw [hm.frame T0 hTtab hTrest]
            exact h4T
        · have hT0 : T0 ≠ T := fun h => hTrest (h ▸ h0)
          have hE0E : E0 ≠ E := fun h => hrestT T0 h0 (by rw [hn, h, hEname])
          have hE0T : E0 ≠ T := fun h => hTtab (h ▸ hE0)
          exact hm.swapped T0 h0 E0 hE0 (by rw [hnrest T0 h0, hntab E0 hE0, hn]) t0 e0
            (by rw [hhrest T0 h0, ht0]) (by rw [h4o E0 hE0T hE0E, he0])
      · intro T0 h0 hall
        rcases List.mem_cons.mp h0 with h0 | h0
        · subst h0
          exact absurd hEname (hall E hE)
        · rw [hm.inserted T0 h0 fun E0 hE0 => by
            rw [hnrest T0 h0, hntab E0 hE0]
            exact hall E0 hE0]
          exact hhrest T0 h0
      · intro p hp hall
        have hpE : p ≠ E := fun h => hall T (List.mem_cons_self _ _) (by rw [h, hEname])
        rw [hm.kept p hp fun T0 h0 => by
          rw [hnrest T0 h0, hntab p hp]
          exact hall T0 (List.mem_cons_of_mem _ h0)]
        exact h4o p (fun h => hTtab (h ▸ hp)) hpE
      · intro p hp hpn
        simp only [List.mem_cons, not_or] at hpn
        rw [hm.frame p hp hpn.2]
        exact h4o p hpn.1 fun h => hp (h ▸ hE)

theorem Pruned.trans (new_tables : table_head_t) (s s1 s2 : State) (l l1 l2 : table_head_t)
    (hdisj : ∀ p ∈ l, p ∉ new_tables) (h1 : Pruned new_tables s l s1 l1)
    (h2 : Pruned new_tables s1 l1 s2 l2) : Pruned new_tables s l s2 l2 := by
  refine ⟨h2.sublist.trans h1.sublist, ?_, ?_, ?_⟩
  · intro p hp hn q hq
    by_cases hp1 : p ∈ l1
    · have := h2.stale p hp1 hn q hq
      rwa [name_at_congr s1 s q (h1.frame q (Or.inr fun hm => hdisj q hm hq)),
        name_at_congr s1 s p (h1.frame p (Or.inl hp1))] at this
    · exact h1.stale p hp hp1 q hq
  · intro p hp hn
    by_cases hp1 : p ∈ l1
    · obtain ⟨t, ht, ht2⟩ := h2.released p hp1 hn
      exact ⟨t, by rw [← h1.frame p (Or.inl hp1), ht], ht2⟩
    · obtain ⟨t, ht, ht1⟩ := h1.released p hp hp1
      exact ⟨t, ht, by rw [h2.frame p (Or.inr hp1), ht1]⟩
  · intro q hq
    rcases hq with hq | hq
    · rw [h2.frame q (Or.inl hq), h1.frame q (Or.inl (h2.sublist.subset hq))]
    · rw [h2.frame q (Or.inr fun hm => hq (h1.sublist.subset hm)), h1.frame q (Or.inr hq)]

theorem Pruned.well_formed (s s1 : State) (active incoming l1 : table_head_t)
    (hw : well_formed s active incoming) (hp : Pruned incoming s active s1 l1) :
    well_formed s1 l1 incoming := by
  have hin : ∀ q ∈ incoming, s1.heap q = s.heap q := fun q hq =>
    hp.frame q (Or.inr fun hm => hw.disjoint q hm hq)
  have hl1 : ∀ q ∈ l1, s1.heap q = s.heap q := fun q hq => hp.frame q (Or.inl hq)
  refine ⟨hw.nodup_active.sublist hp.sublist, hw.nodup_incoming,
    fun p h => hw.disjoint p (hp.sublist.subset h), ?_, ?_, ?_, ?_, ?_⟩
  · intro p h
    rw [hl1 p h]
    exact hw.linked_active p (hp.sublist.subset h)
  · intro p h
    rw [hin p h]
    exact hw.linked_incoming p h
  · exact names_distinct_congr s s1 l1 (fun p h => (name_at_congr s1 s p (hl1 p h)).symm)
      (List.Pairwise.sublist hp.sublist hw.names_active)
  · exact names_distinct_congr s s1 incoming
      (fun p h => (name_at_congr s1 s p (hin p h)).symm) hw.names_incoming
  · intro p h
    rw [hin p h]
    exact hw.room_incoming p h

theorem well_formed.to_linked (s : State) (active incoming : table_head_t)
    (hw : well_formed s active incoming) : well_linked s active incoming :=
  ⟨hw.nodup_active, hw.nodup_incoming, hw.disjoint, hw.linked_active, hw.linked_incoming⟩

theorem Pruned.well_linked (s s1 : State) (active incoming l1 : table_head_t)
    (hw : well_linked s active incoming) (hp : Pruned incoming s active s1 l1) :
    well_linked s1 l1 incoming := by
  refine ⟨hw.nodup_active.sublist hp.sublist, hw.nodup_incoming,
    fun p h => hw.disjoint p (hp.sublist.subset h), ?_, ?_⟩
  · intro p h
    rw [hp.frame p (Or.inl h)]
    exact hw.linked_active p (hp.sublist.subset h)
  · intro p h
    rw [hp.frame p (Or.inr fun hm => hw.disjoint p hm h)]
    exact hw.linked_incoming p h

/-- The two pruning loops of `reload_tables` return on well-linked registries. -/
theorem reload_prune_spec (s : State) (active incoming : table_head_t)
    (hw : well_linked s active incoming) :
    ∃ sa la s1 l1, reload_prune_head incoming active s = .ok (sa, la) ∧
      reload_prune_rest incoming la sa = .ok (s1, l1) ∧ Pruned incoming s active s1 l1 := by
  have hnew := linked_alloc s incoming hw.linked_incoming
  obtain ⟨sa, la, hrun1, hp1⟩ := reload_prune_head_spec incoming active s hw.nodup_active
    hw.linked_active hw.disjoint hnew
  have hwa := Pruned.well_linked s sa active incoming la hw hp1
  obtain ⟨s1, l1, hrun2, hp2⟩ := reload_prune_rest_spec incoming la.length la sa (le_refl _)
    hwa.nodup_active hwa.linked_active hwa.disjoint (linked_alloc sa incoming hwa.linked_incoming)
  exact ⟨sa, la, s1, l1, hrun1, hrun2, Pruned.trans incoming s sa s1 active la l1 hw.disjoint hp1 hp2⟩

/-- `reload_tables` returns on well-formed registries, with `new_tables` empty; its
result is described by the outcome of the pruning loops followed by that of the third. -/
theorem reload_tables_spec (s : State) (active incoming : table_head_t)
    (hw : well_formed s active incoming) :
    ∃ sa la s1 l1 s2 active1, reload_prune_head incoming active s = .ok (sa, la) ∧
      reload_prune_rest incoming la sa = .ok (s1, l1) ∧
      reload_tables s active incoming = .ok (s2, active1, []) ∧
      Pruned incoming s active s1 l1 ∧ well_formed s1 l1 incoming ∧
      Merged s1 l1 incoming s2 active1 := by
  obtain ⟨sa, la, s1, l1, hrun1, hrun2, hp⟩ :=
    reload_prune_spec s active incoming (well_formed.to_linked s active incoming hw)
  have hw1 := Pruned.well_formed s s1 active incoming l1 hw hp
  obtain ⟨s2, active1, hrun3, hm⟩ := reload_merge_spec incoming s1 l1 hw1
  refine ⟨sa, la, s1, l1, s2, active1, hrun1, hrun2, ?_, hp, hw1, hm⟩
  simp only [reload_tables, hrun1, hrun2, hrun3]

theorem table_lookup_mem (s : State) (l : table_head_t) (name : Option String) (p : ptr)
    (h : table_lookup s l name = .ok (some p)) : p ∈ l := by
  induction l with
  | nil => simp [table_lookup] at h
  | cons q rest ih =>
    cases hq : s.heap q with
    | none => simp [table_lookup, hq] at h
    | some t =>
      rw [table_lookup_cons s q rest name t hq] at h
      by_cases hn : t.name = name
      · simp [hn] at h
        simp [h]
      · simp only [hn, if_false] at h
        exact List.mem_cons_of_mem _ (ih h)

/-- After the third loop every linked table is allocated under the name it had. -/
theorem Merged.names (s s1 : State) (tables new_tables tables1 : table_head_t)
    (hw : well_formed s tables new_tables) (hm : Merged s tables new_tables s1 tables1) :
    ∀ p ∈ tables1, s1.heap p ≠ none ∧ name_at s1 p = name_at s p := by
  intro p hp
  rw [hm.list] at hp
  simp only [List.mem_append, List.mem_reverse, List.mem_filter, decide_eq_true_eq] at hp
  rcases hp with ⟨hp, hnew⟩ | hp
  · have h := hm.inserted p hp fun E hE hn => hnew (List.mem_map.mpr ⟨E, hE, hn.symm⟩)
    obtain ⟨t, ht, _⟩ := hw.linked_incoming p hp
    rw [Option.mem_def] at ht
    exact ⟨by rw [h, ht]; simp, name_at_congr s1 s p h⟩
  · obtain ⟨e, he, _⟩ := hw.linked_active p hp
    rw [Option.mem_def] at he
    by_cases hex : ∃ T ∈ new_tables, name_at s T = name_at s p
    · obtain ⟨T, hT, hn⟩ := hex
      obtain ⟨t, ht, _⟩ := hw.linked_incoming T hT
      rw [Option.mem_def] at ht
      have h := (hm.swapped T hT p hp hn t e ht he).1
      exact ⟨by rw [h]; simp, by simp [name_at, h, he]⟩
    · have h := hm.kept p hp fun T hT hn => hex ⟨T, hT, hn⟩
      exact ⟨by rw [h, he]; simp, name_at_congr s1 s p h⟩

/-- The third loop keeps the names of the active registry pairwise distinct. -/
theorem Merged.names_distinct (s s1 : State) (tables new_tables tables1 : table_head_t)
    (hw : well_formed s tables new_tables) (hm : Merged s tables new_tables s1 tables1) :
    names_distinct s1 tables1 := by
  refine names_distinct_congr s s1 tables1
    (fun p hp => ((Merged.names s s1 tables new_tables tables1 hw hm p hp).2).symm) ?_
  rw [hm.list]
  refine List.pairwise_append.mpr ⟨?_, hw.names_active, ?_⟩
  · refine List.pairwise_reverse.mpr ?_
    refine List.Pairwise.filter _ ?_
    exact List.Pairwise.imp (fun hab => Ne.symm hab) hw.names_incoming
  · intro T hT E hE hn
    simp only [List.mem_reverse, List.mem_filter, decide_eq_true_eq] at hT
    exact hT.2 (List.mem_map.mpr ⟨E, hE, hn.symm⟩)

/-- After the third loop, looking up the name of a linked table returns that table. -/
theorem Merged.lookup (s s1 : State) (tables new_tables tables1 : table_head_t)
    (hw : well_formed s tables new_tables) (hm : Merged s tables new_tables s1 tables1)
    (p : ptr) (hp : p ∈ tables1) (name : Option String) (hn : name_at s p = some name) :
    table_lookup s1 tables1 name = .ok (some p) := by
  refine table_lookup_unique s1 tables1 name p
    (fun q hq => (Merged.names s s1 tables new_tables tables1 hw hm q hq).1)
    (Merged.names_distinct s s1 tables new_tables tables1 hw hm) hp ?_
  rw [(Merged.names s s1 tables new_tables tables1 hw hm p hp).2, hn]


/-- The third loop on incoming tables that are each named like a linked table and carry
the rules of that table: the list of `tables` and its tables stay as they were. -/
theorem reload_merge_same (new_tables : table_head_t) :
    ∀ (s : State) (tables : table_head_t), well_linked s tables new_tables →
      names_distinct s tables →
      (∀ T ∈ new_tables, ∃ E ∈ tables, name_at s E = name_at s T) →
      (∀ E ∈ tables, ∀ T ∈ new_tables, ∀ e t, s.heap E = some e → s.heap T = some t →
        e.name = t.name → t.rules = e.rules) →
      ∃ s1, reload_merge new_tables s tables = .ok (s1, tables, []) ∧
        ∀ E ∈ tables, s1.heap E = s.heap E := by
  induction new_tables with
  | nil =>
    intro s tables _ _ _ _
    exact ⟨s, rfl, fun _ _ => rfl⟩
  | cons T rest ih =>
    intro s tables hw hnames hsame hrules
    obtain ⟨t, ht, hrc⟩ := hw.linked_incoming T (List.mem_cons_self _ _)
    rw [Option.mem_def] at ht
    obtain ⟨E, hE, hEn⟩ := hsame T (List.mem_cons_self _ _)
    obtain ⟨e, he, _⟩ := hw.linked_active E hE
    rw [Option.mem_def] at he
    have hTtab : T ∉ tables := fun hm => hw.disjoint T hm (List.mem_cons_self _ _)
    have hTrest : T ∉ rest := (List.nodup_cons.mp hw.nodup_incoming).1
    have hET : E ≠ T := fun h => hTtab (h ▸ hE)
    have hErest : E ∉ rest := fun h => hw.disjoint E hE (List.mem_cons_of_mem _ h)
    have hname : e.name = t.name := by
      rw [name_at_of_heap s T t ht, name_at_of_heap s E e he] at hEn
      exact Option.some.inj hEn
    have hl : table_lookup s tables t.name = .ok (some E) :=
      table_lookup_unique s tables t.name E (linked_alloc s tables hw.linked_active) hnames hE
        (by rw [name_at_of_heap s E e he, hname])
    obtain ⟨s4, hstep, hs4⟩ := reload_merge_found s T E rest tables t e ht he hET hrc hl
    have h4 : ∀ p, p ≠ T → s4.heap p = s.heap p := by
      intro p hp
      rw [hs4, Function.update_noteq hp]
      by_cases hpE : p = E
      · subst hpE
        rw [Function.update_same, he,
          hrules p hE T (List.mem_cons_self _ _) e t he ht hname]
      · rw [Function.update_noteq hpE]
    have h4tab : ∀ p ∈ tables, s4.heap p = s.heap p := fun p hp =>
      h4 p fun h => hTtab (h ▸ hp)
    have h4rest : ∀ p ∈ rest, s4.heap p = s.heap p := fun p hp =>
      h4 p fun h => hTrest (h ▸ hp)
    have hw4 : well_linked s4 tables rest := by
      refine ⟨hw.nodup_active, (List.nodup_cons.mp hw.nodup_incoming).2,
        fun p hp hpr => hw.disjoint p hp (List.mem_cons_of_mem _ hpr), ?_, ?_⟩
      · intro p hp
        rw [h4tab p hp]
        exact hw.linked_active p hp
      · intro p hp
        rw [h4rest p hp]
        exact hw.linked_incoming p (List.mem_cons_of_mem _ hp)
    obtain ⟨s1, hrun, hkeep⟩ := ih s4 tables hw4
      (names_distinct_congr s s4 tables
        (fun p hp => (name_at_congr s4 s p (h4tab p hp)).symm) hnames)
      (by
        intro T0 h0
        obtain ⟨E0, hE0, hn0⟩ := hsame T0 (List.mem_cons_of_mem _ h0)
        exact ⟨E0, hE0, by
          rw [name_at_congr s4 s E0 (h4tab E0 hE0), name_at_congr s4 s T0 (h4rest T0 h0), hn0]⟩)
      (by
        intro E0 hE0 T0 h0 e0 t0 he0 ht0 hn0
        rw [h4tab E0 hE0] at he0
        rw [h4rest T0 h0] at ht0
        exact hrules E0 hE0 T0 (List.mem_cons_of_mem _ h0) e0 t0 he0 ht0 hn0)
    refine ⟨s1, by rw [hstep, hrun], fun p hp => ?_⟩
    rw [hkeep p hp, h4tab p hp]

/-- The third loop returns on well-linked registries, with `new_tables` empty, whatever
the names; a table that is linked in neither registry is not touched and not linked. -/
theorem reload_merge_total (new_tables : table_head_t) :
    ∀ (s : State) (tables : table_head_t), well_linked s tables new_tables →
      room s new_tables →
      ∃ s1 tables1, reload_merge new_tables s tables = .ok (s1, tables1, []) ∧
        ∀ p, p ∉ tables → p ∉ new_tables → s1.heap p = s.heap p ∧ p ∉ tables1 := by
  induction new_tables with
  | nil =>
    intro s tables _ _
    exact ⟨s, tables, rfl, fun p hp _ => ⟨rfl, hp⟩⟩
  | cons T rest ih =>
    intro s tables hw hroom
    obtain ⟨t, ht, hrc⟩ := hw.linked_incoming T (List.mem_cons_self _ _)
    rw [Option.mem_def] at ht
    have hmax := hroom T (List.mem_cons_self _ _) t ht
    have hTtab : T ∉ tables := fun hm => hw.disjoint T hm (List.mem_cons_self _ _)
    have hTrest : T ∉ rest := (List.nodup_cons.mp hw.nodup_incoming).1
    rcases table_lookup_total s tables t.name (linked_alloc s tables hw.linked_active) with
      ⟨hl, _⟩ | ⟨E, hl, hE, _⟩
    · obtain ⟨s3, hstep, hs3⟩ := reload_merge_new s T rest tables t ht hrc hmax hl
      have hw3 : well_linked s3 (T :: tables) rest := by
        refine ⟨List.nodup_cons.mpr ⟨hTtab, hw.nodup_active⟩,
          (List.nodup_cons.mp hw.nodup_incoming).2, ?_, ?_, ?_⟩
        · intro p hp hpr
          rcases List.mem_cons.mp hp with hp | hp
          · exact hTrest (hp ▸ hpr)
          · exact hw.disjoint p hp (List.mem_cons_of_mem _ hpr)
        · intro p hp
          rw [hs3]
          rcases List.mem_cons.mp hp with hp | hp
          · exact hp ▸ ⟨t, ht, hrc⟩
          · exact hw.linked_active p hp
        · intro p hp
          rw [hs3]
          exact hw.linked_incoming p (List.mem_cons_of_mem _ hp)
      obtain ⟨s1, tables1, hrun, hframe⟩ := ih s3 (T :: tables) hw3 (by
        intro p hp
        rw [hs3]
        exact hroom p (List.mem_cons_of_mem _ hp))
      refine ⟨s1, tables1, by rw [hstep, hrun], fun p hp hpn => ?_⟩
      simp only [List.mem_cons, not_or] at hpn
      have := hframe p (by simp [hp, hpn.1]) hpn.2
      rwa [hs3] at this
    · obtain ⟨e, he, hrce⟩ := hw.linked_active E hE
      rw [Option.mem_def] at he
      have hET : E ≠ T := fun h => hTtab (h ▸ hE)
      have hErest : E ∉ rest := fun h => hw.disjoint E hE (List.mem_cons_of_mem _ h)
      obtain ⟨s4, hstep, hs4⟩ := reload_merge_found s T E rest tables t e ht he hET hrc hl
      have h4E : s4.heap E = some { e with rules := t.rules } := by
        rw [hs4, Function.update_noteq hET, Function.update_same]
      have h4o : ∀ p, p ≠ T → p ≠ E → s4.heap p = s.heap p := fun p h1 h2 => by
        rw [hs4, Function.update_noteq h1, Function.update_noteq h2]
      have h4rest : ∀ p ∈ rest, s4.heap p = s.heap p := fun p hp =>
        h4o p (fun h => hTrest (h ▸ hp)) (fun h => hErest (h ▸ hp))
      have hw4 : well_linked s4 tables rest := by
        refine ⟨hw.nodup_active, (List.nodup_cons.mp hw.nodup_incoming).2,
          fun p hp hpr => hw.disjoint p hp (List.mem_cons_of_mem _ hpr), ?_, ?_⟩
        · intro p hp
          by_cases h2 : p = E
          · subst h2
            exact ⟨_, h4E, hrce⟩
          · rw [h4o p (fun h => hTtab (h ▸ hp)) h2]
            exact hw.linked_active p hp
        · intro p hp
          rw [h4rest p hp]
          exact hw.linked_incoming p (List.mem_cons_of_mem _ hp)
      obtain ⟨s1, tables1, hrun, hframe⟩ := ih s4 tables hw4 (by
        intro p hp
        rw [h4rest p hp]
        exact hroom p (List.mem_cons_of_mem _ hp))
      refine ⟨s1, tables1, by rw [hstep, hrun], fun p hp hpn => ?_⟩
      simp only [List.mem_cons, not_or] at hpn
      have := hframe p hp hpn.2
      rwa [h4o p hpn.1 fun h => hp (h ▸ hE)] at this
/-! ## Properties of reload -/

theorem five_tables_wf : well_formed five_tables [1, 2, 3] [4, 5] :=
  ⟨by decide, by decide, by decide, by decide, by decide, by decide, by decide, by decide⟩

/-- C1 (the code departs from it): with "b", "a", "c" linked in this order and a new
configuration that only has "b", the second loop unlinks "a" and moves on to the node
after it, so that "c" is never examined: after the reload a lookup of "c" still finds
the old table although no incoming table carries that name. -/
theorem reload_tables_leaves_stale_table :
    well_formed five_tables [1, 2, 3] [4] ∧
    lookup_by_name five_tables [4] (some "c") = none ∧
    lookup_after_reload five_tables [1, 2, 3] [4] (some "c") = .ok (some 3) ∧
    lookup_after_reload five_tables [1, 2, 3] [4] (some "a") = .ok none :=
  ⟨⟨by decide, by decide, by decide, by decide, by decide, by decide, by decide, by decide⟩,
    by decide, by decide, by decide⟩

/-- C2: identity preservation.  For well-formed registries and a name carried both by a
table `E` of `active` and by a table `T` of `incoming`, a lookup of that name returns `E`
before the reload and still returns `E` after it; the rules of `E` are then exactly the
rules `T` had, in the same order, and the name and `reference_count` of `E` are
unchanged. -/
theorem reload_tables_preserves_identity (s : State) (active incoming : table_head_t)
    (hw : well_formed s active incoming) (E T : ptr) (e t : table_t)
    (hE : E ∈ active) (hT : T ∈ incoming) (he : s.heap E = some e) (ht : s.heap T = some t)
    (hname : e.name = t.name) :
    table_lookup s active e.name = .ok (some E) ∧
    ∃ s1 active1, reload_tables s active incoming = .ok (s1, active1, []) ∧
      table_lookup s1 active1 e.name = .ok (some E) ∧
      s1.heap E = some { e with rules := t.rules } := by
  have hnE := name_at_of_heap s E e he
  have hnT := name_at_of_heap s T t ht
  refine ⟨table_lookup_unique s active e.name E (linked_alloc s active hw.linked_active)
    hw.names_active hE hnE, ?_⟩
  obtain ⟨sa, la, s1, l1, s2, active1, _, _, hrun, hp, hw1, hm⟩ :=
    reload_tables_spec s active incoming hw
  have hEl : E ∈ l1 := by
    by_contra hn
    exact hp.stale E hE hn T hT (by rw [hnE, hnT, hname])
  have h1E : s1.heap E = some e := by rw [hp.frame E (Or.inl hEl), he]
  have h1T : s1.heap T = some t := by
    rw [hp.frame T (Or.inr fun hm => hw.disjoint T hm hT), ht]
  have hsw := hm.swapped T hT E hEl
    (by rw [name_at_of_heap s1 T t h1T, name_at_of_heap s1 E e h1E, hname]) t e h1T h1E
  refine ⟨s2, active1, hrun, ?_, hsw.1⟩
  refine Merged.lookup s1 s2 l1 incoming active1 hw1 hm E ?_ e.name
    (name_at_of_heap s1 E e h1E)
  rw [hm.list]
  exact List.mem_append_right _ hEl

theorem reload_tables_preserves_identity_witness :
    table_lookup five_tables [1, 2, 3] (some "b") = .ok (some 1) ∧
    ∃ s1 active1, reload_tables five_tables [1, 2, 3] [4, 5] = .ok (s1, active1, []) ∧
      table_lookup s1 active1 (some "b") = .ok (some 1) ∧
      s1.heap 1 = some ⟨some "b", 1, [40, 41]⟩ :=
  reload_tables_preserves_identity five_tables [1, 2, 3] [4, 5] five_tables_wf 1 4
    ⟨some "b", 1, [10]⟩ ⟨some "b", 1, [40, 41]⟩ (by decide) (by decide) rfl rfl rfl

/-- C3: new insertion.  For well-formed registries and a table `T` of `incoming` whose
name no table of `active` carries, after the reload a lookup of that name returns `T`,
which is linked in `active` with the rules, the name and the `reference_count` it had
before the reload. -/
theorem reload_tables_inserts_new (s : State) (active incoming : table_head_t)
    (hw : well_formed s active incoming) (T : ptr) (t : table_t)
    (hT : T ∈ incoming) (ht : s.heap T = some t)
    (hnew : ∀ E ∈ active, name_at s E ≠ some t.name) :
    ∃ s1 active1, reload_tables s active incoming = .ok (s1, active1, []) ∧
      table_lookup s1 active1 t.name = .ok (some T) ∧
      T ∈ active1 ∧ s1.heap T = some t := by
  obtain ⟨sa, la, s1, l1, s2, active1, _, _, hrun, hp, hw1, hm⟩ :=
    reload_tables_spec s active incoming hw
  have h1T : s1.heap T = some t := by
    rw [hp.frame T (Or.inr fun hm => hw.disjoint T hm hT), ht]
  have hn1T := name_at_of_heap s1 T t h1T
  have hnew1 : ∀ E ∈ l1, name_at s1 T ≠ name_at s1 E := by
    intro E hE hn
    rw [name_at_congr s1 s E (hp.frame E (Or.inl hE)), hn1T] at hn
    exact hnew E (hp.sublist.subset hE) hn.symm
  have hmem : T ∈ active1 := by
    rw [hm.list]
    refine List.mem_append_left _ (List.mem_reverse.mpr (List.mem_filter.mpr ⟨hT, ?_⟩))
    simp only [decide_eq_true_eq]
    intro hmm
    obtain ⟨E, hE, hn⟩ := List.mem_map.mp hmm
    exact hnew1 E hE hn.symm
  refine ⟨s2, active1, hrun, ?_, hmem, ?_⟩
  · exact Merged.lookup s1 s2 l1 incoming active1 hw1 hm T hmem t.name hn1T
  · rw [hm.inserted T hT hnew1, h1T]

theorem reload_tables_inserts_new_witness :
    ∃ s1 active1, reload_tables five_tables [1, 2, 3] [4, 5] = .ok (s1, active1, []) ∧
      table_lookup s1 active1 (some "d") = .ok (some 5) ∧
      5 ∈ active1 ∧ s1.heap 5 = some ⟨some "d", 1, [50]⟩ :=
  reload_tables_inserts_new five_tables [1, 2, 3] [4, 5] five_tables_wf 5
    ⟨some "d", 1, [50]⟩ (by decide) rfl (by decide)

/-- C4: for registries that are well linked (no repetition, disjoint, every linked
table allocated with `1 <= reference_count`, incoming counters below `INT_MAX`) and a
table `X` of `active` that the two pruning loops of `reload_tables` have unlinked: if
`X` had `reference_count` 1 it is freed; if it had `k > 1` it is still allocated after
the reload with count `k - 1`, its name and rules unchanged; `X` is not linked in
`active` any more and no lookup on `active` returns it, whatever the name. -/
theorem reload_tables_releases_pruned (s : State) (active incoming : table_head_t)
    (hw : well_linked s active incoming) (hroom : room s incoming) (X : ptr) (x : table_t)
    (hX : X ∈ active) (hx : s.heap X = some x) (sa s1 : State) (la l1 : table_head_t)
    (hhead : reload_prune_head incoming active s = .ok (sa, la))
    (hrest : reload_prune_rest incoming la sa = .ok (s1, l1)) (hpruned : X ∉ l1) :
    ∃ s2 active1, reload_tables s active incoming = .ok (s2, active1, []) ∧
      (x.reference_count = 1 → s2.heap X = none) ∧
      (1 < x.reference_count →
        s2.heap X = some { x with reference_count := x.reference_count - 1 }) ∧
      X ∉ active1 ∧ ∀ name, table_lookup s2 active1 name ≠ .ok (some X) := by
  obtain ⟨sa', la', s1', l1', hrun1, hrun2, hp⟩ := reload_prune_spec s active incoming hw
  rw [hhead] at hrun1
  cases hrun1
  rw [hrest] at hrun2
  cases hrun2
  have hXin : X ∉ incoming := hw.disjoint X hX
  obtain ⟨s2, active1, hrun3, hframe⟩ := reload_merge_total incoming s1 l1
    (Pruned.well_linked s s1 active incoming l1 hw hp) (by
      intro p hp1
      rw [hp.frame p (Or.inr fun hm => hw.disjoint p hm hp1)]
      exact hroom p hp1)
  refine ⟨s2, active1, by simp only [reload_tables, hhead, hrest, hrun3], ?_⟩
  obtain ⟨x', hx', hrel⟩ := hp.released X hX hpruned
  rw [hx] at hx'
  cases hx'
  obtain ⟨hsame, hXa⟩ := hframe X hpruned hXin
  have h2 : s2.heap X = put_result x := by rw [hsame, hrel]
  refine ⟨fun h1 => by rw [h2]; simp [put_result, h1], fun h1 => ?_, hXa, fun name hl => ?_⟩
  · have : x.reference_count ≠ 1 := by omega
    rw [h2]
    simp [put_result, this]
  · exact hXa (table_lookup_mem s2 active1 name X hl)

theorem reload_tables_releases_pruned_witness :
    ∃ s2 active1, reload_tables five_tables [1, 2, 3] [4] = .ok (s2, active1, []) ∧
      s2.heap 2 = some ⟨some "a", 1, [20]⟩ ∧ 2 ∉ active1 ∧
      ∀ name, table_lookup s2 active1 name ≠ .ok (some 2) := by
  obtain ⟨s2, active1, hrun, _, hshared, hout, hlookup⟩ :=
    reload_tables_releases_pruned five_tables [1, 2, 3] [4]
      ⟨by decide, by decide, by decide, by decide, by decide⟩ (by decide)
      2 ⟨some "a", 2, [20]⟩ (by decide) rfl
      five_tables (five_tables.store 2 (some ⟨some "a", 1, [20]⟩)) [1, 2, 3] [1, 3]
      rfl rfl (by decide)
  exact ⟨s2, active1, hrun, hshared (by decide), hout, hlookup⟩

/-- C5: idempotent reload.  For a well-formed active registry with pairwise distinct
names and an incoming registry that carries the same names and, name by name, the same
rules, the reload leaves the list of `active` as it was and every table of `active`
with the fields it had. -/
theorem reload_tables_idempotent (s : State) (active incoming : table_head_t)
    (hw : well_linked s active incoming) (hdistinct : names_distinct s active)
    (hnames1 : ∀ E ∈ active, ∃ T ∈ incoming, name_at s T = name_at s E)
    (hnames2 : ∀ T ∈ incoming, ∃ E ∈ active, name_at s E = name_at s T)
    (hrules : ∀ E ∈ active, ∀ T ∈ incoming, ∀ e t, s.heap E = some e → s.heap T = some t →
      e.name = t.name → t.rules = e.rules) :
    ∃ s1 active1, reload_tables s active incoming = .ok (s1, active1, []) ∧
      active1 = active ∧ ∀ E ∈ active, s1.heap E = s.heap E := by
  obtain ⟨sa, la, s1, l1, hrun1, hrun2, hp⟩ := reload_prune_spec s active incoming hw
  have hall : ∀ E ∈ active, E ∈ l1 := by
    intro E hE
    by_contra hn
    obtain ⟨T, hT, hTn⟩ := hnames1 E hE
    exact hp.stale E hE hn T hT hTn
  have hl1 : l1 = active := by
    refine List.Sublist.eq_of_length_le hp.sublist ?_
    exact (List.subperm_of_subset hw.nodup_active hall).length_le
  subst hl1
  have h1 : ∀ q, s1.heap q = s.heap q := by
    intro q
    by_cases hq : q ∈ l1
    · exact hp.frame q (Or.inl hq)
    · exact hp.frame q (Or.inr hq)
  have hn1 : ∀ q, name_at s1 q = name_at s q := fun q => name_at_congr s1 s q (h1 q)
  obtain ⟨s2, hrun3, hkeep⟩ := reload_merge_same incoming s1 l1
    (Pruned.well_linked s s1 l1 incoming l1 hw hp)
    (names_distinct_congr s s1 l1 (fun p _ => (hn1 p).symm) hdistinct)
    (by
      intro T hT
      obtain ⟨E, hE, hn⟩ := hnames2 T hT
      exact ⟨E, hE, by rw [hn1, hn1, hn]⟩)
    (by
      intro E hE T hT e t he ht hn
      rw [h1] at he ht
      exact hrules E hE T hT e t he ht hn)
  refine ⟨s2, l1, ?_, rfl, fun E hE => ?_⟩
  · simp only [reload_tables, hrun1, hrun2, hrun3]
  · rw [hkeep E hE, h1]

theorem reload_tables_idempotent_witness :
    ∃ s1 active1, reload_tables twin_tables [1] [2] = .ok (s1, active1, []) ∧
      active1 = [1] ∧ ∀ E ∈ [1], s1.heap E = twin_tables.heap E :=
  reload_tables_idempotent twin_tables [1] [2]
    ⟨by decide, by decide, by decide, by decide, by decide⟩ (by decide)
    (by decide) (by decide) (by
      intro E hE T hT e t he ht _
      simp only [List.mem_singleton] at hE hT
      subst hE hT
      cases he
      cases ht
      rfl)
/-! ## Registry operations -/

/-- C11: `add_table(registry, table)`, for an allocated table that is not yet linked in
the registry and whose counter is below `INT_MAX`, increments the `reference_count` of
the table by exactly 1 and links it at the head: the list is the table followed by the
previous list, no other table changes, nothing is logged, and a lookup of the name of
the table returns the table just inserted, whatever the names of the older tables. -/
theorem add_table_links_at_head (s : State) (tables : table_head_t) (table : ptr)
    (t : table_t) (ht : s.heap table = some t) (hroom : t.reference_count < INT_MAX)
    (_hnew : table ∉ tables) :
    ∃ s1, add_table s tables table = .ok (s1, table :: tables) ∧
      s1.heap table = some { t with reference_count := t.reference_count + 1 } ∧
      (∀ q, q ≠ table → s1.heap q = s.heap q) ∧ s1.log = s.log ∧
      table_lookup s1 (table :: tables) t.name = .ok (some table) := by
  refine ⟨s.store table (some { t with reference_count := t.reference_count + 1 }), ?_,
    by simp, fun q hq => by simp [hq], rfl, ?_⟩
  · simp only [add_table, table_ref_get_ok s table t ht hroom]
  · rw [table_lookup_cons _ table tables t.name
      { t with reference_count := t.reference_count + 1 } (by simp)]
    simp

theorem add_table_links_at_head_witness :
    ∃ s1, add_table five_tables [1, 2, 3] 4 = .ok (s1, 4 :: [1, 2, 3]) ∧
      s1.heap 4 = some ⟨some "b", 1 + 1, [40, 41]⟩ ∧
      (∀ q, q ≠ 4 → s1.heap q = five_tables.heap q) ∧ s1.log = five_tables.log ∧
      table_lookup s1 (4 :: [1, 2, 3]) (some "b") = .ok (some 4) :=
  add_table_links_at_head five_tables [1, 2, 3] 4 ⟨some "b", 1, [40, 41]⟩ rfl
    (by decide) (by decide)

theorem SLIST_REMOVE_spec (s : State) (tables : table_head_t) (table : ptr)
    (hnodup : tables.Nodup) (halloc : ∀ p ∈ tables, s.heap p ≠ none) (hmem : table ∈ tables) :
    ∃ before after, tables = before ++ table :: after ∧
      SLIST_REMOVE s tables table = .ok (before ++ after) := by
  induction tables with
  | nil => simp at hmem
  | cons first rest ih =>
    obtain ⟨u, hu⟩ := Option.ne_none_iff_exists'.mp (halloc first (List.mem_cons_self _ _))
    by_cases hft : first = table
    · subst hft
      exact ⟨[], rest, by simp, by simp [SLIST_REMOVE, hu]⟩
    · have hmem' : table ∈ rest := by
        rcases List.mem_cons.mp hmem with h | h
        · exact absurd h.symm hft
        · exact h
      obtain ⟨before, after, hsplit, hrun⟩ := ih (List.nodup_cons.mp hnodup).2
        (fun p hp => halloc p (List.mem_cons_of_mem _ hp)) hmem'
      refine ⟨first :: before, after, by simp [hsplit], ?_⟩
      simp [SLIST_REMOVE, hu, hft, hrun]

/-- C12: `remove_table(registry, table)`, for a table linked in a registry whose tables
are allocated with `1 <= reference_count`, unlinks exactly that node: the new list is
the old one without that table, the others in the same order.  It then releases one
reference: the table is freed if its count was 1, and otherwise stays allocated with
the count decremented by 1; no other table changes. -/
theorem remove_table_unlinks_one (s : State) (tables : table_head_t) (table : ptr)
    (t : table_t) (hnodup : tables.Nodup) (hlinked : linked s tables)
    (hmem : table ∈ tables) (ht : s.heap table = some t) :
    ∃ s1 before after, tables = before ++ table :: after ∧
      remove_table s tables table = .ok (s1, before ++ after) ∧
      table ∉ before ++ after ∧
      (t.reference_count = 1 → s1.heap table = none) ∧
      (1 < t.reference_count →
        s1.heap table = some { t with reference_count := t.reference_count - 1 }) ∧
      (∀ q, q ≠ table → s1.heap q = s.heap q) := by
  obtain ⟨before, after, hsplit, hrun⟩ := SLIST_REMOVE_spec s tables table hnodup
    (linked_alloc s tables hlinked) hmem
  obtain ⟨t', ht', hrc⟩ := hlinked table hmem
  rw [Option.mem_def, ht] at ht'
  cases ht'
  obtain ⟨s1, hput, hs1⟩ := put_heap s table t ht hrc
  refine ⟨s1, before, after, hsplit, ?_, ?_, ?_, ?_, ?_⟩
  · simp only [remove_table, hrun, hput]
  · rw [hsplit] at hnodup
    have := List.nodup_middle.mp hnodup
    exact (List.nodup_cons.mp this).1
  · intro h1
    rw [hs1, Function.update_same]
    simp [put_result, h1]
  · intro h1
    have : t.reference_count ≠ 1 := by omega
    rw [hs1, Function.update_same]
    simp [put_result, this]
  · intro q hq
    rw [hs1, Function.update_noteq hq]

theorem remove_table_unlinks_one_witness :
    ∃ s1 before after, [1, 2, 3] = before ++ 2 :: after ∧
      remove_table five_tables [1, 2, 3] 2 = .ok (s1, before ++ after) ∧
      2 ∉ before ++ after ∧
      ((2 : Int) = 1 → s1.heap 2 = none) ∧
      ((1 : Int) < 2 → s1.heap 2 = some ⟨some "a", 2 - 1, [20]⟩) ∧
      (∀ q, q ≠ 2 → s1.heap q = five_tables.heap q) :=
  remove_table_unlinks_one five_tables [1, 2, 3] 2 ⟨some "a", 2, [20]⟩
    (by decide) (by decide) (by decide) rfl

theorem free_tables_spec (tables : table_head_t) :
    ∀ (s : State), tables.Nodup → linked s tables →
      ∃ s1, free_tables tables s = .ok (s1, []) ∧
        (∀ p ∈ tables, ∀ t, s.heap p = some t → s1.heap p = put_result t) ∧
        (∀ q, q ∉ tables → s1.heap q = s.heap q) := by
  induction tables with
  | nil =>
    intro s _ _
    exact ⟨s, rfl, fun p hp => absurd hp (List.not_mem_nil p), fun _ _ => rfl⟩
  | cons iter rest ih =>
    intro s hnodup hlinked
    obtain ⟨t, ht, hrc⟩ := hlinked iter (List.mem_cons_self _ _)
    rw [Option.mem_def] at ht
    have hiter : iter ∉ rest := (List.nodup_cons.mp hnodup).1
    obtain ⟨s1, hput, hs1⟩ := put_heap s iter t ht hrc
    obtain ⟨s2, hrun, hrel, hframe⟩ := ih s1 (List.nodup_cons.mp hnodup).2
      (linked_update s s1 rest iter _ hs1 hiter
        fun p hp => hlinked p (List.mem_cons_of_mem _ hp))
    refine ⟨s2, by simp only [free_tables, hput, hrun], ?_, ?_⟩
    · intro p hp u hu
      rcases List.mem_cons.mp hp with hp | hp
      · subst hp
        rw [ht] at hu
        cases hu
        rw [hframe p hiter, hs1, Function.update_same]
      · have hpi : p ≠ iter := fun e => hiter (e ▸ hp)
        exact hrel p hp u (by rw [hs1, Function.update_noteq hpi, hu])
    · intro q hq
      simp only [List.mem_cons, not_or] at hq
      rw [hframe q hq.2, hs1, Function.update_noteq hq.1]

/-- C13: `free_tables(registry)` on a registry without repetition whose tables are
allocated with `1 <= reference_count` returns and leaves the registry empty; it has
released exactly one reference of each table that was linked: a table whose count was 1
is freed, a table whose count was `k > 1` is still allocated with count `k - 1`, its
name and rules unchanged; no other table changes. -/
theorem free_tables_drains (s : State) (tables : table_head_t) (hnodup : tables.Nodup)
    (hlinked : linked s tables) :
    ∃ s1, free_tables tables s = .ok (s1, []) ∧
      (∀ p ∈ tables, ∀ t, s.heap p = some t →
        (t.reference_count = 1 → s1.heap p = none) ∧
        (1 < t.reference_count →
          s1.heap p = some { t with reference_count := t.reference_count - 1 })) ∧
      (∀ q, q ∉ tables → s1.heap q = s.heap q) := by
  obtain ⟨s1, hrun, hrel, hframe⟩ := free_tables_spec tables s hnodup hlinked
  refine ⟨s1, hrun, fun p hp t ht => ?_, hframe⟩
  rw [hrel p hp t ht]
  constructor
  · intro h1
    simp [put_result, h1]
  · intro h1
    have : t.reference_count ≠ 1 := by omega
    simp [put_result, this]

theorem free_tables_drains_witness :
    ∃ s1, free_tables [1, 2, 3] five_tables = .ok (s1, []) ∧
      (∀ p ∈ [1, 2, 3], ∀ t, five_tables.heap p = some t →
        (t.reference_count = 1 → s1.heap p = none) ∧
        (1 < t.reference_count →
          s1.heap p = some { t with reference_count := t.reference_count - 1 })) ∧
      (∀ q, q ∉ [1, 2, 3] → s1.heap q = five_tables.heap q) :=
  free_tables_drains five_tables [1, 2, 3] (by decide) (by decide)

/-! ## Initialising the rules of a table -/

theorem init_table_rules_with_eq (answers : rule_t → Int) (rules : List rule_t)
    (log : List Event) :
    init_table_rules_with answers rules log = log ++ rules.map Event.init_rule := by
  induction rules generalizing log with
  | nil => simp [init_table_rules_with]
  | cons r rest ih => simp [init_table_rules_with, ih]

/-- C16 (as stated it fails): a caller of `init_table` cannot tell an `init_rule` that
fails on the rule of the table from one that succeeds; `init_table` returns the same in
both cases. -/
theorem init_table_drops_failure :
    ¬ (init_table_with (fun _ => 0) (one_table ⟨some "a", 1, [7]⟩) 1 ≠
        init_table_with (fun _ => 1) (one_table ⟨some "a", 1, [7]⟩) 1) :=
  fun h => h rfl

/-- C16 (amended): `init_table(table)` calls `init_rule` on every rule the table owns,
once each, in queue order, and changes no table; it returns nothing, and what the calls
of `init_rule` return, a failure included, has no effect on it. -/
theorem init_table_calls_each_rule (answers : rule_t → Int) (s : State) (p : ptr)
    (t : table_t) (h : s.heap p = some t) :
    init_table_with answers s p =
      .ok { heap := s.heap, log := s.log ++ t.rules.map Event.init_rule } ∧
    init_table_with answers s p = init_table s p := by
  have hlog := init_table_rules_with_eq answers t.rules s.log
  constructor
  · simp only [init_table_with, h, hlog]
  · simp only [init_table_with, init_table, h, hlog, init_table_rules_eq]

theorem init_table_calls_each_rule_witness :
    init_table_with (fun _ => 0) (one_table ⟨some "a", 1, [7, 8]⟩) 1 =
      .ok { heap := (one_table ⟨some "a", 1, [7, 8]⟩).heap,
            log := (one_table ⟨some "a", 1, [7, 8]⟩).log ++
              [7, 8].map Event.init_rule } ∧
    init_table_with (fun _ => 0) (one_table ⟨some "a", 1, [7, 8]⟩) 1 =
      init_table (one_table ⟨some "a", 1, [7, 8]⟩) 1 :=
  init_table_calls_each_rule (fun _ => 0) (one_table ⟨some "a", 1, [7, 8]⟩) 1
    ⟨some "a", 1, [7, 8]⟩ rfl

/-! ## The third loop of reload, whatever the names -/

theorem put_heap_log (s : State) (p : ptr) (t : table_t) (h : s.heap p = some t)
    (h1 : 1 ≤ t.reference_count) :
    ∃ s1, table_ref_put s (some p) = .ok s1 ∧
      s1.heap = Function.update s.heap p (put_result t) ∧
      s1.log = s.log ++ if t.reference_count = 1 then t.rules.map Event.remove_rule else [] := by
  rcases eq_or_lt_of_le h1 with h2 | h2
  · exact ⟨_, table_ref_put_last s p t h h2.symm, by simp [State.freed, put_result, h2.symm],
      by simp [State.freed, h2.symm]⟩
  · refine ⟨_, table_ref_put_shared s p t h h2, ?_, ?_⟩
    · have : t.reference_count ≠ 1 := by omega
      simp [State.store, put_result, this]
    · have : t.reference_count ≠ 1 := by omega
      simp [this]

/-- One round of the third loop, with the log, when a table named like `iter` is found. -/
theorem reload_merge_found_log (s : State) (iter existing : ptr) (rest tables : table_head_t)
    (t e : table_t) (ht : s.heap iter = some t) (he : s.heap existing = some e)
    (hne : existing ≠ iter) (hrc : 1 ≤ t.reference_count)
    (hl : table_lookup s tables t.name = .ok (some existing)) :
    ∃ s4, reload_merge (iter :: rest) s tables = reload_merge rest s4 tables ∧
      s4.heap = Function.update
        (Function.update s.heap existing (some { e with rules := t.rules }))
        iter (put_result { t with rules := e.rules }) ∧
      s4.log = s.log ++ t.rules.map Event.init_rule ++
        if t.reference_count = 1 then e.rules.map Event.remove_rule else [] := by
  have hl' : table_lookup { heap := s.heap, log := init_table_rules t.rules s.log } tables
      t.name = .ok (some existing) := by
    rw [← hl]
    exact table_lookup_congr _ _ _ _ fun _ _ => rfl
  obtain ⟨s4, hput, hs4, hlog⟩ := put_heap_log
    (set_rules (set_rules { heap := s.heap, log := init_table_rules t.rules s.log }
      existing t.rules) iter e.rules) iter { t with rules := e.rules }
    (by simp [set_rules, State.store, Function.update_noteq hne.symm, ht]) hrc
  refine ⟨s4, ?_, ?_, ?_⟩
  · simp only [reload_merge, init_table, ht, hl', he, hput]
  · rw [hs4]
    simp [set_rules, State.store, Function.update_noteq hne.symm, ht, he]
  · rw [hlog]
    simp [set_rules, State.store, init_table_rules_eq]

/-- One round of the third loop, with the log, when no table named like `iter` is found. -/
theorem reload_merge_new_log (s : State) (iter : ptr) (rest tables : table_head_t)
    (t : table_t) (ht : s.heap iter = some t) (hrc : 1 ≤ t.reference_count)
    (hmax : t.reference_count < INT_MAX)
    (hl : table_lookup s tables t.name = .ok none) :
    ∃ s3, reload_merge (iter :: rest) s tables = reload_merge rest s3 (iter :: tables) ∧
      s3.heap = s.heap ∧ s3.log = s.log ++ t.rules.map Event.init_rule := by
  have hl' : table_lookup { heap := s.heap, log := init_table_rules t.rules s.log } tables
      t.name = .ok none := by
    rw [← hl]
    exact table_lookup_congr _ _ _ _ fun _ _ => rfl
  have hget := table_ref_get_ok { heap := s.heap, log := init_table_rules t.rules s.log }
    iter t ht hmax
  obtain ⟨s3, hput, hs3, hlog⟩ := put_heap_log
    (State.store { heap := s.heap, log := init_table_rules t.rules s.log } iter
      (some { t with reference_count := t.reference_count + 1 })) iter
    { t with reference_count := t.reference_count + 1 } (by simp) (by simp; omega)
  refine ⟨s3, ?_, ?_, ?_⟩
  · simp only [reload_merge, init_table, ht, hl', add_table, hget, hput]
  · rw [hs3]
    have h1 : t.reference_count + 1 ≠ 1 := by omega
    funext q
    by_cases hq : q = iter
    · subst hq
      simp [put_result, h1, ht]
    · simp [State.store, Function.update_noteq hq]
  · rw [hlog]
    have h1 : t.reference_count + 1 ≠ 1 := by omega
    simp [h1, init_table_rules_eq]

/-- One round of the third loop when the counter of a table to insert is `INT_MAX`. -/
theorem reload_merge_overflow (s : State) (iter : ptr) (rest tables : table_head_t)
    (t : table_t) (ht : s.heap iter = some t) (hmax : ¬ t.reference_count < INT_MAX)
    (hl : table_lookup s tables t.name = .ok none) :
    reload_merge (iter :: rest) s tables = .error Fault.int_overflow := by
  have hl' : table_lookup { heap := s.heap, log := init_table_rules t.rules s.log } tables
      t.name = .ok none := by
    rw [← hl]
    exact table_lookup_congr _ _ _ _ fun _ _ => rfl
  simp [reload_merge, init_table, ht, hl', add_table, table_ref_get, hmax]

/-- One round of the third loop on well-linked registries: the three ways it can go. -/
theorem reload_merge_round (s : State) (T : ptr) (rest tables : table_head_t)
    (hw : well_linked s tables (T :: rest)) :
    ∃ t, s.heap T = some t ∧ 1 ≤ t.reference_count ∧
      ((∃ E e s4, E ∈ tables ∧ E ≠ T ∧ E ∉ rest ∧ s.heap E = some e ∧
          name_at s E = some t.name ∧ table_lookup s tables t.name = .ok (some E) ∧
          reload_merge (T :: rest) s tables = reload_merge rest s4 tables ∧
          s4.heap = Function.update
            (Function.update s.heap E (some { e with rules := t.rules }))
            T (put_result { t with rules := e.rules }) ∧
          s4.log = s.log ++ t.rules.map Event.init_rule ++
            (if t.reference_count = 1 then e.rules.map Event.remove_rule else []) ∧
          well_linked s4 tables rest) ∨
       ((∀ q ∈ tables, name_at s q ≠ some t.name) ∧ t.reference_count < INT_MAX ∧
          ∃ s3, reload_merge (T :: rest) s tables = reload_merge rest s3 (T :: tables) ∧
            s3.heap = s.heap ∧ s3.log = s.log ++ t.rules.map Event.init_rule ∧
            well_linked s3 (T :: tables) rest) ∨
       ((∀ q ∈ tables, name_at s q ≠ some t.name) ∧ ¬ t.reference_count < INT_MAX ∧
          reload_merge (T :: rest) s tables = .error Fault.int_overflow)) := by
  obtain ⟨t, ht, hrc⟩ := hw.linked_incoming T (List.mem_cons_self _ _)
  rw [Option.mem_def] at ht
  have hTtab : T ∉ tables := fun hm => hw.disjoint T hm (List.mem_cons_self _ _)
  have hTrest : T ∉ rest := (List.nodup_cons.mp hw.nodup_incoming).1
  refine ⟨t, ht, hrc, ?_⟩
  rcases table_lookup_total s tables t.name (linked_alloc s tables hw.linked_active) with
    ⟨hl, hst⟩ | ⟨E, hl, hE, hnE⟩
  · right
    by_cases hmax : t.reference_count < INT_MAX
    · left
      obtain ⟨s3, hstep, hs3, hlog⟩ := reload_merge_new_log s T rest tables t ht hrc hmax hl
      refine ⟨hst, hmax, s3, hstep, hs3, hlog, ?_⟩
      refine ⟨List.nodup_cons.mpr ⟨hTtab, hw.nodup_active⟩,
        (List.nodup_cons.mp hw.nodup_incoming).2, ?_, ?_, ?_⟩
      · intro p hp hpr
        rcases List.mem_cons.mp hp with hp | hp
        · exact hTrest (hp ▸ hpr)
        · exact hw.disjoint p hp (List.mem_cons_of_mem _ hpr)
      · intro p hp
        rw [hs3]
        rcases List.mem_cons.mp hp with hp | hp
        · exact hp ▸ ⟨t, ht, hrc⟩
        · exact hw.linked_active p hp
      · intro p hp
        rw [hs3]
        exact hw.linked_incoming p (List.mem_cons_of_mem _ hp)
    · right
      exact ⟨hst, hmax, reload_merge_overflow s T rest tables t ht hmax hl⟩
  · left
    obtain ⟨e, he, hrce⟩ := hw.linked_active E hE
    rw [Option.mem_def] at he
    have hET : E ≠ T := fun h => hTtab (h ▸ hE)
    have hErest : E ∉ rest := fun h => hw.disjoint E hE (List.mem_cons_of_mem _ h)
    obtain ⟨s4, hstep, hs4, hlog⟩ :=
      reload_merge_found_log s T E rest tables t e ht he hET hrc hl
    refine ⟨E, e, s4, hE, hET, hErest, he, hnE, hl, hstep, hs4, hlog, ?_⟩
    have h4E : s4.heap E = some { e with rules := t.rules } := by
      rw [hs4, Function.update_noteq hET, Function.update_same]
    have h4o : ∀ p, p ≠ T → p ≠ E → s4.heap p = s.heap p := fun p h1 h2 => by
      rw [hs4, Function.update_noteq h1, Function.update_noteq h2]
    refine ⟨hw.nodup_active, (List.nodup_cons.mp hw.nodup_incoming).2,
      fun p hp hpr => hw.disjoint p hp (List.mem_cons_of_mem _ hpr), ?_, ?_⟩
    · intro p hp
      by_cases h2 : p = E
      · subst h2
        exact ⟨_, h4E, hrce⟩
      · rw [h4o p (fun h => hTtab (h ▸ hp)) h2]
        exact hw.linked_active p hp
    · intro p hp
      rw [h4o p (fun h => hTrest (h ▸ hp)) (fun h => hErest (h ▸ hp))]
      exact hw.linked_incoming p (List.mem_cons_of_mem _ hp)

/-- The third loop on well-linked registries either stops on a counter that is
`INT_MAX`, or returns with `new_tables` empty and the outcome `Settled`. -/
theorem reload_merge_settled (new_tables : table_head_t) :
    ∀ (s : State) (tables : table_head_t), well_linked s tables new_tables →
      reload_merge new_tables s tables = .error Fault.int_overflow ∨
      ∃ s1 tables1, reload_merge new_tables s tables = .ok (s1, tables1, []) ∧
        Settled s tables new_tables s1 tables1 := by
  induction new_tables with
  | nil =>
    intro s tables hw
    right
    refine ⟨s, tables, rfl, hw.nodup_active, ⟨[], List.Sublist.refl _, by simp⟩, ?_,
      fun T hT => absurd hT (List.not_mem_nil T), fun _ _ _ => rfl⟩
    intro p hp
    obtain ⟨t, ht, hrc⟩ := hw.linked_active p hp
    rw [Option.mem_def] at ht
    exact ⟨t, t, ht, ht, rfl, rfl, hrc⟩
  | cons T rest ih =>
    intro s tables hw
    have hTtab : T ∉ tables := fun hm => hw.disjoint T hm (List.mem_cons_self _ _)
    have hTrest : T ∉ rest := (List.nodup_cons.mp hw.nodup_incoming).1
    obtain ⟨t, ht, hrc, hround⟩ := reload_merge_round s T rest tables hw
    rcases hround with ⟨E, e, s4, hE, hET, hErest, he, _, _, hstep, hs4, _, hw4⟩ |
      ⟨_, _, s3, hstep, hs3, _, hw3⟩ | ⟨_, _, hover⟩
    · have h4T : s4.heap T = put_result { t with rules := e.rules } := by
        rw [hs4, Function.update_same]
      have h4E : s4.heap E = some { e with rules := t.rules } := by
        rw [hs4, Function.update_noteq hET, Function.update_same]
      have h4o : ∀ p, p ≠ T → p ≠ E → s4.heap p = s.heap p := fun p h1 h2 => by
        rw [hs4, Function.update_noteq h1, Function.update_noteq h2]
      rcases ih s4 tables hw4 with hov | ⟨s1, tables1, hrun, hset⟩
      · left
        rw [hstep, hov]
      · right
        obtain ⟨ins, hins, hlist⟩ := hset.grown
        have hT1 : T ∉ tables1 := by
          rw [hlist]
          simp only [List.mem_append, List.mem_reverse, not_or]
          exact ⟨fun h => hTrest (hins.subset h), hTtab⟩
        refine ⟨s1, tables1, by rw [hstep, hrun], hset.nodup,
          ⟨ins, hins.trans (List.sublist_cons_self T rest), hlist⟩, ?_, ?_, ?_⟩
        · intro p hp
          have hpT : p ≠ T := fun h => hT1 (h ▸ hp)
          obtain ⟨u, u1, hu, hu1, hrc1, hn1, hpos⟩ := hset.counts p hp
          by_cases hpE : p = E
          · subst hpE
            rw [h4E] at hu
            cases hu
            exact ⟨e, u1, he, hu1, hrc1, hn1, hpos⟩
          · rw [h4o p hpT hpE] at hu
            exact ⟨u, u1, hu, hu1, hrc1, hn1, hpos⟩
        · intro T0 h0 hn0
          rcases List.mem_cons.mp h0 with h0 | h0
          · subst h0
            refine ⟨t, ht, ?_, ?_⟩
            · intro h1
              rw [hset.frame T0 hTtab hTrest, h4T]
              simp [put_result, h1]
            · intro h1
              have : t.reference_count ≠ 1 := by omega
              refine ⟨{ t with reference_count := t.reference_count - 1, rules := e.rules },
                ?_, rfl, rfl⟩
              rw [hset.frame T0 hTtab hTrest, h4T]
              simp [put_result, this]
          · have h0T : T0 ≠ T := fun h => hTrest (h ▸ h0)
            have h0E : T0 ≠ E := fun h => hErest (h ▸ h0)
            obtain ⟨u, hu, hrel⟩ := hset.released T0 h0 hn0
            rw [h4o T0 h0T h0E] at hu
            exact ⟨u, hu, hrel⟩
        · intro p hp hpn
          simp only [List.mem_cons, not_or] at hpn
          rw [hset.frame p hp hpn.2]
          exact h4o p hpn.1 fun h => hp (h ▸ hE)
    · rcases ih s3 (T :: tables) hw3 with hov | ⟨s1, tables1, hrun, hset⟩
      · left
        rw [hstep, hov]
      · right
        obtain ⟨ins, hins, hlist⟩ := hset.grown
        refine ⟨s1, tables1, by rw [hstep, hrun], hset.nodup,
          ⟨T :: ins, hins.cons₂ T, by rw [hlist]; simp⟩, ?_, ?_, ?_⟩
        · intro p hp
          obtain ⟨u, u1, hu, hu1, hrc1, hn1, hpos⟩ := hset.counts p hp
          rw [hs3] at hu
          exact ⟨u, u1, hu, hu1, hrc1, hn1, hpos⟩
        · intro T0 h0 hn0
          rcases List.mem_cons.mp h0 with h0 | h0
          · subst h0
            exfalso
            apply hn0
            rw [hlist]
            simp
          · obtain ⟨u, hu, hrel⟩ := hset.released T0 h0 hn0
            rw [hs3] at hu
            exact ⟨u, hu, hrel⟩
        · intro p hp hpn
          simp only [List.mem_cons, not_or] at hpn
          rw [hset.frame p (by simp [hp, hpn.1]) hpn.2, hs3]
    · left
      exact hover

theorem reload_merge_settled_of_ok (s s1 : State) (tables new_tables tables1 r : table_head_t)
    (hw : well_linked s tables new_tables)
    (hrun : reload_merge new_tables s tables = .ok (s1, tables1, r)) :
    r = [] ∧ Settled s tables new_tables s1 tables1 := by
  rcases reload_merge_settled new_tables s tables hw with hov | ⟨s1', tables1', hrun', hset⟩
  · rw [hov] at hrun
    cases hrun
  · rw [hrun'] at hrun
    cases hrun
    exact ⟨rfl, hset⟩

theorem lookup_by_name_congr (s1 s2 : State) (l : table_head_t) (n : Option String)
    (h : ∀ p ∈ l, name_at s1 p = name_at s2 p) :
    lookup_by_name s1 l n = lookup_by_name s2 l n := by
  induction l with
  | nil => rfl
  | cons p rest ih =>
    have hp := h p (List.mem_cons_self _ _)
    have ih' := ih fun q hq => h q (List.mem_cons_of_mem _ hq)
    simp only [lookup_by_name, List.find?_cons, hp] at ih' ⊢
    rw [ih']

theorem lookup_by_name_some (s : State) (l : table_head_t) (n : Option String) (p : ptr)
    (h : lookup_by_name s l n = some p) : p ∈ l ∧ name_at s p = some n := by
  refine ⟨List.mem_of_find?_eq_some h, ?_⟩
  simpa using List.find?_some h

theorem lookup_by_name_none (s : State) (l : table_head_t) (n : Option String)
    (h : lookup_by_name s l n = none) : ∀ p ∈ l, name_at s p ≠ some n := by
  simpa [lookup_by_name] using h

theorem lookup_by_name_snoc (s : State) (l : table_head_t) (T : ptr) (n : Option String) :
    lookup_by_name s (l ++ [T]) n =
      (lookup_by_name s l n).or (if name_at s T = some n then some T else none) := by
  simp only [lookup_by_name, List.find?_append, List.find?_cons, List.find?_nil]
  by_cases h : name_at s T = some n <;> simp [h]

theorem rules_at_congr (s1 s2 : State) (p : ptr) (h : s1.heap p = s2.heap p) :
    rules_at s1 p = rules_at s2 p := by
  simp [rules_at, h]

theorem named_congr (s s3 s1 : State) (a b a1 : table_head_t) (h : s3.heap = s.heap)
    (hm : Named s3 a b s1 a1) : Named s a b s1 a1 := by
  have hn : name_at s3 = name_at s := by
    funext p
    simp [name_at, h]
  have hr : rules_at s3 = rules_at s := by
    funext p
    simp [rules_at, h]
  have hl : lookup_by_name s3 = lookup_by_name s := by
    funext l n
    exact lookup_by_name_congr s3 s l n fun p _ => by rw [hn]
  obtain ⟨h1, h2, h3⟩ := hm
  unfold names_distinct at h1
  rw [hn] at h1 h2 h3
  rw [hr, hl] at h2
  rw [hl] at h3
  exact ⟨h1, h2, h3⟩

/-- The third loop on a registry with pairwise distinct names and any incoming registry. -/
theorem reload_merge_named (new_tables : table_head_t) :
    ∀ (s : State) (tables : table_head_t), well_linked s tables new_tables →
      names_distinct s tables →
      ∀ s1 tables1 r, reload_merge new_tables s tables = .ok (s1, tables1, r) →
        Named s tables new_tables s1 tables1 := by
  induction new_tables with
  | nil =>
    intro s tables _ hd s1 tables1 r hrun
    simp only [reload_merge] at hrun
    cases hrun
    refine ⟨hd, ?_, fun T hT => absurd hT (List.not_mem_nil T)⟩
    intro p _ n _
    simp [lookup_by_name]
  | cons T rest ih =>
    intro s tables hw hd s1 tables1 r hrun
    have hTtab : T ∉ tables := fun hm => hw.disjoint T hm (List.mem_cons_self _ _)
    have hTrest : T ∉ rest := (List.nodup_cons.mp hw.nodup_incoming).1
    obtain ⟨t, ht, hrc, hround⟩ := reload_merge_round s T rest tables hw
    have hnT : name_at s T = some t.name := name_at_of_heap s T t ht
    have hrT : rules_at s T = t.rules := by simp [rules_at, ht]
    rcases hround with ⟨E, e, s4, hE, hET, hErest, he, hnE, _, hstep, hs4, _, hw4⟩ |
      ⟨hst, _, s3, hstep, hs3, _, hw3⟩ | ⟨_, _, hover⟩
    · -- the rules of `E` and `T` are exchanged
      rw [hstep] at hrun
      have h4E : s4.heap E = some { e with rules := t.rules } := by
        rw [hs4, Function.update_noteq hET, Function.update_same]
      have h4o : ∀ p, p ≠ T → p ≠ E → s4.heap p = s.heap p := fun p h1 h2 => by
        rw [hs4, Function.update_noteq h1, Function.update_noteq h2]
      have h4n : ∀ p, p ≠ T → name_at s4 p = name_at s p := fun p h1 => by
        by_cases h2 : p = E
        · subst h2
          simp [name_at, h4E, he]
        · exact name_at_congr s4 s p (h4o p h1 h2)
      have hntab : ∀ p ∈ tables, name_at s4 p = name_at s p := fun p hp =>
        h4n p fun h => hTtab (h ▸ hp)
      have hnrest : ∀ p ∈ rest, name_at s4 p = name_at s p := fun p hp =>
        h4n p fun h => hTrest (h ▸ hp)
      have hhrest : ∀ p ∈ rest, s4.heap p = s.heap p := fun p hp =>
        h4o p (fun h => hTrest (h ▸ hp)) (fun h => hErest (h ▸ hp))
      obtain ⟨_, hset⟩ := reload_merge_settled_of_ok s4 s1 tables rest tables1 r hw4 hrun
      obtain ⟨ins, hins, hlist⟩ := hset.grown
      have hsub : ∀ p ∈ tables, p ∈ tables1 := fun p hp => by
        rw [hlist]
        exact List.mem_append_right _ hp
      have hT1 : T ∉ tables1 := by
        rw [hlist]
        simp only [List.mem_append, List.mem_reverse, not_or]
        exact ⟨fun h => hTrest (hins.subset h), hTtab⟩
      have hn1 : ∀ p ∈ tables1, name_at s4 p = name_at s p := fun p hp =>
        h4n p fun h => hT1 (h ▸ hp)
      have hnm := ih s4 tables hw4
        (names_distinct_congr s s4 tables (fun p hp => (hntab p hp).symm) hd) s1 tables1 r hrun
      have hd1 : names_distinct s tables1 := names_distinct_congr s4 s tables1 hn1 hnm.distinct
      refine ⟨hd1, ?_, ?_⟩
      · intro p hp n hpn
        have hpT : p ≠ T := fun h => hT1 (h ▸ hp)
        have hrule := hnm.rules p hp n (by rw [hn1 p hp, hpn])
        rw [lookup_by_name_congr s4 s rest.reverse n
          (fun q hq => hnrest q (List.mem_reverse.mp hq))] at hrule
        rw [List.reverse_cons, lookup_by_name_snoc]
        cases hL : lookup_by_name s rest.reverse n with
        | some q =>
          rw [hL] at hrule
          have hq := (lookup_by_name_some s rest.reverse n q hL).1
          rw [List.mem_reverse] at hq
          simp only [Option.or_some, Option.getD_some] at hrule ⊢
          rw [hrule]
          exact rules_at_congr s4 s q (hhrest q hq)
        | none =>
          rw [hL] at hrule
          simp only [Option.getD_none, Option.none_or] at hrule ⊢
          rw [hrule]
          by_cases hn : name_at s T = some n
          · have hpE : p = E := names_distinct_eq s tables1 hd1 p E hp (hsub E hE)
              (by rw [hpn, hnE, ← hnT, hn])
            subst hpE
            simp only [hn, if_true, Option.getD_some]
            rw [hrT]
            simp [rules_at, h4E]
          · have hpE : p ≠ E := fun h => hn (by rw [hnT, ← hnE, ← h, hpn])
            simp only [hn, if_false, Option.getD_none]
            exact rules_at_congr s4 s p (h4o p hpT hpE)
      · intro T0 h0 n h0n hnone hfirst
        simp only [lookup_by_name, List.find?_cons] at hfirst
        by_cases hn : name_at s T = some n
        · exfalso
          exact hnone E hE (by rw [hnE, ← hnT, hn])
        · simp only [hn, decide_False] at hfirst
          have h0r : T0 ∈ rest := List.mem_of_find?_eq_some hfirst
          refine hnm.inserted T0 h0r n (by rw [hnrest T0 h0r, h0n])
            (fun E0 hE0 => by rw [hntab E0 hE0]; exact hnone E0 hE0) ?_
          rw [lookup_by_name_congr s4 s rest n hnrest]
          exact hfirst
    · -- `T` is linked in front
      rw [hstep] at hrun
      obtain ⟨_, hset⟩ := reload_merge_settled_of_ok s3 s1 (T :: tables) rest tables1 r hw3 hrun
      obtain ⟨ins, hins, hlist⟩ := hset.grown
      have hsub : ∀ p ∈ T :: tables, p ∈ tables1 := fun p hp => by
        rw [hlist]
        exact List.mem_append_right _ hp
      have hd3 : names_distinct s (T :: tables) := by
        refine List.pairwise_cons.mpr ⟨fun q hq => ?_, hd⟩
        rw [hnT]
        exact Ne.symm (hst q hq)
      have hnm := named_congr s s3 s1 _ _ _ hs3 (ih s3 (T :: tables) hw3
        (names_distinct_congr s s3 _ (fun p _ => by simp [name_at, hs3]) hd3) s1 tables1 r hrun)
      refine ⟨hnm.distinct, ?_, ?_⟩
      · intro p hp n hpn
        have hrule := hnm.rules p hp n hpn
        rw [List.reverse_cons, lookup_by_name_snoc]
        cases hL : lookup_by_name s rest.reverse n with
        | some q =>
          rw [hL] at hrule
          simpa using hrule
        | none =>
          rw [hL] at hrule
          simp only [Option.getD_none, Option.none_or] at hrule ⊢
          rw [hrule]
          by_cases hn : name_at s T = some n
          · have hpT : p = T := names_distinct_eq s tables1 hnm.distinct p T hp
              (hsub T (List.mem_cons_self _ _)) (by rw [hpn, hn])
            simp [hn, hpT]
          · simp [hn]
      · intro T0 h0 n h0n hnone hfirst
        simp only [lookup_by_name, List.find?_cons] at hfirst
        by_cases hn : name_at s T = some n
        · simp only [hn, decide_True] at hfirst
          cases hfirst
          exact hsub T (List.mem_cons_self _ _)
        · simp only [hn, decide_False] at hfirst
          have h0r : T0 ∈ rest := List.mem_of_find?_eq_some hfirst
          refine hnm.inserted T0 h0r n h0n (fun E0 hE0 => ?_) hfirst
          rcases List.mem_cons.mp hE0 with hE0 | hE0
          · rw [hE0]
            exact hn
          · exact hnone E0 hE0
    · rw [hover] at hrun
      cases hrun

/-! ## Reload with arbitrary incoming names -/

theorem pruned_room (s s1 : State) (active incoming l1 : table_head_t)
    (hw : well_linked s active incoming) (hp : Pruned incoming s active s1 l1)
    (hroom : room s incoming) : room s1 incoming := by
  intro p hp1
  rw [hp.frame p (Or.inr fun hm => hw.disjoint p hm hp1)]
  exact hroom p hp1

/-- `reload_tables` on well-linked registries with room in the incoming counters:
the pruning loops, then the third loop, whatever the names. -/
theorem reload_tables_settled (s : State) (active incoming : table_head_t)
    (hw : well_linked s active incoming) (hroom : room s incoming) :
    ∃ s1 l1 s2 active1, Pruned incoming s active s1 l1 ∧ well_linked s1 l1 incoming ∧
      reload_merge incoming s1 l1 = .ok (s2, active1, []) ∧
      reload_tables s active incoming = .ok (s2, active1, []) ∧
      Settled s1 l1 incoming s2 active1 := by
  obtain ⟨sa, la, s1, l1, hrun1, hrun2, hp⟩ := reload_prune_spec s active incoming hw
  have hw1 := Pruned.well_linked s s1 active incoming l1 hw hp
  obtain ⟨s2, active1, hrun3, _⟩ := reload_merge_total incoming s1 l1 hw1
    (pruned_room s s1 active incoming l1 hw hp hroom)
  refine ⟨s1, l1, s2, active1, hp, hw1, hrun3, ?_,
    (reload_merge_settled_of_ok s1 s2 l1 incoming active1 [] hw1 hrun3).2⟩
  simp only [reload_tables, hrun1, hrun2, hrun3]

/-- C14: for registries that are well linked (no repetition, disjoint, every linked
table allocated with `1 <= reference_count`, incoming counters below `INT_MAX`),
`reload_tables` returns without a fault and leaves `incoming` empty; each table that
was in `incoming` is afterwards either linked in `active`, with the count it had, or
not linked and one reference short: freed if its count was 1, else allocated with the
count decremented by 1. -/
theorem reload_tables_consumes_incoming (s : State) (active incoming : table_head_t)
    (hw : well_linked s active incoming) (hroom : room s incoming) :
    ∃ s1 active1, reload_tables s active incoming = .ok (s1, active1, []) ∧
      ∀ T ∈ incoming, ∃ t, s.heap T = some t ∧
        ((T ∈ active1 ∧ ∃ t1, s1.heap T = some t1 ∧
            t1.reference_count = t.reference_count) ∨
         (T ∉ active1 ∧ (t.reference_count = 1 → s1.heap T = none) ∧
            (1 < t.reference_count → ∃ t1, s1.heap T = some t1 ∧
              t1.reference_count = t.reference_count - 1))) := by
  obtain ⟨s1, l1, s2, active1, hp, _, _, hrun, hset⟩ :=
    reload_tables_settled s active incoming hw hroom
  refine ⟨s2, active1, hrun, fun T hT => ?_⟩
  have h1T : s1.heap T = s.heap T := hp.frame T (Or.inr fun hm => hw.disjoint T hm hT)
  by_cases hmem : T ∈ active1
  · obtain ⟨t, t1, ht, ht1, hrc, _, _⟩ := hset.counts T hmem
    rw [h1T] at ht
    exact ⟨t, ht, Or.inl ⟨hmem, t1, ht1, hrc⟩⟩
  · obtain ⟨t, ht, hone, hmany⟩ := hset.released T hT hmem
    rw [h1T] at ht
    refine ⟨t, ht, Or.inr ⟨hmem, hone, fun h => ?_⟩⟩
    obtain ⟨t1, ht1, hrc, _⟩ := hmany h
    exact ⟨t1, ht1, hrc⟩

theorem reload_tables_consumes_incoming_witness :
    ∃ s1 active1, reload_tables dup_tables [1] [2, 4, 3, 5] = .ok (s1, active1, []) ∧
      ∀ T ∈ [2, 4, 3, 5], ∃ t, dup_tables.heap T = some t ∧
        ((T ∈ active1 ∧ ∃ t1, s1.heap T = some t1 ∧
            t1.reference_count = t.reference_count) ∨
         (T ∉ active1 ∧ (t.reference_count = 1 → s1.heap T = none) ∧
            (1 < t.reference_count → ∃ t1, s1.heap T = some t1 ∧
              t1.reference_count = t.reference_count - 1))) :=
  reload_tables_consumes_incoming dup_tables [1] [2, 4, 3, 5]
    ⟨by decide, by decide, by decide, by decide, by decide⟩ (by decide)

/-- After a reload of a registry with pairwise distinct names: the names of the linked
tables, their pairwise distinctness, and the outcome `Named` of the third loop. -/
theorem reload_tables_named (s : State) (active incoming : table_head_t)
    (hw : well_linked s active incoming) (hroom : room s incoming)
    (hd : names_distinct s active) :
    ∃ s1 l1 s2 active1, Pruned incoming s active s1 l1 ∧
      reload_tables s active incoming = .ok (s2, active1, []) ∧
      Settled s1 l1 incoming s2 active1 ∧ Named s1 l1 incoming s2 active1 ∧
      (∀ p ∈ active1, s2.heap p ≠ none ∧ name_at s2 p = name_at s1 p) ∧
      names_distinct s2 active1 := by
  obtain ⟨s1, l1, s2, active1, hp, hw1, hrun3, hrun, hset⟩ :=
    reload_tables_settled s active incoming hw hroom
  have hd1 : names_distinct s1 l1 := names_distinct_congr s s1 l1
    (fun p h => (name_at_congr s1 s p (hp.frame p (Or.inl h))).symm)
    (List.Pairwise.sublist hp.sublist hd)
  have hnm := reload_merge_named incoming s1 l1 hw1 hd1 s2 active1 [] hrun3
  have hn : ∀ p ∈ active1, s2.heap p ≠ none ∧ name_at s2 p = name_at s1 p := by
    intro p hp1
    obtain ⟨t, t1, ht, ht1, _, hname, _⟩ := hset.counts p hp1
    exact ⟨by rw [ht1]; simp, by simp [name_at, ht, ht1, hname]⟩
  exact ⟨s1, l1, s2, active1, hp, hrun, hset, hnm, hn,
    names_distinct_congr s1 s2 active1 (fun p h => ((hn p h).2).symm) hnm.distinct⟩

/-- C18: `reload_tables` keeps the names of the active registry unique, whatever the
names of the incoming registry: if no two tables of `active` carry the same name before
the reload (the absent name counting as a name), none do after it, even when several
incoming tables carry one name. -/
theorem reload_tables_keeps_names_unique (s : State) (active incoming : table_head_t)
    (hw : well_linked s active incoming) (hroom : room s incoming)
    (hd : names_distinct s active) :
    ∃ s1 active1, reload_tables s active incoming = .ok (s1, active1, []) ∧
      names_distinct s1 active1 := by
  obtain ⟨_, _, s2, active1, _, hrun, _, _, _, hd2⟩ :=
    reload_tables_named s active incoming hw hroom hd
  exact ⟨s2, active1, hrun, hd2⟩

theorem reload_tables_keeps_names_unique_witness :
    ∃ s1 active1, reload_tables dup_tables [1] [2, 4, 3, 5] = .ok (s1, active1, []) ∧
      names_distinct s1 active1 :=
  reload_tables_keeps_names_unique dup_tables [1] [2, 4, 3, 5]
    ⟨by decide, by decide, by decide, by decide, by decide⟩ (by decide) (by decide)

/-- C19: when one or several incoming tables carry the name `n`, `F` being the first
and `L` the last of them in the list order of `incoming`: after the reload a lookup of
`n` finds a table that owns the rules `L` had before the reload; that table is the
active table that was named `n` if there was one, and `F` otherwise; every other
incoming table named `n` is not linked and has lost the reference held by `incoming`
(freed if its count was 1, else allocated with the count decremented by 1). -/
theorem reload_tables_last_duplicate_wins (s : State) (active incoming : table_head_t)
    (hw : well_linked s active incoming) (hroom : room s incoming)
    (hd : names_distinct s active) (n : Option String) (F L : ptr)
    (hfirst : lookup_by_name s incoming n = some F)
    (hlast : lookup_by_name s incoming.reverse n = some L) :
    ∃ s1 active1 found, reload_tables s active incoming = .ok (s1, active1, []) ∧
      table_lookup s1 active1 n = .ok (some found) ∧
      rules_at s1 found = rules_at s L ∧
      (∀ E ∈ active, name_at s E = some n → found = E) ∧
      ((∀ E ∈ active, name_at s E ≠ some n) → found = F) ∧
      ∀ T ∈ incoming, name_at s T = some n → T ≠ found →
        T ∉ active1 ∧ ∃ t, s.heap T = some t ∧
          (t.reference_count = 1 → s1.heap T = none) ∧
          (1 < t.reference_count → ∃ t1, s1.heap T = some t1 ∧
            t1.reference_count = t.reference_count - 1) := by
  obtain ⟨s1, l1, s2, active1, hp, hrun, hset, hnm, hn, hd2⟩ :=
    reload_tables_named s active incoming hw hroom hd
  have hin : ∀ q ∈ incoming, s1.heap q = s.heap q := fun q hq =>
    hp.frame q (Or.inr fun hm => hw.disjoint q hm hq)
  have hnin : ∀ q ∈ incoming, name_at s1 q = name_at s q := fun q hq =>
    name_at_congr s1 s q (hin q hq)
  obtain ⟨hFin, hFn⟩ := lookup_by_name_some s incoming n F hfirst
  obtain ⟨hLin, hLn⟩ := lookup_by_name_some s incoming.reverse n L hlast
  rw [List.mem_reverse] at hLin
  have hlast1 : lookup_by_name s1 incoming.reverse n = some L := by
    rw [lookup_by_name_congr s1 s incoming.reverse n
      (fun q hq => hnin q (List.mem_reverse.mp hq)), hlast]
  have hfirst1 : lookup_by_name s1 incoming n = some F := by
    rw [lookup_by_name_congr s1 s incoming n hnin, hfirst]
  obtain ⟨ins, _, hlist⟩ := hset.grown
  -- the table named `n` that is linked after the reload
  have hfound : ∃ found ∈ active1, name_at s1 found = some n ∧
      (∀ E ∈ active, name_at s E = some n → found = E) ∧
      ((∀ E ∈ active, name_at s E ≠ some n) → found = F) := by
    by_cases hex : ∃ E ∈ active, name_at s E = some n
    · obtain ⟨E, hE, hEn⟩ := hex
      have hEl : E ∈ l1 := by
        by_contra hno
        exact hp.stale E hE hno F hFin (by rw [hFn, hEn])
      have hE1 : name_at s1 E = some n := by
        rw [name_at_congr s1 s E (hp.frame E (Or.inl hEl)), hEn]
      refine ⟨E, by rw [hlist]; exact List.mem_append_right _ hEl, hE1, ?_, ?_⟩
      · intro E' hE' hE'n
        exact names_distinct_eq s active hd E E' hE hE' (by rw [hEn, hE'n])
      · intro hnone
        exact absurd hEn (hnone E hE)
    · have hnone : ∀ E ∈ active, name_at s E ≠ some n := fun E hE hEn => hex ⟨E, hE, hEn⟩
      refine ⟨F, ?_, by rw [hnin F hFin, hFn], fun E hE hEn => absurd hEn (hnone E hE),
        fun _ => rfl⟩
      refine hnm.inserted F hFin n (by rw [hnin F hFin, hFn]) ?_ hfirst1
      intro E hE
      rw [name_at_congr s1 s E (hp.frame E (Or.inl hE))]
      exact hnone E (hp.sublist.subset hE)
  obtain ⟨found, hmem, hfn, hex1, hex2⟩ := hfound
  refine ⟨s2, active1, found, hrun, ?_, ?_, hex1, hex2, ?_⟩
  · exact table_lookup_unique s2 active1 n found (fun q hq => (hn q hq).1) hd2 hmem
      (by rw [(hn found hmem).2, hfn])
  · rw [hnm.rules found hmem n hfn, hlast1]
    exact rules_at_congr s1 s L (hin L hLin)
  · intro T hT hTn hTf
    have hT1 : T ∉ active1 := fun hm =>
      hTf (names_distinct_eq s1 active1 hnm.distinct T found hm hmem
        (by rw [hnin T hT, hTn, hfn]))
    obtain ⟨t, ht, hone, hmany⟩ := hset.released T hT hT1
    rw [hin T hT] at ht
    refine ⟨hT1, t, ht, hone, fun h => ?_⟩
    obtain ⟨t1, ht1, hrc, _⟩ := hmany h
    exact ⟨t1, ht1, hrc⟩

theorem reload_tables_last_duplicate_wins_witness :
    ∃ s1 active1 found, reload_tables dup_tables [1] [2, 4, 3, 5] = .ok (s1, active1, []) ∧
      table_lookup s1 active1 (some "c") = .ok (some found) ∧
      rules_at s1 found = rules_at dup_tables 5 ∧
      (∀ E ∈ [1], name_at dup_tables E = some (some "c") → found = E) ∧
      ((∀ E ∈ [1], name_at dup_tables E ≠ some (some "c")) → found = 4) ∧
      ∀ T ∈ [2, 4, 3, 5], name_at dup_tables T = some (some "c") → T ≠ found →
        T ∉ active1 ∧ ∃ t, dup_tables.heap T = some t ∧
          (t.reference_count = 1 → s1.heap T = none) ∧
          (1 < t.reference_count → ∃ t1, s1.heap T = some t1 ∧
            t1.reference_count = t.reference_count - 1) :=
  reload_tables_last_duplicate_wins dup_tables [1] [2, 4, 3, 5]
    ⟨by decide, by decide, by decide, by decide, by decide⟩ (by decide) (by decide)
    (some "c") 4 5 (by decide) (by decide)

/-! ## What reload logs -/

theorem freed_rules_keep (s s2 : State) (iter : ptr) (rest l2 : table_head_t)
    (added : List Event) (hiter : iter ∉ rest) (hsame : ∀ p ∈ rest, s2.heap p = s.heap p)
    (h : freed_rules s2 rest l2 added) : freed_rules s (iter :: rest) (iter :: l2) added := by
  intro ev hev
  obtain ⟨p, hp, hpl, r, hr, hev'⟩ := h ev hev
  refine ⟨p, List.mem_cons_of_mem _ hp, ?_, r, ?_, hev'⟩
  · simp only [List.mem_cons, not_or]
    exact ⟨fun e => hiter (e ▸ hp), hpl⟩
  · rwa [rules_at_congr s s2 p (hsame p hp).symm]

theorem freed_rules_drop (s s1 : State) (iter : ptr) (t : table_t) (rest l2 : table_head_t)
    (added : List Event) (hiter : iter ∉ rest) (hsub : l2.Sublist rest)
    (ht : s.heap iter = some t)
    (hs1 : s1.heap = Function.update s.heap iter (put_result t))
    (h : freed_rules s1 rest l2 added) :
    freed_rules s (iter :: rest) l2
      ((if t.reference_count = 1 then t.rules.map Event.remove_rule else []) ++ added) := by
  intro ev hev
  rcases List.mem_append.mp hev with hev | hev
  · refine ⟨iter, List.mem_cons_self _ _, fun hm => hiter (hsub.subset hm), ?_⟩
    by_cases h1 : t.reference_count = 1
    · simp only [h1, if_true, List.mem_map] at hev
      obtain ⟨r, hr, rfl⟩ := hev
      exact ⟨r, by simpa [rules_at, ht] using hr, rfl⟩
    · simp [h1] at hev
  · obtain ⟨p, hp, hpl, r, hr, hev'⟩ := h ev hev
    have hpi : p ≠ iter := fun e => hiter (e ▸ hp)
    refine ⟨p, List.mem_cons_of_mem _ hp, hpl, r, ?_, hev'⟩
    rwa [rules_at_congr s s1 p (by rw [hs1, Function.update_noteq hpi])]

theorem reload_prune_head_log (new_tables l : table_head_t) (s : State) (hnodup : l.Nodup)
    (hlinked : linked s l) (hdisj : ∀ p ∈ l, p ∉ new_tables)
    (hnew : ∀ q ∈ new_tables, s.heap q ≠ none) :
    ∃ s1 l1 added, reload_prune_head new_tables l s = .ok (s1, l1) ∧ l1.Sublist l ∧
      s1.log = s.log ++ added ∧ freed_rules s l l1 added := by
  induction l generalizing s with
  | nil => exact ⟨s, [], [], rfl, List.Sublist.refl _, by simp,
      fun ev hev => absurd hev (List.not_mem_nil ev)⟩
  | cons iter rest ih =>
    obtain ⟨t, ht, hrc⟩ := hlinked iter (List.mem_cons_self _ _)
    rw [Option.mem_def] at ht
    have hiter : iter ∉ rest := (List.nodup_cons.mp hnodup).1
    have hinew : iter ∉ new_tables := hdisj iter (List.mem_cons_self _ _)
    rcases table_lookup_total s new_tables t.name hnew with ⟨hl, _⟩ | ⟨q, hl, _, _⟩
    · obtain ⟨s1, hput, hs1, hlog⟩ := put_heap_log s iter t ht hrc
      obtain ⟨s2, l2, added, hrun, hsub, hlog2, hfr⟩ := ih s1 (List.nodup_cons.mp hnodup).2
        (linked_update s s1 rest iter _ hs1 hiter
          fun p hp => hlinked p (List.mem_cons_of_mem _ hp))
        (fun p hp => hdisj p (List.mem_cons_of_mem _ hp))
        (alloc_update s s1 new_tables iter _ hs1 hinew hnew)
      refine ⟨s2, l2, _, ?_, hsub.cons iter, ?_,
        freed_rules_drop s s1 iter t rest l2 added hiter hsub ht hs1 hfr⟩
      · simp only [reload_prune_head, ht, hl, hput, hrun]
      · rw [hlog2, hlog, List.append_assoc]
    · refine ⟨s, iter :: rest, [], ?_, List.Sublist.refl _, by simp,
        fun ev hev => absurd hev (List.not_mem_nil ev)⟩
      simp only [reload_prune_head, ht, hl]

theorem reload_prune_rest_log (new_tables : table_head_t) (n : Nat) :
    ∀ (l : table_head_t) (s : State), l.length ≤ n → l.Nodup → linked s l →
      (∀ p ∈ l, p ∉ new_tables) → (∀ q ∈ new_tables, s.heap q ≠ none) →
      ∃ s1 l1 added, reload_prune_rest new_tables l s = .ok (s1, l1) ∧ l1.Sublist l ∧
        s1.log = s.log ++ added ∧ freed_rules s l l1 added := by
  induction n with
  | zero =>
    intro l s hlen _ _ _ _
    have : l = [] := List.length_eq_zero.mp (by omega)
    subst this
    exact ⟨s, [], [], rfl, List.Sublist.refl _, by simp,
      fun ev hev => absurd hev (List.not_mem_nil ev)⟩
  | succ n ih =>
    intro l s hlen hnodup hlinked hdisj hnew
    match l, hlen, hnodup, hlinked, hdisj with
    | [], _, _, _, _ =>
      exact ⟨s, [], [], rfl, List.Sublist.refl _, by simp,
        fun ev hev => absurd hev (List.not_mem_nil ev)⟩
    | [iter], _, _, hlinked, _ =>
      obtain ⟨t, ht, _⟩ := hlinked iter (List.mem_cons_self _ _)
      rw [Option.mem_def] at ht
      exact ⟨s, [iter], [], by simp only [reload_prune_rest, ht], List.Sublist.refl _,
        by simp, fun ev hev => absurd hev (List.not_mem_nil ev)⟩
    | iter :: temp :: rest, hlen, hnodup, hlinked, hdisj =>
      obtain ⟨ti, hti, _⟩ := hlinked iter (List.mem_cons_self _ _)
      rw [Option.mem_def] at hti
      obtain ⟨t, ht, hrc⟩ := hlinked temp (List.mem_cons_of_mem _ (List.mem_cons_self _ _))
      rw [Option.mem_def] at ht
      have hnd2 : (temp :: rest).Nodup := (List.nodup_cons.mp hnodup).2
      have hiter : iter ∉ temp :: rest := (List.nodup_cons.mp hnodup).1
      have htemp : temp ∉ rest := (List.nodup_cons.mp hnd2).1
      have htnew : temp ∉ new_tables :=
        hdisj temp (List.mem_cons_of_mem _ (List.mem_cons_self _ _))
      have hlinked2 : linked s (temp :: rest) := fun p hp =>
        hlinked p (List.mem_cons_of_mem _ hp)
      have hdisj2 : ∀ p ∈ temp :: rest, p ∉ new_tables := fun p hp =>
        hdisj p (List.mem_cons_of_mem _ hp)
      simp only [List.length_cons] at hlen
      rcases table_lookup_total s new_tables t.name hnew with ⟨hl, _⟩ | ⟨q, hl, _, _⟩
      · obtain ⟨s1, hput, hs1, hlog⟩ := put_heap_log s temp t ht hrc
        obtain ⟨s2, l2, added, hrun, hsub, hlog2, hfr⟩ := ih rest s1 (by omega)
          (List.nodup_cons.mp hnd2).2
          (linked_update s s1 rest temp _ hs1 htemp
            fun p hp => hlinked2 p (List.mem_cons_of_mem _ hp))
          (fun p hp => hdisj2 p (List.mem_cons_of_mem _ hp))
          (alloc_update s s1 new_tables temp _ hs1 htnew hnew)
        refine ⟨s2, iter :: l2, _, ?_, (hsub.cons temp).cons₂ iter, ?_,
          freed_rules_keep s s iter (temp :: rest) l2 _ hiter (fun _ _ => rfl)
            (freed_rules_drop s s1 temp t rest l2 added htemp hsub ht hs1 hfr)⟩
        · simp only [reload_prune_rest, hti, ht, hl, hput, hrun]
        · rw [hlog2, hlog, List.append_assoc]
      · obtain ⟨s2, l2, added, hrun, hsub, hlog2, hfr⟩ := ih (temp :: rest) s
          (by simp only [List.length_cons]; omega) hnd2 hlinked2 hdisj2 hnew
        refine ⟨s2, iter :: l2, added, ?_, hsub.cons₂ iter, hlog2,
          freed_rules_keep s s iter (temp :: rest) l2 added hiter (fun _ _ => rfl) hfr⟩
        simp only [reload_prune_rest, hti, ht, hl, hrun]

/-- The log of the two pruning loops: `remove_rule` on rules of tables they unlinked. -/
theorem reload_prune_log (s : State) (active incoming : table_head_t)
    (hw : well_linked s active incoming) (sa s1 : State) (la l1 : table_head_t)
    (hhead : reload_prune_head incoming active s = .ok (sa, la))
    (hrest : reload_prune_rest incoming la sa = .ok (s1, l1)) :
    ∃ added, s1.log = s.log ++ added ∧ freed_rules s active l1 added := by
  obtain ⟨sa', la', add1, hrun1, hsub1, hlog1, hfr1⟩ := reload_prune_head_log incoming
    active s hw.nodup_active hw.linked_active hw.disjoint
    (linked_alloc s incoming hw.linked_incoming)
  rw [hhead] at hrun1
  cases hrun1
  obtain ⟨sa2, la2, hrunh, hph⟩ :=
    reload_prune_head_spec incoming active s hw.nodup_active hw.linked_active hw.disjoint
      (linked_alloc s incoming hw.linked_incoming)
  rw [hhead] at hrunh
  cases hrunh
  have hwa := Pruned.well_linked s sa active incoming la hw hph
  obtain ⟨s1', l1', add2, hrun2, hsub2, hlog2, hfr2⟩ := reload_prune_rest_log incoming
    la.length la sa (le_refl _) hwa.nodup_active hwa.linked_active hwa.disjoint
    (linked_alloc sa incoming hwa.linked_incoming)
  rw [hrest] at hrun2
  cases hrun2
  refine ⟨add1 ++ add2, by rw [hlog2, hlog1, List.append_assoc], ?_⟩
  intro ev hev
  rcases List.mem_append.mp hev with hev | hev
  · obtain ⟨p, hp, hpl, r, hr, hev'⟩ := hfr1 ev hev
    exact ⟨p, hp, fun hm => hpl (hsub2.subset hm), r, hr, hev'⟩
  · obtain ⟨p, hp, hpl, r, hr, hev'⟩ := hfr2 ev hev
    refine ⟨p, hsub1.subset hp, hpl, r, ?_, hev'⟩
    rwa [rules_at_congr s sa p (hph.frame p (Or.inl hp)).symm]

theorem well_formed_found (s s4 : State) (T E : ptr) (rest tables : table_head_t)
    (t e : table_t) (v : Option table_t) (hw : well_formed s tables (T :: rest))
    (hE : E ∈ tables) (he : s.heap E = some e) (hw4 : well_linked s4 tables rest)
    (hs4 : s4.heap = Function.update
      (Function.update s.heap E (some { e with rules := t.rules })) T v) :
    well_formed s4 tables rest ∧ (∀ p, p ≠ T → name_at s4 p = name_at s p) ∧
      (∀ p, p ≠ T → p ≠ E → s4.heap p = s.heap p) := by
  have hTtab : T ∉ tables := fun hm => hw.disjoint T hm (List.mem_cons_self _ _)
  have hTrest : T ∉ rest := (List.nodup_cons.mp hw.nodup_incoming).1
  have hET : E ≠ T := fun h => hTtab (h ▸ hE)
  have hErest : E ∉ rest := fun h => hw.disjoint E hE (List.mem_cons_of_mem _ h)
  have h4E : s4.heap E = some { e with rules := t.rules } := by
    rw [hs4, Function.update_noteq hET, Function.update_same]
  have h4o : ∀ p, p ≠ T → p ≠ E → s4.heap p = s.heap p := fun p h1 h2 => by
    rw [hs4, Function.update_noteq h1, Function.update_noteq h2]
  have h4n : ∀ p, p ≠ T → name_at s4 p = name_at s p := fun p h1 => by
    by_cases h2 : p = E
    · subst h2
      simp [name_at, h4E, he]
    · exact name_at_congr s4 s p (h4o p h1 h2)
  refine ⟨⟨hw4.nodup_active, hw4.nodup_incoming, hw4.disjoint, hw4.linked_active,
    hw4.linked_incoming, ?_, ?_, ?_⟩, h4n, h4o⟩
  · exact names_distinct_congr s s4 tables
      (fun p hp => (h4n p fun h => hTtab (h ▸ hp)).symm) hw.names_active
  · exact names_distinct_congr s s4 rest
      (fun p hp => (h4n p fun h => hTrest (h ▸ hp)).symm)
      (List.pairwise_cons.mp hw.names_incoming).2
  · intro p hp
    rw [h4o p (fun h => hTrest (h ▸ hp)) (fun h => hErest (h ▸ hp))]
    exact hw.room_incoming p (List.mem_cons_of_mem _ hp)

theorem well_formed_new (s s3 : State) (T : ptr) (rest tables : table_head_t) (t : table_t)
    (hw : well_formed s tables (T :: rest)) (ht : s.heap T = some t)
    (hst : ∀ q ∈ tables, name_at s q ≠ some t.name)
    (hw3 : well_linked s3 (T :: tables) rest) (hs3 : s3.heap = s.heap) :
    well_formed s3 (T :: tables) rest := by
  have hn : ∀ p, name_at s3 p = name_at s p := fun p => by simp [name_at, hs3]
  refine ⟨hw3.nodup_active, hw3.nodup_incoming, hw3.disjoint, hw3.linked_active,
    hw3.linked_incoming, ?_, ?_, ?_⟩
  · refine names_distinct_congr s s3 _ (fun p _ => (hn p).symm) ?_
    refine List.pairwise_cons.mpr ⟨fun q hq => ?_, hw.names_active⟩
    rw [name_at_of_heap s T t ht]
    exact Ne.symm (hst q hq)
  · exact names_distinct_congr s s3 rest (fun p _ => (hn p).symm)
      (List.pairwise_cons.mp hw.names_incoming).2
  · intro p hp
    rw [hs3]
    exact hw.room_incoming p (List.mem_cons_of_mem _ hp)

theorem merge_log_congr (s1 s2 : State) (tables1 tables2 l : table_head_t)
    (h : ∀ T ∈ l, merge_events s1 tables1 T = merge_events s2 tables2 T) :
    merge_log s1 tables1 l = merge_log s2 tables2 l := by
  induction l with
  | nil => rfl
  | cons T rest ih =>
    simp only [merge_log]
    rw [h T (List.mem_cons_self _ _), ih fun q hq => h q (List.mem_cons_of_mem _ hq)]

theorem merge_log_append (s : State) (tables l1 l2 : table_head_t) :
    merge_log s tables (l1 ++ l2) = merge_log s tables l1 ++ merge_log s tables l2 := by
  induction l1 with
  | nil => rfl
  | cons T rest ih => simp [merge_log, ih]

theorem merge_log_mem (s : State) (tables l : table_head_t) (ev : Event)
    (h : ev ∈ merge_log s tables l) : ∃ T ∈ l, ev ∈ merge_events s tables T := by
  induction l with
  | nil => simp [merge_log] at h
  | cons T rest ih =>
    simp only [merge_log, List.mem_append] at h
    rcases h with h | h
    · exact ⟨T, List.mem_cons_self _ _, h⟩
    · obtain ⟨T0, h0, hev⟩ := ih h
      exact ⟨T0, List.mem_cons_of_mem _ h0, hev⟩

/-- The log of the third loop on well-formed registries. -/
theorem reload_merge_log (new_tables : table_head_t) :
    ∀ (s : State) (tables : table_head_t), well_formed s tables new_tables →
      ∀ s1 tables1 r, reload_merge new_tables s tables = .ok (s1, tables1, r) →
        s1.log = s.log ++ merge_log s tables new_tables := by
  induction new_tables with
  | nil =>
    intro s tables _ s1 tables1 r hrun
    simp only [reload_merge] at hrun
    cases hrun
    simp [merge_log]
  | cons T rest ih =>
    intro s tables hw s1 tables1 r hrun
    have hTtab : T ∉ tables := fun hm => hw.disjoint T hm (List.mem_cons_self _ _)
    have hTrest : T ∉ rest := (List.nodup_cons.mp hw.nodup_incoming).1
    obtain ⟨t, ht, hrc, hround⟩ :=
      reload_merge_round s T rest tables (well_formed.to_linked s tables _ hw)
    have hnT : name_at s T = some t.name := name_at_of_heap s T t ht
    have hrestT : ∀ T0 ∈ rest, name_at s T0 ≠ name_at s T := fun T0 h0 =>
      Ne.symm ((List.pairwise_cons.mp hw.names_incoming).1 T0 h0)
    have halloc := linked_alloc s tables hw.linked_active
    rcases hround with ⟨E, e, s4, hE, hET, hErest, he, hnE, hl, hstep, hs4, hlog, hw4⟩ |
      ⟨hst, _, s3, hstep, hs3, hlog, hw3⟩ | ⟨_, _, hover⟩
    · rw [hstep] at hrun
      obtain ⟨hwf4, h4n, h4o⟩ := well_formed_found s s4 T E rest tables t e _ hw hE he hw4 hs4
      have hfind : lookup_by_name s tables t.name = some E := by
        rw [table_lookup_eq_find s tables t.name halloc] at hl
        exact Except.ok.inj hl
      rw [ih s4 tables hwf4 s1 tables1 r hrun, hlog]
      have hev : merge_events s tables T = t.rules.map Event.init_rule ++
          if t.reference_count = 1 then e.rules.map Event.remove_rule else [] := by
        simp [merge_events, ht, hfind, rules_at, he]
      have hcongr : merge_log s4 tables rest = merge_log s tables rest := by
        apply merge_log_congr
        intro T0 h0
        have h0T : T0 ≠ T := fun h => hTrest (h ▸ h0)
        have h0E : T0 ≠ E := fun h => hErest (h ▸ h0)
        obtain ⟨t0, ht0, _⟩ := hw.linked_incoming T0 (List.mem_cons_of_mem _ h0)
        rw [Option.mem_def] at ht0
        have hlk : lookup_by_name s4 tables t0.name = lookup_by_name s tables t0.name :=
          lookup_by_name_congr s4 s tables t0.name fun p hp => h4n p fun h => hTtab (h ▸ hp)
        simp only [merge_events, h4o T0 h0T h0E, ht0, hlk]
        cases hL : lookup_by_name s tables t0.name with
        | none => rfl
        | some E0 =>
          obtain ⟨hE0, hE0n⟩ := lookup_by_name_some s tables t0.name E0 hL
          have hE0E : E0 ≠ E := fun h => hrestT T0 h0 (by
            rw [name_at_of_heap s T0 t0 ht0, ← hE0n, h, hnE, hnT])
          have hE0T : E0 ≠ T := fun h => hTtab (h ▸ hE0)
          simp only [rules_at_congr s4 s E0 (h4o E0 hE0T hE0E)]
      rw [hcongr]
      simp only [merge_log, hev, List.append_assoc]
    · rw [hstep] at hrun
      have hwf3 := well_formed_new s s3 T rest tables t hw ht hst hw3 hs3
      have hfind : lookup_by_name s tables t.name = none := by
        simpa [lookup_by_name] using hst
      rw [ih s3 (T :: tables) hwf3 s1 tables1 r hrun, hlog]
      have hev : merge_events s tables T = t.rules.map Event.init_rule := by
        simp [merge_events, ht, hfind]
      have hcongr : merge_log s3 (T :: tables) rest = merge_log s tables rest := by
        apply merge_log_congr
        intro T0 h0
        obtain ⟨t0, ht0, _⟩ := hw.linked_incoming T0 (List.mem_cons_of_mem _ h0)
        rw [Option.mem_def] at ht0
        have hne : name_at s T ≠ some t0.name := by
          rw [← name_at_of_heap s T0 t0 ht0]
          exact Ne.symm (hrestT T0 h0)
        have hlk : lookup_by_name s3 (T :: tables) t0.name =
            lookup_by_name s tables t0.name := by
          rw [lookup_by_name_congr s3 s (T :: tables) t0.name
            fun p _ => by simp [name_at, hs3]]
          simp [lookup_by_name, List.find?_cons, hne]
        have hr : rules_at s3 = rules_at s := by
          funext p
          simp [rules_at, hs3]
        simp only [merge_events, hs3, ht0, hlk, hr]
      rw [hcongr]
      simp only [merge_log, hev, List.append_assoc]
    · rw [hover] at hrun
      cases hrun

theorem merge_events_remove (s : State) (tables : table_head_t) (T : ptr) (r : rule_t)
    (h : Event.remove_rule r ∈ merge_events s tables T) :
    ∃ t E, s.heap T = some t ∧ lookup_by_name s tables t.name = some E ∧
      r ∈ rules_at s E := by
  cases ht : s.heap T with
  | none => simp [merge_events, ht] at h
  | some t =>
    cases hE : lookup_by_name s tables t.name with
    | none => simp [merge_events, ht, hE] at h
    | some E =>
      refine ⟨t, E, rfl, hE, ?_⟩
      by_cases h1 : t.reference_count = 1
      · simpa [merge_events, ht, hE, h1] using h
      · simp [merge_events, ht, hE, h1] at h

theorem rules_apart_ne (s : State) (l : table_head_t) (h : rules_apart s l) (p q : ptr)
    (hp : p ∈ l) (hq : q ∈ l) (hne : p ≠ q) (r : rule_t) (hr : r ∈ rules_at s p) :
    r ∉ rules_at s q := by
  have hsymm : Symmetric fun p q : ptr => ∀ r ∈ rules_at s p, r ∉ rules_at s q :=
    fun a b hab r hrb hra => hab r hra hrb
  exact List.Pairwise.forall hsymm h.2 hp hq hne r hr

/-- C17 (amended): on well-formed registries, names pairwise distinct within each, whose
tables hold rules of their own, for an incoming table `T` named like the active table `E`
and holding the single reference of `incoming`: `reload_tables` frees `T`; the rules `E`
had before the reload go through `remove_rule` in their order, one after the other, each
exactly once in the whole reload, and no rule that `T` had before the reload goes
through `remove_rule`. -/
theorem reload_tables_frees_old_rules (s : State) (active incoming : table_head_t)
    (hw : well_formed s active incoming) (hown : rules_apart s (active ++ incoming))
    (E T : ptr) (e t : table_t) (hE : E ∈ active) (hT : T ∈ incoming)
    (he : s.heap E = some e) (ht : s.heap T = some t) (hname : e.name = t.name)
    (hone : t.reference_count = 1) :
    ∃ s1 active1 before after, reload_tables s active incoming = .ok (s1, active1, []) ∧
      s1.heap T = none ∧
      s1.log = s.log ++ (before ++ e.rules.map Event.remove_rule ++ after) ∧
      (∀ r ∈ e.rules, Event.remove_rule r ∉ before ∧ Event.remove_rule r ∉ after) ∧
      (∀ r ∈ e.rules,
        (before ++ e.rules.map Event.remove_rule ++ after).count (Event.remove_rule r) = 1) ∧
      (∀ r ∈ t.rules,
        Event.remove_rule r ∉ before ++ e.rules.map Event.remove_rule ++ after) := by
  obtain ⟨sa, la, s1, l1, s2, active1, hrun1, hrun2, hrun, hp, hw1, hm⟩ :=
    reload_tables_spec s active incoming hw
  have hwl := well_formed.to_linked s active incoming hw
  obtain ⟨pr, hlog1, hfr⟩ := reload_prune_log s active incoming hwl sa s1 la l1 hrun1 hrun2
  have hrun3 : reload_merge incoming s1 l1 = .ok (s2, active1, []) := by
    simpa only [reload_tables, hrun1, hrun2] using hrun
  have hlog2 := reload_merge_log incoming s1 l1 hw1 s2 active1 [] hrun3
  have hnE := name_at_of_heap s E e he
  have hnT := name_at_of_heap s T t ht
  have hin : ∀ q ∈ incoming, s1.heap q = s.heap q := fun q hq =>
    hp.frame q (Or.inr fun hm => hw.disjoint q hm hq)
  have hl1 : ∀ q ∈ l1, s1.heap q = s.heap q := fun q hq => hp.frame q (Or.inl hq)
  have hEl : E ∈ l1 := by
    by_contra hn
    exact hp.stale E hE hn T hT (by rw [hnE, hnT, hname])
  have h1E : s1.heap E = some e := by rw [hl1 E hEl, he]
  have h1T : s1.heap T = some t := by rw [hin T hT, ht]
  have hET : E ≠ T := fun h => hw.disjoint E hE (h ▸ hT)
  have hfind : lookup_by_name s1 l1 t.name = some E := by
    have h := table_lookup_unique s1 l1 t.name E (linked_alloc s1 l1 hw1.linked_active)
      hw1.names_active hEl (by rw [name_at_of_heap s1 E e h1E, hname])
    rw [table_lookup_eq_find s1 l1 t.name (linked_alloc s1 l1 hw1.linked_active)] at h
    exact Except.ok.inj h
  have hevT : merge_events s1 l1 T =
      t.rules.map Event.init_rule ++ e.rules.map Event.remove_rule := by
    simp [merge_events, h1T, hfind, hone, rules_at, h1E]
  obtain ⟨inc1, inc2, hsplit⟩ := List.mem_iff_append.mp hT
  have hnd := hw.nodup_incoming
  rw [hsplit] at hnd
  have hT12 : T ∉ inc1 ++ inc2 := (List.nodup_cons.mp (List.nodup_middle.mp hnd)).1
  have hmemA : ∀ p ∈ active, p ∈ active ++ incoming := fun p hp =>
    List.mem_append_left _ hp
  -- where a `remove_rule` of the pruning loops comes from
  have hsrc_pr : ∀ r, Event.remove_rule r ∈ pr →
      ∃ p ∈ active, p ≠ E ∧ r ∈ rules_at s p := by
    intro r hr
    obtain ⟨p, hpa, hpl, r', hr', hev⟩ := hfr _ hr
    cases hev
    exact ⟨p, hpa, fun h => hpl (h ▸ hEl), hr'⟩
  -- where a `remove_rule` of the other rounds of the third loop comes from
  have hsrc_mg : ∀ inc' : table_head_t, (∀ T0 ∈ inc', T0 ∈ inc1 ++ inc2) →
      ∀ r, Event.remove_rule r ∈ merge_log s1 l1 inc' →
        ∃ p ∈ active, p ≠ E ∧ r ∈ rules_at s p := by
    intro inc' hsub r hr
    obtain ⟨T0, h0, hev⟩ := merge_log_mem s1 l1 inc' _ hr
    obtain ⟨t0, E0, ht0, hE0, hr0⟩ := merge_events_remove s1 l1 T0 r hev
    obtain ⟨hE0l, hE0n⟩ := lookup_by_name_some s1 l1 t0.name E0 hE0
    have h0in : T0 ∈ incoming := by
      rw [hsplit]
      have := hsub T0 h0
      simp only [List.mem_append, List.mem_cons] at this ⊢
      tauto
    have h0T : T0 ≠ T := fun h => hT12 (h ▸ hsub T0 h0)
    have hnames : name_at s1 T0 ≠ name_at s1 T := fun h =>
      h0T (names_distinct_eq s1 incoming hw1.names_incoming T0 T h0in hT h)
    refine ⟨E0, hp.sublist.subset hE0l, ?_, by rwa [rules_at_congr s s1 E0 (hl1 E0 hE0l).symm]⟩
    intro h
    apply hnames
    rw [name_at_of_heap s1 T0 t0 ht0, name_at_of_heap s1 T t h1T, ← hE0n, h,
      name_at_of_heap s1 E e h1E, hname]
  have hnoE : ∀ r ∈ e.rules, ∀ p ∈ active, p ≠ E → r ∉ rules_at s p := by
    intro r hr p hpa hpE
    exact rules_apart_ne s _ hown E p (hmemA E hE) (hmemA p hpa) (Ne.symm hpE) r
      (by simpa [rules_at, he] using hr)
  have hnoT : ∀ r ∈ t.rules, ∀ p ∈ active, r ∉ rules_at s p := by
    intro r hr p hpa
    exact rules_apart_ne s _ hown T p (List.mem_append_right _ hT) (hmemA p hpa)
      (fun h => hw.disjoint p hpa (h ▸ hT)) r (by simpa [rules_at, ht] using hr)
  have hbefore : ∀ r, Event.remove_rule r ∈
      pr ++ merge_log s1 l1 inc1 ++ t.rules.map Event.init_rule →
      ∃ p ∈ active, p ≠ E ∧ r ∈ rules_at s p := by
    intro r hr
    simp only [List.mem_append, List.mem_map] at hr
    rcases hr with (hr | hr) | ⟨_, _, hr⟩
    · exact hsrc_pr r hr
    · exact hsrc_mg inc1 (fun T0 h0 => List.mem_append_left _ h0) r hr
    · cases hr
  have hafter : ∀ r, Event.remove_rule r ∈ merge_log s1 l1 inc2 →
      ∃ p ∈ active, p ≠ E ∧ r ∈ rules_at s p :=
    hsrc_mg inc2 fun T0 h0 => List.mem_append_right _ h0
  have hnotin : ∀ r ∈ e.rules,
      Event.remove_rule r ∉ pr ++ merge_log s1 l1 inc1 ++ t.rules.map Event.init_rule ∧
      Event.remove_rule r ∉ merge_log s1 l1 inc2 := by
    intro r hr
    constructor
    · intro hmem
      obtain ⟨p, hpa, hpE, hrp⟩ := hbefore r hmem
      exact hnoE r hr p hpa hpE hrp
    · intro hmem
      obtain ⟨p, hpa, hpE, hrp⟩ := hafter r hmem
      exact hnoE r hr p hpa hpE hrp
  refine ⟨s2, active1, pr ++ merge_log s1 l1 inc1 ++ t.rules.map Event.init_rule,
    merge_log s1 l1 inc2, hrun, ?_, ?_, hnotin, ?_, ?_⟩
  · have hsw := (hm.swapped T hT E hEl
      (by rw [name_at_of_heap s1 T t h1T, name_at_of_heap s1 E e h1E, hname]) t e h1T h1E).2
    rw [hsw]
    simp [put_result, hone]
  · rw [hlog2, hlog1, hsplit, merge_log_append]
    simp only [merge_log, hevT, List.append_assoc]
  · intro r hr
    have hnd_e : e.rules.Nodup := by
      have := hown.1 E (hmemA E hE)
      simpa [rules_at, he] using this
    have hinj : Function.Injective Event.remove_rule := fun a b hab => by
      cases hab
      rfl
    rw [List.count_append, List.count_append,
      List.count_eq_zero_of_not_mem (hnotin r hr).1,
      List.count_eq_zero_of_not_mem (hnotin r hr).2,
      List.count_map_of_injective _ _ hinj, List.count_eq_one_of_mem hnd_e hr]
  · intro r hr hmem
    simp only [List.mem_append] at hmem
    rcases hmem with (hmem | hmem) | hmem
    · obtain ⟨p, hpa, _, hrp⟩ := hbefore r (by simpa only [List.mem_append] using hmem)
      exact hnoT r hr p hpa hrp
    · simp only [List.mem_map] at hmem
      obtain ⟨r', hr', hev⟩ := hmem
      cases hev
      exact hnoT r hr E hE (by simpa [rules_at, he] using hr')
    · obtain ⟨p, hpa, _, hrp⟩ := hafter r hmem
      exact hnoT r hr p hpa hrp

theorem reload_tables_frees_old_rules_witness :
    ∃ s1 active1 before after,
      reload_tables five_tables [1, 2, 3] [4, 5] = .ok (s1, active1, []) ∧
      s1.heap 4 = none ∧
      s1.log = five_tables.log ++ (before ++ [10].map Event.remove_rule ++ after) ∧
      (∀ r ∈ [10], Event.remove_rule r ∉ before ∧ Event.remove_rule r ∉ after) ∧
      (∀ r ∈ [10],
        (before ++ [10].map Event.remove_rule ++ after).count (Event.remove_rule r) = 1) ∧
      (∀ r ∈ [40, 41],
        Event.remove_rule r ∉ before ++ [10].map Event.remove_rule ++ after) :=
  reload_tables_frees_old_rules five_tables [1, 2, 3] [4, 5] five_tables_wf (by decide)
    1 4 ⟨some "b", 1, [10]⟩ ⟨some "b", 1, [40, 41]⟩ (by decide) (by decide) rfl rfl rfl rfl

/-- C17 (as stated it fails): with one table "a" linked and two incoming tables "a", each
holding the single reference of `incoming`, the first incoming table is named like the
active table, yet its rule 20 goes through `remove_rule` during the reload: the second
incoming table takes it over from the active table and is freed with it. -/
theorem reload_tables_frees_rules_of_duplicate :
    (well_linked dup_tables [1] [2, 3] ∧ room dup_tables [2, 3] ∧
      names_distinct dup_tables [1] ∧ rules_apart dup_tables ([1] ++ [2, 3])) ∧
    dup_tables.heap 1 = some ⟨some "a", 1, [10]⟩ ∧
    dup_tables.heap 2 = some ⟨some "a", 1, [20]⟩ ∧
    (reload_tables dup_tables [1] [2, 3]).map (fun x => x.1.log) =
      .ok [Event.init_rule 20, Event.remove_rule 10, Event.init_rule 30,
        Event.remove_rule 20] ∧
    ¬ (∀ r ∈ rules_at dup_tables 2, ∀ log,
        (reload_tables dup_tables [1] [2, 3]).map (fun x => x.1.log) = .ok log →
        Event.remove_rule r ∉ log) :=
  ⟨⟨⟨by decide, by decide, by decide, by decide, by decide⟩, by decide, by decide,
      by decide⟩,
    rfl, rfl, by decide,
    fun h => h 20 (by decide)
      [Event.init_rule 20, Event.remove_rule 10, Event.init_rule 30, Event.remove_rule 20]
      (by decide) (by decide)⟩

/-! ## The reference counts over any sequence of calls -/

theorem Counted.swap (s : State) (l other : table_head_t) (holders : ptr → Nat)
    (h : Counted s l other holders) : Counted s other l holders :=
  ⟨h.nodup_other, h.nodup_l, fun p hp hl => h.disjoint p hl hp,
    fun p hp => h.linked p hp.symm, fun p h1 h2 => h.loose p h2 h1, h.gone⟩

theorem counted_congr (s s1 : State) (l other : table_head_t) (holders : ptr → Nat)
    (hs : s1.heap = s.heap) (h : Counted s l other holders) : Counted s1 l other holders := by
  obtain ⟨h1, h2, h3, h4, h5, h6⟩ := h
  rw [← hs] at h4 h5 h6
  exact ⟨h1, h2, h3, h4, h5, h6⟩

theorem counted_to_linked (s : State) (l other : table_head_t) (holders : ptr → Nat)
    (h : Counted s l other holders) : well_linked s l other := by
  refine ⟨h.nodup_l, h.nodup_other, h.disjoint, ?_, ?_⟩
  · intro p hp
    obtain ⟨t, ht, hrc⟩ := h.linked p (Or.inl hp)
    exact ⟨t, ht, by omega⟩
  · intro p hp
    obtain ⟨t, ht, hrc⟩ := h.linked p (Or.inr hp)
    exact ⟨t, ht, by omega⟩

theorem put_result_one (t : table_t) (h : t.reference_count = 1) : put_result t = none := by
  simp [put_result, h]

theorem put_result_many (t : table_t) (h : t.reference_count ≠ 1) :
    put_result t = some { t with reference_count := t.reference_count - 1 } := by
  simp [put_result, h]

/-- What an external `table_ref_put` that returns has done. -/
theorem table_ref_put_ok_heap (s s1 : State) (p : ptr)
    (h : table_ref_put s (some p) = .ok s1) :
    ∃ t, s.heap p = some t ∧ 1 ≤ t.reference_count ∧
      s1.heap = Function.update s.heap p (put_result t) := by
  cases ht : s.heap p with
  | none => simp [table_ref_put, ht] at h
  | some t =>
    by_cases hrc : 1 ≤ t.reference_count
    · obtain ⟨s1', hput, hs1⟩ := put_heap s p t ht hrc
      rw [hput] at h
      cases h
      exact ⟨t, rfl, hrc, hs1⟩
    · rw [table_ref_put_assert s p t ht (by omega)] at h
      cases h

theorem counted_alloc (s : State) (l other : table_head_t) (holders : ptr → Nat)
    (h : Counted s l other holders) (m : Option ptr)
    (hfresh : ∀ p, m = some p → s.heap p = none) :
    Counted (new_table s m).1 l other holders := by
  cases m with
  | none => exact counted_congr s _ l other holders rfl h
  | some p =>
    have hp : s.heap p = none := hfresh p rfl
    have hpl : p ∉ l := fun hm => by
      obtain ⟨t, ht, _⟩ := h.linked p (Or.inl hm)
      rw [hp] at ht
      cases ht
    have hpo : p ∉ other := fun hm => by
      obtain ⟨t, ht, _⟩ := h.linked p (Or.inr hm)
      rw [hp] at ht
      cases ht
    have hne : ∀ q, (q ∈ l ∨ q ∈ other) → q ≠ p := fun q hq e => by
      subst e
      exact hq.elim hpl hpo
    refine ⟨h.nodup_l, h.nodup_other, h.disjoint, ?_, ?_, ?_⟩
    · intro q hq
      simp only [new_table, store_heap_other _ _ (hne q hq)]
      exact h.linked q hq
    · intro q h1 h2 t ht
      by_cases hqp : q = p
      · subst hqp
        simp only [new_table, store_heap_same] at ht
        cases ht
        simp [h.gone q hp]
      · simp only [new_table, store_heap_other _ _ hqp] at ht
        exact h.loose q h1 h2 t ht
    · intro q hq
      by_cases hqp : q = p
      · subst hqp
        simp [new_table] at hq
      · simp only [new_table, store_heap_other _ _ hqp] at hq
        exact h.gone q hq

theorem counted_link (s s1 : State) (l l1 other : table_head_t) (holders : ptr → Nat)
    (h : Counted s l other holders) (p : ptr) (hpl : p ∉ l) (hpo : p ∉ other)
    (hrun : add_table s l p = .ok (s1, l1)) : Counted s1 l1 other holders := by
  cases ht : s.heap p with
  | none => simp [add_table, table_ref_get, ht] at hrun
  | some t =>
    by_cases hmax : t.reference_count < INT_MAX
    · simp only [add_table, table_ref_get_ok s p t ht hmax] at hrun
      cases hrun
      have hloose := h.loose p hpl hpo t ht
      refine ⟨List.nodup_cons.mpr ⟨hpl, h.nodup_l⟩, h.nodup_other, ?_, ?_, ?_, ?_⟩
      · intro q hq
        rcases List.mem_cons.mp hq with hq | hq
        · exact hq ▸ hpo
        · exact h.disjoint q hq
      · intro q hq
        by_cases hqp : q = p
        · subst hqp
          exact ⟨_, store_heap_same _ _ _, by simp only; omega⟩
        · rw [store_heap_other _ _ hqp]
          refine h.linked q ?_
          rcases hq with hq | hq
          · rcases List.mem_cons.mp hq with hq | hq
            · exact absurd hq hqp
            · exact Or.inl hq
          · exact Or.inr hq
      · intro q h1 h2 u hu
        simp only [List.mem_cons, not_or] at h1
        rw [store_heap_other _ _ h1.1] at hu
        exact h.loose q h1.2 h2 u hu
      · intro q hq
        by_cases hqp : q = p
        · subst hqp
          simp at hq
        · rw [store_heap_other _ _ hqp] at hq
          exact h.gone q hq
    · simp [add_table, table_ref_get, ht, hmax] at hrun

theorem counted_retain (s s1 : State) (l other : table_head_t) (holders : ptr → Nat)
    (h : Counted s l other holders) (p q : ptr) (hrun : table_ref_get s p = .ok (s1, q)) :
    Counted s1 l other (Function.update holders p (holders p + 1)) := by
  cases ht : s.heap p with
  | none => simp [table_ref_get, ht] at hrun
  | some t =>
    by_cases hmax : t.reference_count < INT_MAX
    · rw [table_ref_get_ok s p t ht hmax] at hrun
      cases hrun
      refine ⟨h.nodup_l, h.nodup_other, h.disjoint, ?_, ?_, ?_⟩
      · intro x hx
        by_cases hxp : x = p
        · subst hxp
          obtain ⟨u, hu, hrc⟩ := h.linked x hx
          rw [ht] at hu
          cases hu
          exact ⟨_, store_heap_same _ _ _, by
            simp only [Function.update_same]
            push_cast
            omega⟩
        · rw [store_heap_other _ _ hxp, Function.update_noteq hxp]
          exact h.linked x hx
      · intro x h1 h2 u hu
        by_cases hxp : x = p
        · subst hxp
          rw [store_heap_same] at hu
          cases hu
          have := h.loose x h1 h2 t ht
          simp only [Function.update_same]
          push_cast
          omega
        · rw [store_heap_other _ _ hxp] at hu
          rw [Function.update_noteq hxp]
          exact h.loose x h1 h2 u hu
      · intro x hx
        by_cases hxp : x = p
        · subst hxp
          simp at hx
        · rw [store_heap_other _ _ hxp] at hx
          rw [Function.update_noteq hxp]
          exact h.gone x hx
    · simp [table_ref_get, ht, hmax] at hrun

theorem counted_release (s s1 : State) (l other : table_head_t) (holders : ptr → Nat)
    (h : Counted s l other holders) (p : ptr) (hheld : 0 < holders p)
    (hrun : table_ref_put s (some p) = .ok s1) :
    Counted s1 l other (Function.update holders p (holders p - 1)) := by
  obtain ⟨t, ht, hrc, hs1⟩ := table_ref_put_ok_heap s s1 p hrun
  have hother : ∀ x, x ≠ p → s1.heap x = s.heap x := fun x hx => by
    rw [hs1, Function.update_noteq hx]
  have hself : s1.heap p = put_result t := by rw [hs1, Function.update_same]
  refine ⟨h.nodup_l, h.nodup_other, h.disjoint, ?_, ?_, ?_⟩
  · intro x hx
    by_cases hxp : x = p
    · subst hxp
      obtain ⟨u, hu, hcount⟩ := h.linked x hx
      rw [ht] at hu
      cases hu
      have hne : t.reference_count ≠ 1 := by omega
      refine ⟨_, by rw [hself, put_result_many t hne], ?_⟩
      simp only [Function.update_same]
      omega
    · rw [hother x hxp, Function.update_noteq hxp]
      exact h.linked x hx
  · intro x h1 h2 u hu
    by_cases hxp : x = p
    · subst hxp
      have hcount := h.loose x h1 h2 t ht
      by_cases hone : t.reference_count = 1
      · rw [hself, put_result_one t hone] at hu
        cases hu
      · rw [hself, put_result_many t hone] at hu
        cases hu
        simp only [Function.update_same]
        omega
    · rw [hother x hxp] at hu
      rw [Function.update_noteq hxp]
      exact h.loose x h1 h2 u hu
  · intro x hx
    by_cases hxp : x = p
    · subst hxp
      simp only [Function.update_same]
      by_cases hlinked : x ∈ l ∨ x ∈ other
      · obtain ⟨u, hu, hcount⟩ := h.linked x hlinked
        rw [ht] at hu
        cases hu
        have hne : t.reference_count ≠ 1 := by omega
        rw [hself, put_result_many t hne] at hx
        cases hx
      · have hcount := h.loose x (fun hm => hlinked (Or.inl hm))
          (fun hm => hlinked (Or.inr hm)) t ht
        by_cases hone : t.reference_count = 1
        · omega
        · rw [hself, put_result_many t hone] at hx
          cases hx
    · rw [hother x hxp] at hx
      rw [Function.update_noteq hxp]
      exact h.gone x hx

/-- Tables leave the list `l` with one reference less, nothing else changes. -/
theorem counted_shrink (s s1 : State) (l l1 other : table_head_t) (holders : ptr → Nat)
    (h : Counted s l other holders) (hsub : l1.Sublist l)
    (hrel : ∀ p ∈ l, p ∉ l1 → ∀ t, s.heap p = some t → s1.heap p = put_result t)
    (hframe : ∀ q, (q ∈ l1 ∨ q ∉ l) → s1.heap q = s.heap q) :
    Counted s1 l1 other holders := by
  refine ⟨h.nodup_l.sublist hsub, h.nodup_other,
    fun p hp => h.disjoint p (hsub.subset hp), ?_, ?_, ?_⟩
  · intro p hp
    rcases hp with hp | hp
    · rw [hframe p (Or.inl hp)]
      exact h.linked p (Or.inl (hsub.subset hp))
    · rw [hframe p (Or.inr fun hm => h.disjoint p hm hp)]
      exact h.linked p (Or.inr hp)
  · intro p h1 h2 u hu
    by_cases hpl : p ∈ l
    · obtain ⟨t, ht, hcount⟩ := h.linked p (Or.inl hpl)
      rw [hrel p hpl h1 t ht] at hu
      by_cases hone : t.reference_count = 1
      · rw [put_result_one t hone] at hu
        cases hu
      · rw [put_result_many t hone] at hu
        cases hu
        simp only
        omega
    · rw [hframe p (Or.inr hpl)] at hu
      exact h.loose p hpl h2 u hu
  · intro p hp
    by_cases hpl : p ∈ l
    · by_cases hpl1 : p ∈ l1
      · rw [hframe p (Or.inl hpl1)] at hp
        exact h.gone p hp
      · obtain ⟨t, ht, hcount⟩ := h.linked p (Or.inl hpl)
        rw [hrel p hpl hpl1 t ht] at hp
        by_cases hone : t.reference_count = 1
        · omega
        · rw [put_result_many t hone] at hp
          cases hp
    · rw [hframe p (Or.inr hpl)] at hp
      exact h.gone p hp

theorem SLIST_REMOVE_ok (s : State) (l l1 : table_head_t) (p : ptr)
    (h : SLIST_REMOVE s l p = .ok l1) :
    ∃ before after, l = before ++ p :: after ∧ l1 = before ++ after := by
  induction l generalizing l1 with
  | nil => simp [SLIST_REMOVE] at h
  | cons first rest ih =>
    cases hf : s.heap first with
    | none => simp [SLIST_REMOVE, hf] at h
    | some u =>
      by_cases hfp : first = p
      · subst hfp
        simp only [SLIST_REMOVE, hf, if_true] at h
        cases h
        exact ⟨[], rest, rfl, rfl⟩
      · cases hr : SLIST_REMOVE s rest p with
        | error e => simp [SLIST_REMOVE, hf, hfp, hr] at h
        | ok rest1 =>
          simp only [SLIST_REMOVE, hf, hfp, if_false, hr] at h
          cases h
          obtain ⟨before, after, h1, h2⟩ := ih rest1 hr
          exact ⟨first :: before, after, by rw [h1]; rfl, by rw [h2]; rfl⟩

theorem SLIST_REMOVE_fault (s : State) (l : table_head_t) (p : ptr) (e : Fault)
    (h : SLIST_REMOVE s l p = .error e) : e = Fault.bad_pointer := by
  induction l with
  | nil =>
    simp only [SLIST_REMOVE] at h
    cases h
    rfl
  | cons first rest ih =>
    cases hf : s.heap first with
    | none =>
      simp only [SLIST_REMOVE, hf] at h
      cases h
      rfl
    | some u =>
      by_cases hfp : first = p
      · subst hfp
        simp [SLIST_REMOVE, hf] at h
      · cases hr : SLIST_REMOVE s rest p with
        | error e' =>
          simp only [SLIST_REMOVE, hf, hfp, if_false, hr] at h
          cases h
          exact ih hr
        | ok rest1 => simp [SLIST_REMOVE, hf, hfp, hr] at h

theorem counted_unlink (s s1 : State) (l l1 other : table_head_t) (holders : ptr → Nat)
    (h : Counted s l other holders) (p : ptr)
    (hrun : remove_table s l p = .ok (s1, l1)) : Counted s1 l1 other holders := by
  cases hr : SLIST_REMOVE s l p with
  | error e => simp [remove_table, hr] at hrun
  | ok l2 =>
    cases hput : table_ref_put s (some p) with
    | error e => simp [remove_table, hr, hput] at hrun
    | ok s2 =>
      simp only [remove_table, hr, hput] at hrun
      cases hrun
      obtain ⟨before, after, hsplit, hl1⟩ := SLIST_REMOVE_ok s l l1 p hr
      obtain ⟨t, ht, _, hs1⟩ := table_ref_put_ok_heap s s1 p hput
      have hnd := h.nodup_l
      rw [hsplit] at hnd
      have hpl1 : p ∉ l1 := by
        rw [hl1]
        exact (List.nodup_cons.mp (List.nodup_middle.mp hnd)).1
      have hsub : l1.Sublist l := by
        rw [hl1, hsplit]
        exact List.Sublist.append (List.Sublist.refl _) (List.sublist_cons_self p after)
      refine counted_shrink s s1 l l1 other holders h hsub ?_ ?_
      · intro q hq hq1 u hu
        have hqp : q = p := by
          rw [hsplit] at hq
          rw [hl1] at hq1
          simp only [List.mem_append, List.mem_cons, not_or] at hq hq1
          rcases hq with hq | hq | hq
          · exact absurd hq hq1.1
          · exact hq
          · exact absurd hq hq1.2
        subst hqp
        rw [ht] at hu
        cases hu
        rw [hs1, Function.update_same]
      · intro q hq
        have hqp : q ≠ p := by
          rintro rfl
          rcases hq with hq | hq
          · exact hpl1 hq
          · exact hq (by rw [hsplit]; simp)
        rw [hs1, Function.update_noteq hqp]

theorem counted_drain (s s1 : State) (l l1 other : table_head_t) (holders : ptr → Nat)
    (h : Counted s l other holders)
    (hrun : free_tables l s = .ok (s1, l1)) : Counted s1 l1 other holders := by
  obtain ⟨s1', hrun', hrel, hframe⟩ := free_tables_spec l s h.nodup_l
    (counted_to_linked s l other holders h).linked_active
  rw [hrun'] at hrun
  cases hrun
  refine counted_shrink s s1 l [] other holders h (List.nil_sublist l)
    (fun p hp _ t ht => hrel p hp t ht) ?_
  intro q hq
  rcases hq with hq | hq
  · exact absurd hq (List.not_mem_nil q)
  · exact hframe q hq

theorem counted_settled (s s1 : State) (l incoming l1 : table_head_t)
    (holders : ptr → Nat) (h : Counted s l incoming holders)
    (hset : Settled s l incoming s1 l1) : Counted s1 l1 [] holders := by
  obtain ⟨ins, hins, hlist⟩ := hset.grown
  have hmem : ∀ p ∈ l1, p ∈ l ∨ p ∈ incoming := by
    intro p hp
    rw [hlist] at hp
    rcases List.mem_append.mp hp with hp | hp
    · exact Or.inr (hins.subset (List.mem_reverse.mp hp))
    · exact Or.inl hp
  have hl : ∀ p ∈ l, p ∈ l1 := fun p hp => by
    rw [hlist]
    exact List.mem_append_right _ hp
  refine ⟨hset.nodup, List.nodup_nil, fun p _ => List.not_mem_nil p, ?_, ?_, ?_⟩
  · intro p hp
    rcases hp with hp | hp
    · obtain ⟨t, t1, ht, ht1, hrc, _, _⟩ := hset.counts p hp
      obtain ⟨u, hu, hcount⟩ := h.linked p (hmem p hp)
      rw [ht] at hu
      cases hu
      exact ⟨t1, ht1, by omega⟩
    · exact absurd hp (List.not_mem_nil p)
  · intro p h1 _ u hu
    by_cases hpin : p ∈ incoming
    · obtain ⟨t, ht, hone, hmany⟩ := hset.released p hpin h1
      obtain ⟨t', ht', hcount⟩ := h.linked p (Or.inr hpin)
      rw [ht] at ht'
      cases ht'
      by_cases h1' : t.reference_count = 1
      · rw [hone h1'] at hu
        cases hu
      · obtain ⟨t1, ht1, hrc, _⟩ := hmany (by omega)
        rw [ht1] at hu
        cases hu
        omega
    · have hpl : p ∉ l := fun hm => h1 (hl p hm)
      rw [hset.frame p hpl hpin] at hu
      exact h.loose p hpl hpin u hu
  · intro p hp
    by_cases hp1 : p ∈ l1
    · obtain ⟨t, t1, _, ht1, _⟩ := hset.counts p hp1
      rw [ht1] at hp
      cases hp
    · by_cases hpin : p ∈ incoming
      · obtain ⟨t, ht, hone, hmany⟩ := hset.released p hpin hp1
        obtain ⟨t', ht', hcount⟩ := h.linked p (Or.inr hpin)
        rw [ht] at ht'
        cases ht'
        by_cases h1' : t.reference_count = 1
        · omega
        · obtain ⟨t1, ht1, _⟩ := hmany (by omega)
          rw [ht1] at hp
          cases hp
      · have hpl : p ∉ l := fun hm => hp1 (hl p hm)
        rw [hset.frame p hpl hpin] at hp
        exact h.gone p hp

theorem counted_reload (s s1 : State) (l incoming a1 i1 : table_head_t)
    (holders : ptr → Nat) (h : Counted s l incoming holders)
    (hrun : reload_tables s l incoming = .ok (s1, a1, i1)) : Counted s1 a1 i1 holders := by
  have hw := counted_to_linked s l incoming holders h
  obtain ⟨sa, la, sp, lp, hrun1, hrun2, hp⟩ := reload_prune_spec s l incoming hw
  simp only [reload_tables, hrun1, hrun2] at hrun
  have hwp := Pruned.well_linked s sp l incoming lp hw hp
  obtain ⟨hi1, hset⟩ := reload_merge_settled_of_ok sp s1 lp incoming a1 i1 hwp hrun
  subst hi1
  have hcp : Counted sp lp incoming holders :=
    counted_shrink s sp l lp incoming holders h hp.sublist
      (fun p hpl hpl1 t ht => by
        obtain ⟨t', ht', hrel⟩ := hp.released p hpl hpl1
        rw [ht] at ht'
        cases ht'
        exact hrel)
      hp.frame
  exact counted_settled sp s1 lp incoming a1 holders hcp hset

/-- `reload_tables` on registries whose counts add up returns or stops on an `int` that
cannot be incremented; it does not fail the assertion of `table_ref_put`. -/
theorem reload_tables_no_assert (s : State) (l incoming : table_head_t)
    (hw : well_linked s l incoming) :
    reload_tables s l incoming ≠ .error Fault.assert_failed := by
  obtain ⟨sa, la, sp, lp, hrun1, hrun2, hp⟩ := reload_prune_spec s l incoming hw
  have hwp := Pruned.well_linked s sp l incoming lp hw hp
  simp only [reload_tables, hrun1, hrun2]
  rcases reload_merge_settled incoming sp lp hwp with hov | ⟨s1, l1, hrun, _⟩
  · rw [hov]
    intro h
    cases h
  · rw [hrun]
    intro h
    cases h

theorem remove_table_no_assert (s : State) (l : table_head_t) (p : ptr)
    (hlinked : linked s l) : remove_table s l p ≠ .error Fault.assert_failed := by
  cases hr : SLIST_REMOVE s l p with
  | error e =>
    have := SLIST_REMOVE_fault s l p e hr
    subst this
    simp [remove_table, hr]
  | ok l2 =>
    obtain ⟨before, after, hsplit, _⟩ := SLIST_REMOVE_ok s l l2 p hr
    obtain ⟨t, ht, hrc⟩ := hlinked p (by rw [hsplit]; simp)
    obtain ⟨s1, hput, _⟩ := put_heap s p t ht hrc
    simp [remove_table, hr, hput]

theorem add_table_no_assert (s : State) (l : table_head_t) (p : ptr) :
    add_table s l p ≠ .error Fault.assert_failed := by
  cases ht : s.heap p with
  | none => simp [add_table, table_ref_get, ht]
  | some t =>
    by_cases hmax : t.reference_count < INT_MAX
    · simp [add_table, table_ref_get, ht, hmax]
    · simp [add_table, table_ref_get, ht, hmax]

theorem reachable_counted (w : World) (h : Reachable w) :
    Counted w.s w.active w.incoming w.holders := by
  induction h with
  | start =>
    exact ⟨List.nodup_nil, List.nodup_nil, fun p hp => absurd hp (List.not_mem_nil p),
      fun p hp => hp.elim (fun h => absurd h (List.not_mem_nil p))
        (fun h => absurd h (List.not_mem_nil p)),
      fun p _ _ t ht => by simp [World.start] at ht, fun _ _ => rfl⟩
  | step w w1 _ hstep ih =>
    cases hstep with
    | alloc m hfresh => exact counted_alloc w.s w.active w.incoming w.holders ih m hfresh
    | link r p s1 l1 hactive hincoming hrun =>
      cases r with
      | active =>
        exact counted_link w.s s1 w.active l1 w.incoming w.holders ih p hactive hincoming hrun
      | incoming =>
        exact Counted.swap _ _ _ _ (counted_link w.s s1 w.incoming l1 w.active w.holders
          (Counted.swap _ _ _ _ ih) p hincoming hactive hrun)
    | unlink r p s1 l1 hrun =>
      cases r with
      | active => exact counted_unlink w.s s1 w.active l1 w.incoming w.holders ih p hrun
      | incoming =>
        exact Counted.swap _ _ _ _ (counted_unlink w.s s1 w.incoming l1 w.active w.holders
          (Counted.swap _ _ _ _ ih) p hrun)
    | drain r s1 l1 hrun =>
      cases r with
      | active => exact counted_drain w.s s1 w.active l1 w.incoming w.holders ih hrun
      | incoming =>
        exact Counted.swap _ _ _ _ (counted_drain w.s s1 w.incoming l1 w.active w.holders
          (Counted.swap _ _ _ _ ih) hrun)
    | reload s1 a1 i1 hrun =>
      exact counted_reload w.s s1 w.active w.incoming a1 i1 w.holders ih hrun
    | retain p q s1 hrun =>
      exact counted_retain w.s s1 w.active w.incoming w.holders ih p q hrun
    | release p s1 hheld hrun =>
      exact counted_release w.s s1 w.active w.incoming w.holders ih p hheld hrun

/-- C15: the registry-reference invariant.  In every world reached from empty registries
by calls of `new_table`, `add_table`, `remove_table`, `free_tables`, `reload_tables` and
paired external `table_ref_get` / `table_ref_put` that return, every table linked in a
registry is allocated and its `reference_count` is at least 1: one reference for the
registry plus one for each outstanding external holder.  In such a world no registry
operation fails the assertion of `table_ref_put`: `add_table` and `remove_table` on any
table, and `reload_tables`, do not, and `free_tables` returns. -/
theorem registry_reference_invariant (w : World) (h : Reachable w) :
    (∀ p, p ∈ w.active ∨ p ∈ w.incoming →
      ∃ t, w.s.heap p = some t ∧ 1 ≤ t.reference_count ∧
        t.reference_count = 1 + (w.holders p : Int)) ∧
    (∀ r p, add_table w.s (w.reg r) p ≠ .error Fault.assert_failed) ∧
    (∀ r p, remove_table w.s (w.reg r) p ≠ .error Fault.assert_failed) ∧
    (∀ r, ∃ s1, free_tables (w.reg r) w.s = .ok (s1, [])) ∧
    reload_tables w.s w.active w.incoming ≠ .error Fault.assert_failed := by
  have hc := reachable_counted w h
  have hw := counted_to_linked w.s w.active w.incoming w.holders hc
  have hreg : ∀ r, (w.reg r).Nodup ∧ linked w.s (w.reg r) := by
    intro r
    cases r with
    | active => exact ⟨hw.nodup_active, hw.linked_active⟩
    | incoming => exact ⟨hw.nodup_incoming, hw.linked_incoming⟩
  refine ⟨?_, fun r p => add_table_no_assert w.s (w.reg r) p,
    fun r p => remove_table_no_assert w.s (w.reg r) p (hreg r).2, ?_,
    reload_tables_no_assert w.s w.active w.incoming hw⟩
  · intro p hp
    obtain ⟨t, ht, hcount⟩ := hc.linked p hp
    exact ⟨t, ht, by omega, hcount⟩
  · intro r
    obtain ⟨s1, hrun, _⟩ := free_tables_spec (w.reg r) w.s (hreg r).1 (hreg r).2
    exact ⟨s1, hrun⟩

theorem registry_reference_invariant_witness :
    (∀ p, p ∈ world_linked.active ∨ p ∈ world_linked.incoming →
      ∃ t, world_linked.s.heap p = some t ∧ 1 ≤ t.reference_count ∧
        t.reference_count = 1 + (world_linked.holders p : Int)) ∧
    (∀ r p, add_table world_linked.s (world_linked.reg r) p ≠ .error Fault.assert_failed) ∧
    (∀ r p, remove_table world_linked.s (world_linked.reg r) p ≠
      .error Fault.assert_failed) ∧
    (∀ r, ∃ s1, free_tables (world_linked.reg r) world_linked.s = .ok (s1, [])) ∧
    reload_tables world_linked.s world_linked.active world_linked.incoming ≠
      .error Fault.assert_failed :=
  registry_reference_invariant world_linked
    (Reachable.step world_allocated world_linked
      (Reachable.step World.start world_allocated Reachable.start
        (Step.alloc World.start (some 1) (fun _ _ => rfl)))
      (Step.link world_allocated Reg.active 1
        (world_allocated.s.store 1 (some ⟨none, 1, []⟩)) [1]
        (by decide) (by decide) rfl))

end Table
